import Mathlib

/-!
Shallow embedding of the DAIDALUS detect-and-avoid core (C++ sources under
`src/C++`).  Doubles are modelled as real numbers; `Util::almost_equals`
(documented as an ulp-based tolerance standing in for exact `==` on doubles)
is modelled as real equality; the all-NaN `INVALID` sentinels and the NaN
results of dividing by zero are modelled by `Option` (`none`).  Functions of
the repository that are only declared in the sources at hand (their `.cpp`
file is absent) are modelled from the specification and carry a doc comment
starting with `Modelled from the spec:`.
-/

open scoped Classical

noncomputable section

namespace Daidalus

/-! ## Util scalar helpers (Util.h / Util.cpp) -/

/-- `Util::sq` -/
def sq (x : ℝ) : ℝ := x * x

/-- `Util::sqrt_safe(x) = sqrt(max(x,0))`. -/
def sqrt_safe (x : ℝ) : ℝ := Real.sqrt (max x 0)

/-- Modelled from the spec: `Util::root(a,b,c,sign)` is the specified root of
`a·x² + b·x + c`, with a sentinel (here `none`) when the discriminant is
negative; the linear case `a = 0` yields `-c/b`, and `none` when `b` is also
zero. -/
def root (a b c : ℝ) (eps : ℝ) : Option ℝ :=
  if a = 0 then
    (if b = 0 then none else some (-c / b))
  else
    (if sq b - 4 * a * c < 0 then none
     else some ((-b + eps * Real.sqrt (sq b - 4 * a * c)) / (2 * a)))

/-- `Util::to_pi`: normalize an angle to `(-π, π]`; only its existence matters
here (no claim depends on its value). -/
def to_pi (x : ℝ) : ℝ := x - 2 * Real.pi * round (x / (2 * Real.pi))

/-! ## Vectors (Vect2.h, Vect3.cpp) -/

/-- 2-D Euclidean vector of doubles. -/
structure Vect2 where
  x : ℝ
  y : ℝ

namespace Vect2

def add (a b : Vect2) : Vect2 := ⟨a.x + b.x, a.y + b.y⟩

def neg (a : Vect2) : Vect2 := ⟨-a.x, -a.y⟩

/-- `Vect2::Sub` -/
def sub (a b : Vect2) : Vect2 := ⟨a.x - b.x, a.y - b.y⟩

/-- `Vect2::dot` -/
def dot (a b : Vect2) : ℝ := a.x * b.x + a.y * b.y

/-- `Vect2::det` -/
def det (a b : Vect2) : ℝ := a.x * b.y - a.y * b.x

/-- `Vect2::sqv` -/
def sqv (a : Vect2) : ℝ := a.dot a

/-- `Vect2::norm` -/
def norm (a : Vect2) : ℝ := Real.sqrt a.sqv

/-- `Vect2::ScalAdd(k, w) = k·this + w` (as used in `WCV_tvar.cpp`). -/
def ScalAdd (a : Vect2) (k : ℝ) (w : Vect2) : Vect2 := ⟨a.x * k + w.x, a.y * k + w.y⟩

/-- `Vect2::Scal` -/
def Scal (a : Vect2) (k : ℝ) : Vect2 := ⟨a.x * k, a.y * k⟩

def zero : Vect2 := ⟨0, 0⟩

end Vect2

/-- 3-D Euclidean vector of doubles. -/
structure Vect3 where
  x : ℝ
  y : ℝ
  z : ℝ

namespace Vect3

/-- `Vect3::vect2` -/
def vect2 (a : Vect3) : Vect2 := ⟨a.x, a.y⟩

def add (a b : Vect3) : Vect3 := ⟨a.x + b.x, a.y + b.y, a.z + b.z⟩

/-- `Vect3::Sub` -/
def sub (a b : Vect3) : Vect3 := ⟨a.x - b.x, a.y - b.y, a.z - b.z⟩

/-- `Vect3::dot` -/
def dot (a b : Vect3) : ℝ := a.x * b.x + a.y * b.y + a.z * b.z

/-- `Vect3::sqv` -/
def sqv (a : Vect3) : ℝ := a.dot a

/-- `Vect3::norm` -/
def norm (a : Vect3) : ℝ := Real.sqrt a.sqv

/-- `Vect3::linear(v,t) = this + v·t` -/
def linear (a : Vect3) (v : Vect3) (t : ℝ) : Vect3 :=
  ⟨a.x + v.x * t, a.y + v.y * t, a.z + v.z * t⟩

/-- `Vect3::mkZ` -/
def mkZ (a : Vect3) (nz : ℝ) : Vect3 := ⟨a.x, a.y, nz⟩

/-- `Vect3::cyl_norm(d,h) = max(|xy|²/d², (z/h)²)` -/
def cyl_norm (a : Vect3) (d h : ℝ) : ℝ := max (a.vect2.sqv / sq d) (sq (a.z / h))

def zero : Vect3 := ⟨0, 0, 0⟩

end Vect3

/-! ## Intervals and loss data (Interval.h, LossData.h, ConflictData.h) -/

/-- `Interval`: `[low,up]`, empty iff `low > up`. -/
structure Interval where
  low : ℝ
  up : ℝ

/-- `LossData`: the conflict interval `(time_in, time_out)`; no conflict is
encoded as `time_in > time_out`. -/
structure LossData where
  time_in : ℝ
  time_out : ℝ

/-- A `LossData` reports a conflict iff the interval is non-empty. -/
def LossData.nonempty (ld : LossData) : Prop := ld.time_in ≤ ld.time_out

/-- `ConflictData`: loss interval plus critical time/distance and the relative
state.  (`Velocity::Sub` in the real-number model returns exactly the
component-wise difference vector, so `v` is stored as a `Vect3`.) -/
structure ConflictData where
  lossData : LossData
  time_crit : ℝ
  dist_crit : ℝ
  s : Vect3
  v : Vect3

/-! ## Velocity (Velocity.cpp) -/

/-- `Velocity`: cached `trk`/`gs` plus the Cartesian triple `(vx,vy,vz)`.
The private 5-argument constructor of `Velocity.cpp` corresponds to the
anonymous structure constructor. -/
structure Velocity where
  trk : ℝ
  gs : ℝ
  vx : ℝ
  vy : ℝ
  vz : ℝ

namespace Velocity

/-- `Velocity::trkgs2vx` -/
def trkgs2vx (trk gs : ℝ) : ℝ := gs * Real.sin trk

/-- `Velocity::trkgs2vy` -/
def trkgs2vy (trk gs : ℝ) : ℝ := gs * Real.cos trk

/-- `Velocity::mkTrkGsVs` -/
def mkTrkGsVs (trk gs vs : ℝ) : Velocity :=
  ⟨trk, gs, trkgs2vx trk gs, trkgs2vy trk gs, vs⟩

/-- The representation invariant maintained by every public constructor:
the Cartesian pair agrees with the cached track and ground speed. -/
def Valid (v : Velocity) : Prop :=
  v.vx = trkgs2vx v.trk v.gs ∧ v.vy = trkgs2vy v.trk v.gs

def vect2 (v : Velocity) : Vect2 := ⟨v.vx, v.vy⟩

def vect3 (v : Velocity) : Vect3 := ⟨v.vx, v.vy, v.vz⟩

/-- `Velocity::mkTrk`: new velocity from an existing one, changing only the
track. -/
def mkTrk (v : Velocity) (trk : ℝ) : Velocity := mkTrkGsVs trk v.gs v.vz

/-- `Velocity::mkGs`: new velocity changing only the ground speed; a negative
argument yields the `INVALID` sentinel, modelled as `none`. -/
def mkGs (v : Velocity) (ags : ℝ) : Option Velocity :=
  if ags < 0 then none
  else if 0 < v.gs then
    some ⟨v.trk, ags, v.vx * (ags / v.gs), v.vy * (ags / v.gs), v.vz⟩
  else some (mkTrkGsVs v.trk ags v.vz)

/-- `Velocity::mkVs`: new velocity changing only the vertical speed. -/
def mkVs (v : Velocity) (vs : ℝ) : Velocity := ⟨v.trk, v.gs, v.vx, v.vy, vs⟩

/-- `Velocity::mkAddTrk` -/
def mkAddTrk (v : Velocity) (atrk : ℝ) : Velocity :=
  ⟨to_pi (v.trk + atrk), v.gs,
    v.vx * Real.cos atrk + v.vy * Real.sin atrk,
    -v.vx * Real.sin atrk + v.vy * Real.cos atrk, v.vz⟩

end Velocity

/-! ## Horizontal geometry (Horizontal.h; the implementation file is not among
the sources at hand, so these are modelled from the spec) -/

/-- Modelled from the spec: `Horizontal::tcpa` — the time of horizontal closest
approach, `max(0, -(s·v)/|v|²)`, with the parallel-velocity case returning 0. -/
def tcpa (s v : Vect2) : ℝ :=
  if v.sqv = 0 then 0 else max 0 (-(s.dot v) / v.sqv)

/-- Modelled from the spec: `Horizontal::dcpa` — the distance at the time of
horizontal closest approach. -/
def dcpa (s v : Vect2) : ℝ := (v.ScalAdd (tcpa s v) s).norm

/-- Modelled from the spec: `Horizontal::Delta(s,v,D)` — the (quarter)
discriminant `D²·|v|² - det(s,v)²` of `|s + t·v|² = D²`; the root guard used by
`WCV_TAUMOD::horizontal_WCV_interval`. -/
def Delta (s v : Vect2) (D : ℝ) : ℝ := sq D * v.sqv - sq (s.det v)

/-- Modelled from the spec: `Horizontal::Theta_D(s,v,eps,D)` — the time at
which `|s + v·t| = D`, on the outgoing side for `eps = 1` (the incoming side
for `eps = -1`): the `eps`-root `(-(s·v) + eps·√(Delta))/|v|²` of the
quadratic `|s + t·v|² = D²`. -/
def Theta_D (s v : Vect2) (eps : ℝ) (D : ℝ) : ℝ :=
  (-(s.dot v) + eps * Real.sqrt (Delta s v D)) / v.sqv

/-! ## WCV table (WCVTable.h; implementation modelled from the spec) -/

/-- `WCVTable`: the four thresholds `DTHR, ZTHR, TTHR, TCOA` (SI units). -/
structure WCVTable where
  DTHR : ℝ
  ZTHR : ℝ
  TTHR : ℝ
  TCOA : ℝ

/-- Modelled from the spec: `WCVTable::contains` — table `A` contains `B` iff
`DTHR_A ≥ DTHR_B ∧ ZTHR_A ≥ ZTHR_B ∧ TTHR_A ≥ TTHR_B ∧ TCOA_A ≥ TCOA_B`. -/
def WCVTable.contains (A B : WCVTable) : Prop :=
  B.DTHR ≤ A.DTHR ∧ B.ZTHR ≤ A.ZTHR ∧ B.TTHR ≤ A.TTHR ∧ B.TCOA ≤ A.TCOA

/-! ## Vertical WCV (WCV_Vertical.h, WCV_TCOA.h, WCV_VMOD.h; implementations
modelled from the spec §4.3) -/

/-- The two vertical well-clear models. -/
inductive Vert where
  | tcoa : Vert
  | vmod : Vert

/-- Modelled from the spec: the vertical loss predicate.  `VMOD`: loss iff
`|sz| ≤ ZTHR`.  `TCOA`: loss iff within `ZTHR` or the time to co-altitude
`-sz/vz` (defined when `sz·vz < 0`) lies within `[0,TCOA]`. -/
def vertical_WCV (vert : Vert) (ZTHR TCOA sz vz : ℝ) : Prop :=
  match vert with
  | Vert.vmod => |sz| ≤ ZTHR
  | Vert.tcoa => |sz| ≤ ZTHR ∨ (sz * vz < 0 ∧ 0 ≤ -sz / vz ∧ -sz / vz ≤ TCOA)

/-- Modelled from the spec: the vertical loss interval on `[B,T]` — the set
`{t ∈ [B,T] : vertical_WCV(sz + t·vz, vz)}` written as an `Interval` (solving
the linear inequalities; empty encoded as `low > up`).  When `vz = 0` the set
is all of `[B,T]` or empty; otherwise, with `tstar = -sz/vz` the time of
co-altitude, the `|sz + t·vz| ≤ ZTHR` band is
`[tstar - ZTHR/|vz|, tstar + ZTHR/|vz|]` and the TCOA condition adds the times
within `TCOA` before co-altitude. -/
def vertical_WCV_interval (vert : Vert) (ZTHR TCOA B T sz vz : ℝ) : Interval :=
  if vz = 0 then
    (if |sz| ≤ ZTHR then ⟨B, T⟩ else ⟨1, 0⟩)
  else
    (let tstar := -sz / vz
     match vert with
     | Vert.vmod => ⟨max B (tstar - ZTHR / |vz|), min T (tstar + ZTHR / |vz|)⟩
     | Vert.tcoa =>
         ⟨max B (tstar - max TCOA (ZTHR / |vz|)), min T (tstar + ZTHR / |vz|)⟩)

/-! ## WCV_tvar and its concrete horizontal families
(WCV_tvar.cpp, WCV_TAUMOD.cpp, WCV_TCPA.cpp, WCV_HZ.cpp) -/

/-- The horizontal time-variable families present in the sources at hand
(`WCV_HZ` derives from `WCV_TAUMOD` and only overrides the vertical model,
`make/copy`, the class name and `contains`). -/
inductive Horiz where
  | taumod : Horiz
  | tcpa : Horiz
  | hz : Horiz

/-- `WCV_TAUMOD::horizontal_tvar` (`WCV_TCPA::horizontal_tvar` is textually
the same function, and `WCV_HZ` inherits it): modified tau,
`(DTHR² - |s|²)/(s·v)` when `s·v < 0`, and `-1` otherwise. -/
def horizontal_tvar (tb : WCVTable) (s v : Vect2) : ℝ :=
  if s.dot v < 0 then (sq tb.DTHR - s.sqv) / s.dot v else -1

/-- `WCV_tvar::horizontal_WCV`: horizontal well-clear violation,
`|s| ≤ DTHR`, or `dcpa(s,v) ≤ DTHR` and `0 ≤ tvar ≤ TTHR`. -/
def horizontal_WCV (tb : WCVTable) (s v : Vect2) : Prop :=
  s.norm ≤ tb.DTHR ∨
    (dcpa s v ≤ tb.DTHR ∧ 0 ≤ horizontal_tvar tb s v ∧ horizontal_tvar tb s v ≤ tb.TTHR)

/-- `WCV_TAUMOD::horizontal_WCV_interval` (also inherited by `WCV_HZ`). -/
def hInterval_taumod (tb : WCVTable) (T : ℝ) (s v : Vect2) : LossData :=
  let sqs := s.sqv
  let sdotv := s.dot v
  let sqD := sq tb.DTHR
  let a := v.sqv
  let b := 2 * sdotv + tb.TTHR * v.sqv
  let c := sqs + tb.TTHR * sdotv - sqD
  if a = 0 ∧ sqs ≤ sqD then ⟨0, T⟩
  else if sqs ≤ sqD then ⟨0, min T (Theta_D s v 1 tb.DTHR)⟩
  else
    let discr := sq b - 4 * a * c
    if 0 ≤ sdotv ∨ discr < 0 then ⟨T, 0⟩
    else
      let t := (-b - Real.sqrt discr) / (2 * a)
      if 0 ≤ Delta s v tb.DTHR ∧ t ≤ T then
        ⟨max 0 t, min T (Theta_D s v 1 tb.DTHR)⟩
      else ⟨T, 0⟩

/-- `WCV_TCPA::horizontal_WCV_interval`. -/
def hInterval_tcpa (tb : WCVTable) (T : ℝ) (s v : Vect2) : LossData :=
  let sqs := s.sqv
  let sqv := v.sqv
  let sdotv := s.dot v
  let sqD := sq tb.DTHR
  if sqv = 0 ∧ sqs ≤ sqD then ⟨0, T⟩
  else if sqv = 0 then ⟨T, 0⟩
  else if sqs ≤ sqD then ⟨0, min T (Theta_D s v 1 tb.DTHR)⟩
  else if 0 < sdotv then ⟨T, 0⟩
  else
    let tcpa0 := tcpa s v
    if tb.DTHR < (v.ScalAdd tcpa0 s).norm then ⟨T, 0⟩
    else
      let Delta0 := Delta s v tb.DTHR
      if Delta0 < 0 ∧ T < tcpa0 - tb.TTHR then ⟨T, 0⟩
      else if Delta0 < 0 then ⟨max 0 (tcpa0 - tb.TTHR), min T tcpa0⟩
      else
        let tmin := min (Theta_D s v (-1) tb.DTHR) (tcpa0 - tb.TTHR)
        if T < tmin then ⟨T, 0⟩
        else ⟨max 0 tmin, min T (Theta_D s v 1 tb.DTHR)⟩

/-- Dispatch of the virtual `horizontal_WCV_interval` over the concrete
classes: `WCV_TAUMOD` and `WCV_HZ` use the TAUMOD interval, `WCV_TCPA` its
own. -/
def hInterval : Horiz → WCVTable → ℝ → Vect2 → Vect2 → LossData
  | Horiz.taumod => hInterval_taumod
  | Horiz.hz => hInterval_taumod
  | Horiz.tcpa => hInterval_tcpa

/-- The vertical model owned by each concrete class: `WCV_TAUMOD` and
`WCV_TCPA` construct a `WCV_TCOA`, `WCV_HZ` a `WCV_VMOD`. -/
def vertOf : Horiz → Vert
  | Horiz.taumod => Vert.tcoa
  | Horiz.tcpa => Vert.tcoa
  | Horiz.hz => Vert.vmod

/-- A `WCV_tvar` detector: a concrete horizontal family together with its
threshold table (the vertical model is determined by the class). -/
structure WCVtvar where
  horiz : Horiz
  table : WCVTable

/-- `WCV_tvar::WCV_interval` (assumes `0 ≤ B < T`): compose the vertical loss
interval on `[B,T]` with the horizontal interval on the vertical window. -/
def WCV_interval (det : WCVtvar) (so : Vect3) (vo : Velocity) (si : Vect3)
    (vi : Velocity) (B T : ℝ) : LossData :=
  let s2 := (so.vect2).sub (si.vect2)
  let v2 := (vo.vect2).sub (vi.vect2)
  let sz := so.z - si.z
  let vz := vo.vz - vi.vz
  let ii := vertical_WCV_interval (vertOf det.horiz) det.table.ZTHR det.table.TCOA B T sz vz
  if ii.up < ii.low then ⟨T, B⟩
  else
    let step := v2.ScalAdd ii.low s2
    if ii.low = ii.up then
      (if horizontal_WCV det.table step v2 then ⟨ii.low, ii.up⟩ else ⟨T, B⟩)
    else
      let ld := hInterval det.horiz det.table (ii.up - ii.low) step v2
      ⟨ld.time_in + ii.low, ld.time_out + ii.low⟩

/-- `WCV_tvar::WCV3D` -/
def WCV3D (det : WCVtvar) (so : Vect3) (vo : Velocity) (si : Vect3)
    (vi : Velocity) (B T : ℝ) : LossData :=
  WCV_interval det so vo si vi B T

/-- `WCV_tvar::conflictDetection`. -/
def conflictDetection (det : WCVtvar) (so : Vect3) (vo : Velocity) (si : Vect3)
    (vi : Velocity) (B T : ℝ) : ConflictData :=
  let ret := WCV3D det so vo si vi B T
  let t_tca := (ret.time_in + ret.time_out) / 2
  let dist_tca := ((so.linear vo.vect3 t_tca).sub (si.linear vi.vect3 t_tca)).cyl_norm
      det.table.DTHR det.table.ZTHR
  ⟨ret, t_tca, dist_tca, so.sub si, (vo.vect3).sub (vi.vect3)⟩

/-- `WCV_tvar::containsTable` -/
def containsTable (det other : WCVtvar) : Prop := det.table.contains other.table

/-- `getSimpleClassName` of each concrete class. -/
def simpleClassName : Horiz → String
  | Horiz.taumod => "WCV_TAUMOD"
  | Horiz.tcpa => "WCV_TCPA"
  | Horiz.hz => "WCV_HZ"

/-- `Detection3D::getCanonicalClassName`. -/
def canonicalClassName (h : Horiz) : String :=
  "gov.nasa.larcfm.ACCoRD." ++ simpleClassName h

/-- The virtual `contains`:
`WCV_TAUMOD::contains` accepts its own canonical class and
`"gov.nasa.larcfm.ACCoRD.WCV_TCPA"`; `WCV_TCPA::contains` and
`WCV_HZ::contains` accept only their own canonical class; in each case the
table containment is then checked. -/
def contains (det cd : WCVtvar) : Prop :=
  match det.horiz with
  | Horiz.taumod =>
      ((canonicalClassName det.horiz = canonicalClassName cd.horiz ∨
        canonicalClassName cd.horiz = "gov.nasa.larcfm.ACCoRD.WCV_TCPA") ∧
        containsTable det cd)
  | Horiz.tcpa =>
      (canonicalClassName det.horiz = canonicalClassName cd.horiz ∧ containsTable det cd)
  | Horiz.hz =>
      (canonicalClassName det.horiz = canonicalClassName cd.horiz ∧ containsTable det cd)

/-! ## Kinematics (Kinematics.cpp) -/

namespace Kinematics

/-- `Kinematics::linear(so,vo,t) = (so + vo·t, vo)`. -/
def linear (so : Vect3) (vo : Velocity) (t : ℝ) : Vect3 × Velocity :=
  (so.linear vo.vect3 t, vo)

/-- `Kinematics::turnOmega`: constant-rate turn; when `omega` is
(almost-equals) zero, fall back to `linear`. -/
def turnOmega (s0 : Vect3) (v0 : Velocity) (t omega : ℝ) : Vect3 × Velocity :=
  if omega = 0 then linear s0 v0 t
  else
    let nv := v0.mkAddTrk (omega * t)
    let xT := s0.x + (v0.vy - nv.vy) / omega
    let yT := s0.y + (-v0.vx + nv.vx) / omega
    let zT := s0.z + v0.vz * t
    (⟨xT, yT, zT⟩, nv)

/-- Helper `V1(voz,a1,t) = voz + a1·t` of `Kinematics.cpp`. -/
def V1 (voz a1 t : ℝ) : ℝ := voz + a1 * t

/-- Helper `S1(voz,a1,t) = voz·t + a1·t²/2` of `Kinematics.cpp`. -/
def S1 (voz a1 t : ℝ) : ℝ := voz * t + 0.5 * a1 * t * t

/-- Helper `T3(voz,a1) = -voz/a1` of `Kinematics.cpp` (the time to decelerate
`voz` to zero at rate `a1`). -/
def T3f (voz a1 : ℝ) : ℝ := -voz / a1

/-- Helper `S3(voz,a1) = S1(voz,a1,T3(voz,a1))` of `Kinematics.cpp`. -/
def S3f (voz a1 : ℝ) : ℝ := S1 voz a1 (T3f voz a1)

/-- `Kinematics::vsLevelOutTimesBase`.  Returns
`(T1, T2, T3, a1, a2)`; `none` models the NaN/Inf results the C++ produces
when a division by zero occurs (`a1`, `a2` or the adjusted climb rate zero) or
when `Util::root` has no real root. -/
def vsLevelOutTimesBase (s0z v0z climbRate targetAlt accelup acceldown : ℝ)
    (allowClimbRateChange : Bool) : Option (ℝ × ℝ × ℝ × ℝ × ℝ) :=
  let altDir : ℝ := if s0z ≤ targetAlt then 1 else -1
  let cr0 := altDir * |climbRate|
  let cr := if allowClimbRateChange then altDir * max |climbRate| |v0z| else cr0
  let S := targetAlt - s0z
  let a1 := if v0z ≤ cr then accelup else acceldown
  let a2 := if s0z ≤ targetAlt then acceldown else accelup
  if a1 = 0 ∨ a2 = 0 then none
  else
    let T1 := (cr - v0z) / a1
    if |S1 v0z a1 T1 + S3f (V1 v0z a1 T1) a2| ≤ |S| then
      (if cr = 0 then none
       else
         let T2 := (S - S1 v0z a1 T1 - S3f (V1 v0z a1 T1) a2) / cr
         some (T1, T1 + T2, T1 + T2 + T3f cr a2, a1, a2))
    else
      let aa := 0.5 * a1 * (1 - a1 / a2)
      let bb := v0z * (1 - a1 / a2)
      let cc := -v0z * v0z / (2 * a2) - S
      match root aa bb cc 1, root aa bb cc (-1) with
      | some root1, some root2 =>
          let T1n := if root1 < 0 then root2
                     else if root2 < 0 then root1 else min root1 root2
          some (T1n, T1n, T1n + T3f (V1 v0z a1 T1n) a2, a1, a2)
      | _, _ => none

/-- `Kinematics::vsLevelOutTimes` (the `s0z, v0z` overload). -/
def vsLevelOutTimes (s0z v0z climbRate targetAlt accelup acceldown : ℝ)
    (allowClimbRateChange : Bool) : Option (ℝ × ℝ × ℝ × ℝ × ℝ) :=
  let sgnv : ℝ := if 0 ≤ v0z then 1 else -1
  let altDir : ℝ := if s0z ≤ targetAlt then 1 else -1
  let S := targetAlt - s0z
  let a1 := if s0z ≤ targetAlt then accelup else acceldown
  let a2 := if s0z ≤ targetAlt then acceldown else accelup
  if sgnv = altDir ∨ v0z = 0 then
    (if a2 = 0 then none
     else if |S3f v0z a2| ≤ |S| then
       vsLevelOutTimesBase s0z v0z climbRate targetAlt accelup acceldown allowClimbRateChange
     else
       match vsLevelOutTimesBase (s0z + S3f v0z a2) 0 climbRate targetAlt accelup acceldown
           allowClimbRateChange with
       | some (t1, t2, t3, b1, b2) =>
           some (-v0z / a2 + t1, -v0z / a2 + t2, -v0z / a2 + t3, b1, b2)
       | none => none)
  else
    (if a1 = 0 then none
     else
       match vsLevelOutTimesBase (s0z + S3f v0z a1) 0 climbRate targetAlt accelup acceldown
           allowClimbRateChange with
       | some (t1, t2, t3, b1, b2) =>
           some (-v0z / a1 + t1, -v0z / a1 + t2, -v0z / a1 + t3, b1, b2)
       | none => none)

/-- `Kinematics::vsLevelOutCalc`: altitude and vertical speed at time `t` of
the three-phase profile. -/
def vsLevelOutCalc (soz voz targetAlt a1 a2 t1 t2 t3 t : ℝ) : ℝ × ℝ :=
  if t ≤ t1 then (soz + S1 voz a1 t, voz + a1 * t)
  else if t ≤ t2 then (soz + S1 voz a1 t1 + V1 voz a1 t1 * (t - t1), voz + a1 * t1)
  else if t ≤ t3 then
    (soz + S1 voz a1 t1 + V1 voz a1 t1 * (t2 - t1) + S1 (V1 voz a1 t1) a2 (t - t2),
      voz + a1 * t1 + a2 * (t - t2))
  else (targetAlt, 0)

/-- `Kinematics::vsLevelOutCalculation`. -/
def vsLevelOutCalculation (sv0 : Vect3 × Velocity) (targetAlt a1 a2 t1 t2 t3 t : ℝ) :
    Vect3 × Velocity :=
  let vsL := vsLevelOutCalc sv0.1.z sv0.2.vz targetAlt a1 a2 t1 t2 t3 t
  (((sv0.1).linear sv0.2.vect3 t).mkZ vsL.1, sv0.2.mkVs vsL.2)

/-- `Kinematics::vsLevelOut` (the single-acceleration overload,
`accelup = a`, `acceldown = -a`). -/
def vsLevelOut (sv0 : Vect3 × Velocity) (t climbRate targetAlt a : ℝ)
    (allowClimbRateChange : Bool) : Option (Vect3 × Velocity) :=
  match vsLevelOutTimes sv0.1.z sv0.2.vz climbRate targetAlt a (-a) allowClimbRateChange with
  | some (t1, t2, t3, a1, a2) =>
      some (vsLevelOutCalculation sv0 targetAlt a1 a2 t1 t2 t3 t)
  | none => none

end Kinematics

/-! ## Alerter and the alerting decision (Alerter.h, AlertThresholds.h; the
alerting procedure itself is modelled from the spec §4.7) -/

/-- The coarse severity regions. -/
inductive BandsRegion where
  | NONE : BandsRegion
  | FAR : BandsRegion
  | MID : BandsRegion
  | NEAR : BandsRegion

/-- `AlertThresholds`: a detector with its alerting time windows and region. -/
structure AlertThresholds where
  detector : WCVtvar
  alerting_time : ℝ
  early_alerting_time : ℝ
  region : BandsRegion

/-- `Alerter`: an ordered ladder of `AlertThresholds`, 1-indexed by increasing
severity. -/
structure Alerter where
  levels : List AlertThresholds

/-- `Alerter::mostSevereAlertLevel` -/
def Alerter.mostSevereAlertLevel (al : Alerter) : ℕ := al.levels.length

/-- `Alerter::getLevel(i)` (1-indexed). -/
def Alerter.getLevel (al : Alerter) (i : ℕ) : Option AlertThresholds :=
  al.levels.get? (i - 1)

/-- Modelled from the spec: level `i` of the alerter is triggered at the given
state iff its detector reports a non-empty conflict interval on the window
`[0, alerting_time_i]` (§4.7, without the SUM early-alerting variant). -/
def fires (al : Alerter) (so : Vect3) (vo : Velocity) (si : Vect3) (vi : Velocity)
    (i : ℕ) : Prop :=
  match al.getLevel i with
  | some th => (conflictDetection th.detector so vo si vi 0 th.alerting_time).lossData.nonempty
  | none => False

/-- Modelled from the spec: scan the levels from `n` down to 1 and return the
first (most severe) triggered level, or 0. -/
def alertLevelFrom (al : Alerter) (so : Vect3) (vo : Velocity) (si : Vect3)
    (vi : Velocity) : ℕ → ℕ
  | 0 => 0
  | n + 1 => if fires al so vo si vi (n + 1) then n + 1 else alertLevelFrom al so vo si vi n

/-- Modelled from the spec: the alerting decision `alertLevel(state,k)` —
the most severe level whose detector reports a conflict within its alerting
time window (§4.7). -/
def alertLevel (al : Alerter) (so : Vect3) (vo : Velocity) (si : Vect3)
    (vi : Velocity) : ℕ :=
  alertLevelFrom al so vo si vi al.mostSevereAlertLevel

/-! ## Basic helper lemmas -/

lemma sq_eq_pow (x : ℝ) : sq x = x ^ 2 := by
  simp [sq]
  ring

lemma sq_nonneg' (x : ℝ) : 0 ≤ sq x := mul_self_nonneg x

lemma Vect2.sqv_nonneg (a : Vect2) : 0 ≤ a.sqv := by
  simp only [Vect2.sqv, Vect2.dot]
  nlinarith [sq_nonneg a.x, sq_nonneg a.y]

lemma Vect2.sqv_eq_zero_iff (a : Vect2) : a.sqv = 0 ↔ a.x = 0 ∧ a.y = 0 := by
  simp only [Vect2.sqv, Vect2.dot]
  constructor
  · intro h
    constructor <;> nlinarith [sq_nonneg a.x, sq_nonneg a.y]
  · rintro ⟨hx, hy⟩
    rw [hx, hy]
    ring

lemma Vect2.norm_le_iff (a : Vect2) {D : ℝ} (hD : 0 ≤ D) :
    a.norm ≤ D ↔ a.sqv ≤ sq D := by
  rw [Vect2.norm, Real.sqrt_le_left hD, sq_eq_pow]

/-- Lagrange identity in two dimensions. -/
lemma lagrange (s v : Vect2) : sq (s.dot v) + sq (s.det v) = s.sqv * v.sqv := by
  simp only [Vect2.dot, Vect2.det, Vect2.sqv, sq]
  ring

lemma quad_nonpos_iff {a b c : ℝ} (ha : 0 < a) (hd : 0 ≤ b ^ 2 - 4 * a * c) (y : ℝ) :
    a * y ^ 2 + b * y + c ≤ 0 ↔
      (-b - Real.sqrt (b ^ 2 - 4 * a * c)) / (2 * a) ≤ y ∧
        y ≤ (-b + Real.sqrt (b ^ 2 - 4 * a * c)) / (2 * a) := by
  have hr0 := Real.sqrt_nonneg (b ^ 2 - 4 * a * c)
  have hr2 := Real.sq_sqrt hd
  set r := Real.sqrt (b ^ 2 - 4 * a * c) with hrdef
  have h2a : (0 : ℝ) < 2 * a := by linarith
  constructor
  · intro h
    constructor
    · rw [div_le_iff₀ h2a]
      nlinarith [sq_nonneg (2 * a * y + b + r)]
    · rw [le_div_iff₀ h2a]
      nlinarith [sq_nonneg (2 * a * y + b - r)]
  · rintro ⟨h1, h2⟩
    rw [div_le_iff₀ h2a] at h1
    rw [le_div_iff₀ h2a] at h2
    nlinarith [mul_nonneg (by linarith : (0 : ℝ) ≤ r - (2 * a * y + b))
      (by linarith : (0 : ℝ) ≤ 2 * a * y + b + r)]

lemma quad_pos_of_discr_neg {a b c : ℝ} (ha : 0 < a) (hd : b ^ 2 - 4 * a * c < 0) (y : ℝ) :
    0 < a * y ^ 2 + b * y + c := by
  nlinarith [sq_nonneg (2 * a * y + b)]

/-! ## Claim C10: cross-family containment acceptance -/

/-- C10.  For a `WCV_TAUMOD` detector `A`, `A.contains(cd)` holds iff `cd`'s
canonical class is `WCV_TAUMOD` or `WCV_TCPA` and `A`'s table contains `cd`'s;
`WCV_TCPA::contains` and `WCV_HZ::contains` accept only their own class; in
particular a TAUMOD detector reports containment of a TCPA detector with a
contained table. -/
theorem C10_contains_cross_family (A cd : WCVtvar) :
    (A.horiz = Horiz.taumod →
      (contains A cd ↔
        ((cd.horiz = Horiz.taumod ∨ cd.horiz = Horiz.tcpa) ∧ A.table.contains cd.table))) ∧
    (A.horiz = Horiz.tcpa →
      (contains A cd ↔ (cd.horiz = Horiz.tcpa ∧ A.table.contains cd.table))) ∧
    (A.horiz = Horiz.hz →
      (contains A cd ↔ (cd.horiz = Horiz.hz ∧ A.table.contains cd.table))) ∧
    (A.horiz = Horiz.taumod → cd.horiz = Horiz.tcpa → A.table.contains cd.table →
      contains A cd) := by
  obtain ⟨ha, ta⟩ := A
  obtain ⟨hc, tc⟩ := cd
  refine ⟨?_, ?_, ?_, ?_⟩ <;> cases ha <;> cases hc <;>
    simp [contains, canonicalClassName, simpleClassName, containsTable]

/-- Witness for C10 at a concrete cross-family pair. -/
theorem C10_contains_cross_family_witness :
    contains ⟨Horiz.taumod, ⟨2, 2, 2, 2⟩⟩ ⟨Horiz.tcpa, ⟨1, 1, 1, 1⟩⟩ :=
  (C10_contains_cross_family ⟨Horiz.taumod, ⟨2, 2, 2, 2⟩⟩ ⟨Horiz.tcpa, ⟨1, 1, 1, 1⟩⟩).2.2.2
    rfl rfl (by refine ⟨?_, ?_, ?_, ?_⟩ <;> norm_num)

/-! ## Claim C9: single-component velocity updates -/

/-- C9 counterexample: the claim quantifies over every argument value, but
`Velocity::mkGs` applied to a negative ground speed returns the `INVALID`
sentinel (`none`), not a velocity with only the ground speed changed. -/
theorem C9_mkGs_neg_counterexample :
    ¬ ∃ w : Velocity, (Velocity.mkTrkGsVs 0 100 0).mkGs (-1) = some w ∧
      w.trk = (Velocity.mkTrkGsVs 0 100 0).trk ∧ w.gs = -1 ∧
      w.vz = (Velocity.mkTrkGsVs 0 100 0).vz := by
  rintro ⟨w, hw, -⟩
  rw [Velocity.mkGs, if_pos (by norm_num)] at hw
  exact Option.noConfusion hw

/-- C9 (amended): `mkTrk` and `mkVs` change exactly their component for every
argument; `mkGs` does so for every non-negative argument (a negative argument
yields the `INVALID` sentinel); when `gs = 0` the cached track is preserved,
so for every valid velocity with `gs > 0`, `v.mkGs(0).mkGs(v.gs())` equals
`v`. -/
theorem C9_single_component_updates (v : Velocity) (x : ℝ) :
    ((v.mkTrk x).trk = x ∧ (v.mkTrk x).gs = v.gs ∧ (v.mkTrk x).vz = v.vz) ∧
    (0 ≤ x → ∃ w : Velocity, v.mkGs x = some w ∧ w.trk = v.trk ∧ w.gs = x ∧ w.vz = v.vz) ∧
    ((v.mkVs x).trk = v.trk ∧ (v.mkVs x).gs = v.gs ∧ (v.mkVs x).vz = x) ∧
    (∀ w : Velocity, v.mkGs 0 = some w → w.trk = v.trk) ∧
    (v.Valid → 0 < v.gs → (v.mkGs 0).bind (fun w => w.mkGs v.gs) = some v) := by
  refine ⟨⟨rfl, rfl, rfl⟩, ?_, ⟨rfl, rfl, rfl⟩, ?_, ?_⟩
  · intro hx
    rw [Velocity.mkGs, if_neg (by linarith)]
    rcases lt_or_le 0 v.gs with hgs | hgs
    · exact ⟨⟨v.trk, x, v.vx * (x / v.gs), v.vy * (x / v.gs), v.vz⟩,
        by rw [if_pos hgs], rfl, rfl, rfl⟩
    · exact ⟨Velocity.mkTrkGsVs v.trk x v.vz,
        by rw [if_neg (not_lt.mpr hgs)], rfl, rfl, rfl⟩
  · intro w hw
    rw [Velocity.mkGs, if_neg (by norm_num)] at hw
    rcases lt_or_le 0 v.gs with hgs | hgs
    · rw [if_pos hgs] at hw
      cases hw
      rfl
    · rw [if_neg (not_lt.mpr hgs)] at hw
      cases hw
      rfl
  · rintro hval hgs
    obtain ⟨trk, gs, vx, vy, vz⟩ := v
    obtain ⟨hvx, hvy⟩ := hval
    simp only at hvx hvy hgs
    subst hvx
    subst hvy
    rw [Velocity.mkGs, if_neg (lt_irrefl 0), if_pos hgs]
    show Velocity.mkGs _ gs = _
    rw [Velocity.mkGs, if_neg (not_lt.mpr hgs.le), if_neg (lt_irrefl 0)]
    rfl

/-- Witness for C9 at a concrete velocity. -/
theorem C9_single_component_updates_witness :
    (∃ w : Velocity, (Velocity.mkTrkGsVs 0 100 5).mkGs 7 = some w ∧
      w.trk = (Velocity.mkTrkGsVs 0 100 5).trk ∧ w.gs = 7 ∧
      w.vz = (Velocity.mkTrkGsVs 0 100 5).vz) ∧
    ((Velocity.mkTrkGsVs 0 100 5).mkGs 0).bind
        (fun u => u.mkGs (Velocity.mkTrkGsVs 0 100 5).gs) =
      some (Velocity.mkTrkGsVs 0 100 5) :=
  ⟨(C9_single_component_updates (Velocity.mkTrkGsVs 0 100 5) 7).2.1 (by norm_num),
   (C9_single_component_updates (Velocity.mkTrkGsVs 0 100 5) 7).2.2.2.2 ⟨rfl, rfl⟩
     (by norm_num [Velocity.mkTrkGsVs])⟩

/-! ## Claim C4: 3-D composition of vertical and horizontal intervals -/

/-- C4.  For `0 ≤ B < T`, `WCV_tvar::WCV_interval` first computes the
vertical loss interval on `[B,T]`: if empty the result is empty
(`time_in > time_out`); if it is a single instant the result is that instant
exactly when the horizontal predicate holds at the relative horizontal state
advanced to it (and empty otherwise); otherwise the result is the horizontal
interval on the window of length `up - low`, from the advanced state, shifted
by `low`. -/
theorem C4_three_d_composition (det : WCVtvar) (so si : Vect3) (vo vi : Velocity)
    (B T : ℝ) (hB : 0 ≤ B) (hBT : B < T) :
    (((vertical_WCV_interval (vertOf det.horiz) det.table.ZTHR det.table.TCOA B T
        (so.z - si.z) (vo.vz - vi.vz)).up <
      (vertical_WCV_interval (vertOf det.horiz) det.table.ZTHR det.table.TCOA B T
        (so.z - si.z) (vo.vz - vi.vz)).low) →
      (WCV_interval det so vo si vi B T).time_out < (WCV_interval det so vo si vi B T).time_in) ∧
    (∀ lu : ℝ,
      vertical_WCV_interval (vertOf det.horiz) det.table.ZTHR det.table.TCOA B T
        (so.z - si.z) (vo.vz - vi.vz) = ⟨lu, lu⟩ →
      ((horizontal_WCV det.table
          (((vo.vect2).sub (vi.vect2)).ScalAdd lu ((so.vect2).sub (si.vect2)))
          ((vo.vect2).sub (vi.vect2)) →
        WCV_interval det so vo si vi B T = ⟨lu, lu⟩) ∧
       (¬ horizontal_WCV det.table
          (((vo.vect2).sub (vi.vect2)).ScalAdd lu ((so.vect2).sub (si.vect2)))
          ((vo.vect2).sub (vi.vect2)) →
        (WCV_interval det so vo si vi B T).time_out <
          (WCV_interval det so vo si vi B T).time_in))) ∧
    (∀ lo up : ℝ,
      vertical_WCV_interval (vertOf det.horiz) det.table.ZTHR det.table.TCOA B T
        (so.z - si.z) (vo.vz - vi.vz) = ⟨lo, up⟩ → lo < up →
      WCV_interval det so vo si vi B T =
        ⟨(hInterval det.horiz det.table (up - lo)
            (((vo.vect2).sub (vi.vect2)).ScalAdd lo ((so.vect2).sub (si.vect2)))
            ((vo.vect2).sub (vi.vect2))).time_in + lo,
          (hInterval det.horiz det.table (up - lo)
            (((vo.vect2).sub (vi.vect2)).ScalAdd lo ((so.vect2).sub (si.vect2)))
            ((vo.vect2).sub (vi.vect2))).time_out + lo⟩) := by
  refine ⟨?_, ?_, ?_⟩
  · intro hemp
    rw [WCV_interval, if_pos hemp]
    exact hBT
  · intro lu hlu
    constructor
    · intro hH
      rw [WCV_interval, hlu]
      rw [if_neg (lt_irrefl lu), if_pos rfl, if_pos hH]
    · intro hH
      rw [WCV_interval, hlu]
      rw [if_neg (lt_irrefl lu), if_pos rfl, if_neg hH]
      exact hBT
  · intro lo up hlu hlt
    rw [WCV_interval, hlu]
    rw [if_neg (not_lt.mpr hlt.le), if_neg (ne_of_lt hlt)]

/-- Witness for C4 at a concrete state (the vertical interval there is
`[0, 10]`, a non-degenerate window). -/
theorem C4_three_d_composition_witness :
    WCV_interval ⟨Horiz.taumod, ⟨10, 100, 5, 5⟩⟩ ⟨0, 0, 0⟩ (Velocity.mkTrkGsVs 0 0 0)
        ⟨0, 0, 0⟩ (Velocity.mkTrkGsVs 0 0 0) 0 10 =
      ⟨(hInterval Horiz.taumod ⟨10, 100, 5, 5⟩ (10 - 0)
          ((((Velocity.mkTrkGsVs 0 0 0).vect2).sub ((Velocity.mkTrkGsVs 0 0 0).vect2)).ScalAdd 0
            ((Vect3.vect2 ⟨0, 0, 0⟩).sub (Vect3.vect2 ⟨0, 0, 0⟩)))
          (((Velocity.mkTrkGsVs 0 0 0).vect2).sub ((Velocity.mkTrkGsVs 0 0 0).vect2))).time_in + 0,
        (hInterval Horiz.taumod ⟨10, 100, 5, 5⟩ (10 - 0)
          ((((Velocity.mkTrkGsVs 0 0 0).vect2).sub ((Velocity.mkTrkGsVs 0 0 0).vect2)).ScalAdd 0
            ((Vect3.vect2 ⟨0, 0, 0⟩).sub (Vect3.vect2 ⟨0, 0, 0⟩)))
          (((Velocity.mkTrkGsVs 0 0 0).vect2).sub ((Velocity.mkTrkGsVs 0 0 0).vect2))).time_out + 0⟩ := by
  have h := (C4_three_d_composition ⟨Horiz.taumod, ⟨10, 100, 5, 5⟩⟩ ⟨0, 0, 0⟩ ⟨0, 0, 0⟩
    (Velocity.mkTrkGsVs 0 0 0) (Velocity.mkTrkGsVs 0 0 0) 0 10 le_rfl (by norm_num)).2.2 0 10
  have hv : vertical_WCV_interval (vertOf Horiz.taumod) (100 : ℝ) 5 0 10
      ((0 : ℝ) - 0) ((Velocity.mkTrkGsVs 0 0 0).vz - (Velocity.mkTrkGsVs 0 0 0).vz) =
      ⟨(0 : ℝ), 10⟩ := by
    rw [vertical_WCV_interval]
    norm_num [Velocity.mkTrkGsVs]
  exact h hv (by norm_num)

/-! ## Claim C5: symmetry of the relative geometry -/

lemma Vect2.sqv_neg (a : Vect2) : (Vect2.neg a).sqv = a.sqv := by
  simp [Vect2.neg, Vect2.sqv, Vect2.dot]

lemma Vect2.dot_neg_neg (a b : Vect2) : (Vect2.neg a).dot (Vect2.neg b) = a.dot b := by
  simp [Vect2.neg, Vect2.dot]

lemma Vect2.det_neg_neg (a b : Vect2) : (Vect2.neg a).det (Vect2.neg b) = a.det b := by
  simp only [Vect2.neg, Vect2.det]
  ring

lemma Vect2.norm_neg (a : Vect2) : (Vect2.neg a).norm = a.norm := by
  rw [Vect2.norm, Vect2.norm, Vect2.sqv_neg]

lemma Vect2.ScalAdd_neg (v s : Vect2) (k : ℝ) :
    (Vect2.neg v).ScalAdd k (Vect2.neg s) = Vect2.neg (v.ScalAdd k s) := by
  simp [Vect2.neg, Vect2.ScalAdd]
  constructor <;> ring

lemma tcpa_neg (s v : Vect2) : tcpa (Vect2.neg s) (Vect2.neg v) = tcpa s v := by
  rw [tcpa, tcpa, Vect2.sqv_neg, Vect2.dot_neg_neg]

lemma dcpa_neg (s v : Vect2) : dcpa (Vect2.neg s) (Vect2.neg v) = dcpa s v := by
  rw [dcpa, dcpa, tcpa_neg, Vect2.ScalAdd_neg, Vect2.norm_neg]

lemma Delta_neg (s v : Vect2) (D : ℝ) : Delta (Vect2.neg s) (Vect2.neg v) D = Delta s v D := by
  rw [Delta, Delta, Vect2.sqv_neg, Vect2.det_neg_neg]

lemma Theta_D_neg (s v : Vect2) (eps D : ℝ) :
    Theta_D (Vect2.neg s) (Vect2.neg v) eps D = Theta_D s v eps D := by
  rw [Theta_D, Theta_D, Vect2.sqv_neg, Vect2.dot_neg_neg, Delta_neg]

lemma horizontal_tvar_neg (tb : WCVTable) (s v : Vect2) :
    horizontal_tvar tb (Vect2.neg s) (Vect2.neg v) = horizontal_tvar tb s v := by
  rw [horizontal_tvar, horizontal_tvar, Vect2.dot_neg_neg, Vect2.sqv_neg]

lemma horizontal_WCV_neg (tb : WCVTable) (s v : Vect2) :
    horizontal_WCV tb (Vect2.neg s) (Vect2.neg v) ↔ horizontal_WCV tb s v := by
  rw [horizontal_WCV, horizontal_WCV, Vect2.norm_neg, dcpa_neg, horizontal_tvar_neg]

lemma hInterval_taumod_neg (tb : WCVTable) (T : ℝ) (s v : Vect2) :
    hInterval_taumod tb T (Vect2.neg s) (Vect2.neg v) = hInterval_taumod tb T s v := by
  rw [hInterval_taumod, hInterval_taumod]
  simp only [Vect2.sqv_neg, Vect2.dot_neg_neg, Delta_neg, Theta_D_neg]

lemma hInterval_tcpa_neg (tb : WCVTable) (T : ℝ) (s v : Vect2) :
    hInterval_tcpa tb T (Vect2.neg s) (Vect2.neg v) = hInterval_tcpa tb T s v := by
  rw [hInterval_tcpa, hInterval_tcpa]
  simp only [Vect2.sqv_neg, Vect2.dot_neg_neg, Delta_neg, Theta_D_neg, tcpa_neg,
    Vect2.ScalAdd_neg, Vect2.norm_neg]

lemma hInterval_neg (h : Horiz) (tb : WCVTable) (T : ℝ) (s v : Vect2) :
    hInterval h tb T (Vect2.neg s) (Vect2.neg v) = hInterval h tb T s v := by
  cases h
  · exact hInterval_taumod_neg tb T s v
  · exact hInterval_tcpa_neg tb T s v
  · exact hInterval_taumod_neg tb T s v

lemma vertical_WCV_interval_neg (vert : Vert) (Z TC B T sz vz : ℝ) :
    vertical_WCV_interval vert Z TC B T (-sz) (-vz) =
      vertical_WCV_interval vert Z TC B T sz vz := by
  rw [vertical_WCV_interval, vertical_WCV_interval]
  rcases eq_or_ne vz 0 with hvz | hvz
  · rw [hvz]
    norm_num
  · rw [if_neg (by simpa using hvz), if_neg hvz, neg_div_neg_eq, abs_neg]

lemma Vect2.sub_comm_neg (a b : Vect2) : a.sub b = Vect2.neg (b.sub a) := by
  simp [Vect2.sub, Vect2.neg]

/-- The loss interval of `WCV_tvar::WCV_interval` is symmetric in the two
aircraft. -/
lemma WCV_interval_symm (det : WCVtvar) (so si : Vect3) (vo vi : Velocity) (B T : ℝ) :
    WCV_interval det si vi so vo B T = WCV_interval det so vo si vi B T := by
  rw [WCV_interval, WCV_interval]
  rw [Vect2.sub_comm_neg (si.vect2) (so.vect2), Vect2.sub_comm_neg (vi.vect2) (vo.vect2)]
  rw [show si.z - so.z = -(so.z - si.z) by ring, show vi.vz - vo.vz = -(vo.vz - vi.vz) by ring]
  rw [vertical_WCV_interval_neg]
  simp only [Vect2.ScalAdd_neg, horizontal_WCV_neg, hInterval_neg]

/-- C5.  `conflictDetection(so,vo,si,vi,B,T)` and
`conflictDetection(si,vi,so,vo,B,T)` return equal `(time_in, time_out)`
intervals. -/
theorem C5_symmetry_of_relative_geometry (det : WCVtvar) (so si : Vect3)
    (vo vi : Velocity) (B T : ℝ) (hB : 0 ≤ B) (hBT : B < T) :
    (conflictDetection det so vo si vi B T).lossData =
      (conflictDetection det si vi so vo B T).lossData := by
  show WCV3D det so vo si vi B T = WCV3D det si vi so vo B T
  rw [WCV3D, WCV3D, WCV_interval_symm]

/-- Witness for C5 at a concrete state. -/
theorem C5_symmetry_of_relative_geometry_witness :
    (conflictDetection ⟨Horiz.taumod, ⟨10, 100, 5, 5⟩⟩ ⟨0, 0, 0⟩ (Velocity.mkTrkGsVs 0 1 0)
        ⟨3, 0, 0⟩ (Velocity.mkTrkGsVs 0 0 0) 0 10).lossData =
      (conflictDetection ⟨Horiz.taumod, ⟨10, 100, 5, 5⟩⟩ ⟨3, 0, 0⟩ (Velocity.mkTrkGsVs 0 0 0)
        ⟨0, 0, 0⟩ (Velocity.mkTrkGsVs 0 1 0) 0 10).lossData :=
  C5_symmetry_of_relative_geometry ⟨Horiz.taumod, ⟨10, 100, 5, 5⟩⟩ ⟨0, 0, 0⟩ ⟨3, 0, 0⟩
    (Velocity.mkTrkGsVs 0 1 0) (Velocity.mkTrkGsVs 0 0 0) 0 10 le_rfl (by norm_num)

/-! ## Claim C2: table containment implies detection containment -/

lemma Vect2.norm_nonneg (a : Vect2) : 0 ≤ a.norm := Real.sqrt_nonneg _

lemma dcpa_nonneg (s v : Vect2) : 0 ≤ dcpa s v := Vect2.norm_nonneg _

/-- Horizontal WCV is monotone in the threshold table. -/
lemma horizontal_WCV_mono {A B : WCVTable} (hc : A.contains B) (s v : Vect2) :
    horizontal_WCV B s v → horizontal_WCV A s v := by
  obtain ⟨hD, hZ, hT, hC⟩ := hc
  rintro (h1 | ⟨hd, ht0, ht1⟩)
  · exact Or.inl (le_trans h1 hD)
  · have hdA : dcpa s v ≤ A.DTHR := le_trans hd hD
    have hDB0 : 0 ≤ B.DTHR := le_trans (dcpa_nonneg s v) hd
    have hDA0 : 0 ≤ A.DTHR := le_trans hDB0 hD
    have hsv : s.dot v < 0 := by
      by_contra hsv
      rw [horizontal_tvar, if_neg hsv] at ht0
      linarith
    rw [horizontal_tvar, if_pos hsv] at ht0 ht1
    rcases le_or_lt s.sqv (sq A.DTHR) with hin | hout
    · exact Or.inl ((Vect2.norm_le_iff s hDA0).mpr hin)
    · refine Or.inr ⟨hdA, ?_, ?_⟩
      · rw [horizontal_tvar, if_pos hsv]
        rw [div_nonneg_iff]
        exact Or.inr ⟨by linarith, hsv.le⟩
      · rw [horizontal_tvar, if_pos hsv]
        have hsq : sq B.DTHR ≤ sq A.DTHR := by
          simp only [sq]
          nlinarith
        calc (sq A.DTHR - s.sqv) / s.dot v
            ≤ (sq B.DTHR - s.sqv) / s.dot v := by
              apply div_le_div_of_nonpos_of_le hsv.le
              linarith
          _ ≤ B.TTHR := ht1
          _ ≤ A.TTHR := hT

/-- Vertical WCV is monotone in the threshold table. -/
lemma vertical_WCV_mono (vert : Vert) {Z1 C1 Z2 C2 sz vz : ℝ} (hZ : Z1 ≤ Z2)
    (hC : C1 ≤ C2) : vertical_WCV vert Z1 C1 sz vz → vertical_WCV vert Z2 C2 sz vz := by
  cases vert
  · rintro (h | ⟨h1, h2, h3⟩)
    · exact Or.inl (le_trans h hZ)
    · exact Or.inr ⟨h1, h2, le_trans h3 hC⟩
  · intro h
    exact le_trans h hZ

/-- Modelled from the spec: `Detection3D::violation` of a `WCV_tvar` detector
(the implementation file of the base class is not among the sources at hand)
— instantaneous loss of well-clear: the horizontal WCV predicate holds on the
relative horizontal state and the vertical WCV predicate on the relative
vertical state (§3, §4.3, §4.4). -/
def violation (det : WCVtvar) (so : Vect3) (vo : Velocity) (si : Vect3) (vi : Velocity) :
    Prop :=
  horizontal_WCV det.table ((so.vect2).sub (si.vect2)) ((vo.vect2).sub (vi.vect2)) ∧
    vertical_WCV (vertOf det.horiz) det.table.ZTHR det.table.TCOA (so.z - si.z)
      (vo.vz - vi.vz)

/-- C2.  If table `A` contains table `B` componentwise, then for detectors of
the same horizontal (and hence vertical) family, every state in violation for
the `B`-detector is in violation for the `A`-detector. -/
theorem C2_table_containment_detection_containment (h : Horiz) (A B : WCVTable)
    (hc : A.contains B) (so si : Vect3) (vo vi : Velocity) :
    violation ⟨h, B⟩ so vo si vi → violation ⟨h, A⟩ so vo si vi := by
  rintro ⟨hh, hv⟩
  exact ⟨horizontal_WCV_mono hc _ _ hh, vertical_WCV_mono _ hc.2.1 hc.2.2.2 hv⟩

/-- Witness for C2 at a concrete pair of tables and a concrete state. -/
theorem C2_table_containment_detection_containment_witness :
    violation ⟨Horiz.taumod, ⟨2, 2, 2, 2⟩⟩ ⟨0, 0, 0⟩ (Velocity.mkTrkGsVs 0 0 0) ⟨0, 0, 0⟩
      (Velocity.mkTrkGsVs 0 0 0) :=
  C2_table_containment_detection_containment Horiz.taumod ⟨2, 2, 2, 2⟩ ⟨1, 1, 1, 1⟩
    ⟨by norm_num, by norm_num, by norm_num, by norm_num⟩ ⟨0, 0, 0⟩ ⟨0, 0, 0⟩
    (Velocity.mkTrkGsVs 0 0 0) (Velocity.mkTrkGsVs 0 0 0)
    ⟨Or.inl (by norm_num [Vect2.norm, Vect2.sqv, Vect2.dot, Vect2.sub, Vect3.vect2,
        Velocity.vect2, Velocity.mkTrkGsVs, Velocity.trkgs2vx, Velocity.trkgs2vy,
        Real.sqrt_zero]),
      by norm_num [vertical_WCV, vertOf, Velocity.mkTrkGsVs]⟩

/-! ## Claim C1: ladder monotonicity of the alerting decision -/

lemma alertLevelFrom_fires (al : Alerter) (so : Vect3) (vo : Velocity) (si : Vect3)
    (vi : Velocity) :
    ∀ n L, alertLevelFrom al so vo si vi n = L → 0 < L →
      fires al so vo si vi L ∧ L ≤ n := by
  intro n
  induction n with
  | zero =>
      intro L hL hpos
      rw [alertLevelFrom] at hL
      omega
  | succ n ih =>
      intro L hL hpos
      rw [alertLevelFrom] at hL
      split_ifs at hL with hf
      · subst hL
        exact ⟨hf, le_rfl⟩
      · obtain ⟨h1, h2⟩ := ih L hL hpos
        exact ⟨h1, h2.trans (Nat.le_succ n)⟩

lemma fires_chain (al : Alerter) (so : Vect3) (vo : Velocity) (si : Vect3) (vi : Velocity)
    (hmono : ∀ i, 1 ≤ i → fires al so vo si vi (i + 1) → fires al so vo si vi i) :
    ∀ L, fires al so vo si vi L → ∀ i, 1 ≤ i → i ≤ L → fires al so vo si vi i := by
  intro L
  induction L with
  | zero =>
      intro _ i h1 h2
      omega
  | succ n ih =>
      intro hf i h1 h2
      rcases eq_or_lt_of_le h2 with rfl | hlt
      · exact hf
      · exact ih (hmono n (by omega) hf) i h1 (by omega)

/-- C1.  For an alerter whose levels are ordered by increasing severity
(detection at level `i+1` implies detection at level `i` at any state, the
documented assumption of `Alerter.h`), if the alerting decision returns
`L = alertLevel(state) > 0`, then every level `1 ≤ i ≤ L` reports a non-empty
conflict interval on its own alerting-time window. -/
theorem C1_ladder_monotonicity (al : Alerter) (so : Vect3) (vo : Velocity) (si : Vect3)
    (vi : Velocity)
    (hmono : ∀ i, 1 ≤ i → fires al so vo si vi (i + 1) → fires al so vo si vi i)
    (L : ℕ) (hL : alertLevel al so vo si vi = L) (hpos : 0 < L) :
    ∀ i, 1 ≤ i → i ≤ L → fires al so vo si vi i := by
  rw [alertLevel] at hL
  obtain ⟨hf, -⟩ := alertLevelFrom_fires al so vo si vi al.mostSevereAlertLevel L hL hpos
  exact fires_chain al so vo si vi hmono L hf

/-- Witness for C1: a one-level alerter whose level fires at the zero state. -/
theorem C1_ladder_monotonicity_witness :
    fires ⟨[⟨⟨Horiz.taumod, ⟨10, 100, 5, 5⟩⟩, 10, 10, BandsRegion.NEAR⟩]⟩ ⟨0, 0, 0⟩
      (Velocity.mkTrkGsVs 0 0 0) ⟨0, 0, 0⟩ (Velocity.mkTrkGsVs 0 0 0) 1 := by
  have hfire1 : fires ⟨[⟨⟨Horiz.taumod, ⟨10, 100, 5, 5⟩⟩, 10, 10, BandsRegion.NEAR⟩]⟩
      ⟨0, 0, 0⟩ (Velocity.mkTrkGsVs 0 0 0) ⟨0, 0, 0⟩ (Velocity.mkTrkGsVs 0 0 0) 1 := by
    rw [fires]
    show (conflictDetection _ _ _ _ _ _ _).lossData.nonempty
    rw [conflictDetection]
    show (WCV3D _ _ _ _ _ _ _).nonempty
    rw [WCV3D, WCV_interval]
    have hv : vertical_WCV_interval (vertOf Horiz.taumod) (100 : ℝ) 5 0 10
        ((0 : ℝ) - 0) ((Velocity.mkTrkGsVs 0 0 0).vz - (Velocity.mkTrkGsVs 0 0 0).vz) =
        ⟨(0 : ℝ), 10⟩ := by
      rw [vertical_WCV_interval]
      norm_num [Velocity.mkTrkGsVs]
    rw [show ((⟨0,0,0⟩ : Vect3).z - (⟨0,0,0⟩ : Vect3).z) = (0:ℝ) - 0 by norm_num] at *
    rw [hv]
    rw [if_neg (by norm_num), if_neg (by norm_num)]
    rw [hInterval]
    rw [hInterval_taumod]
    rw [if_pos (by
      constructor
      · simp [Vect2.sqv, Vect2.dot, Vect2.sub, Vect2.ScalAdd, Vect3.vect2,
          Velocity.vect2, Velocity.mkTrkGsVs, Velocity.trkgs2vx, Velocity.trkgs2vy]
      · simp only [Vect2.sqv, Vect2.dot, Vect2.sub, Vect2.ScalAdd, Vect3.vect2,
          Velocity.vect2, Velocity.mkTrkGsVs, Velocity.trkgs2vx, Velocity.trkgs2vy, sq]
        norm_num)]
    rw [LossData.nonempty]
    norm_num
  refine C1_ladder_monotonicity _ ⟨0, 0, 0⟩ (Velocity.mkTrkGsVs 0 0 0) ⟨0, 0, 0⟩
    (Velocity.mkTrkGsVs 0 0 0) ?_ 1 ?_ (by norm_num) 1 le_rfl le_rfl
  · intro i hi hf
    exfalso
    rw [fires, Alerter.getLevel] at hf
    have : [(⟨⟨Horiz.taumod, ⟨10, 100, 5, 5⟩⟩, 10, 10, BandsRegion.NEAR⟩ :
        AlertThresholds)].get? (i + 1 - 1) = none := by
      apply List.get?_eq_none.mpr
      simp
      omega
    rw [this] at hf
    exact hf
  · rw [alertLevel]
    show alertLevelFrom _ _ _ _ _ 1 = 1
    rw [alertLevelFrom]
    rw [if_pos hfire1]

/-! ## Correctness of the horizontal WCV intervals

The horizontal loss predicate along the linear trajectory `t ↦ s + t·v` is
governed by two quadratics in `t`: the circle quadratic
`q(t) = |s+t·v|² - DTHR²` and the modified-tau quadratic
`c(t) = a·t² + b·t + c` with the coefficients of
`WCV_TAUMOD::horizontal_WCV_interval`. -/

lemma Vect2.ScalAdd_sqv (s v : Vect2) (t : ℝ) :
    (v.ScalAdd t s).sqv = v.sqv * t ^ 2 + 2 * (s.dot v) * t + s.sqv := by
  simp only [Vect2.ScalAdd, Vect2.sqv, Vect2.dot]
  ring

lemma Vect2.ScalAdd_dot (s v : Vect2) (t : ℝ) :
    (v.ScalAdd t s).dot v = s.dot v + t * v.sqv := by
  simp only [Vect2.ScalAdd, Vect2.sqv, Vect2.dot]
  ring

lemma Vect2.ScalAdd_det (s v : Vect2) (t : ℝ) :
    (v.ScalAdd t s).det v = s.det v := by
  simp only [Vect2.ScalAdd, Vect2.det]
  ring

lemma Delta_ScalAdd (s v : Vect2) (t D : ℝ) :
    Delta (v.ScalAdd t s) v D = Delta s v D := by
  rw [Delta, Delta, Vect2.ScalAdd_det]

lemma sqv_pos_of_dot_neg {p v : Vect2} (hsv : p.dot v < 0) : 0 < v.sqv := by
  rcases lt_or_eq_of_le (Vect2.sqv_nonneg v) with h | h
  · exact h
  · exfalso
    obtain ⟨hx, hy⟩ := (Vect2.sqv_eq_zero_iff v).mp h.symm
    rw [Vect2.dot, hx, hy] at hsv
    simp at hsv

lemma tcpa_of_dot_neg {p v : Vect2} (hsv : p.dot v < 0) :
    tcpa p v = -(p.dot v) / v.sqv := by
  have ha := sqv_pos_of_dot_neg hsv
  rw [tcpa, if_neg (ne_of_gt ha), max_eq_right]
  exact le_of_lt (div_pos (by linarith) ha)

lemma dcpa_sq_mul {p v : Vect2} (hsv : p.dot v < 0) :
    (v.ScalAdd (tcpa p v) p).sqv * v.sqv = p.sqv * v.sqv - sq (p.dot v) := by
  have ha := sqv_pos_of_dot_neg hsv
  rw [tcpa_of_dot_neg hsv, Vect2.ScalAdd_sqv, sq]
  field_simp
  ring

/-- For a converging state, `dcpa ≤ D` is exactly `Delta ≥ 0`. -/
lemma dcpa_le_iff {p v : Vect2} {D : ℝ} (hD : 0 ≤ D) (hsv : p.dot v < 0) :
    dcpa p v ≤ D ↔ 0 ≤ Delta p v D := by
  have ha := sqv_pos_of_dot_neg hsv
  have hlag := lagrange p v
  have hkey := dcpa_sq_mul hsv
  rw [dcpa, Vect2.norm_le_iff _ hD, Delta]
  constructor
  · intro h
    have := mul_le_mul_of_nonneg_right h ha.le
    nlinarith
  · intro h
    have h2 : (v.ScalAdd (tcpa p v) p).sqv * v.sqv ≤ sq D * v.sqv := by nlinarith
    exact le_of_mul_le_mul_right h2 ha

/-- The instantaneous horizontal WCV predicate, algebraically. -/
lemma horizontal_WCV_iff (tb : WCVTable) (hD : 0 ≤ tb.DTHR) (p v : Vect2) :
    horizontal_WCV tb p v ↔
      (p.sqv ≤ sq tb.DTHR ∨
        (p.dot v < 0 ∧ 0 ≤ Delta p v tb.DTHR ∧
          p.sqv + tb.TTHR * (p.dot v) - sq tb.DTHR ≤ 0)) := by
  rw [horizontal_WCV]
  constructor
  · rintro (h1 | ⟨hd, ht0, ht1⟩)
    · exact Or.inl ((Vect2.norm_le_iff p hD).mp h1)
    · have hsv : p.dot v < 0 := by
        by_contra hsv
        rw [horizontal_tvar, if_neg hsv] at ht0
        linarith
      rw [horizontal_tvar, if_pos hsv] at ht1
      rw [div_le_iff_of_neg hsv] at ht1
      exact Or.inr ⟨hsv, (dcpa_le_iff hD hsv).mp hd, by linarith⟩
  · rintro (h1 | ⟨hsv, hΔ, hc⟩)
    · exact Or.inl ((Vect2.norm_le_iff p hD).mpr h1)
    · rcases le_or_lt p.sqv (sq tb.DTHR) with hin | hout
      · exact Or.inl ((Vect2.norm_le_iff p hD).mpr hin)
      · refine Or.inr ⟨(dcpa_le_iff hD hsv).mpr hΔ, ?_, ?_⟩
        · rw [horizontal_tvar, if_pos hsv, div_nonneg_iff]
          exact Or.inr ⟨by linarith, hsv.le⟩
        · rw [horizontal_tvar, if_pos hsv, div_le_iff_of_neg hsv]
          linarith

/-- The lower root of a quadratic with non-negative discriminant annihilates
it. -/
lemma quad_lower_root_val {a b c : ℝ} (ha : a ≠ 0) (hd : 0 ≤ b ^ 2 - 4 * a * c) :
    a * ((-b - Real.sqrt (b ^ 2 - 4 * a * c)) / (2 * a)) ^ 2 +
      b * ((-b - Real.sqrt (b ^ 2 - 4 * a * c)) / (2 * a)) + c = 0 := by
  have hr2 := Real.sq_sqrt hd
  set r := Real.sqrt (b ^ 2 - 4 * a * c) with hrdef
  field_simp
  ring_nf
  ring_nf at hr2
  nlinarith [hr2]

/-- The circle quadratic `|s + y·v|² - D² ≤ 0` holds exactly between
`Theta_D(s,v,-1,D)` and `Theta_D(s,v,+1,D)`. -/
lemma theta_q_iff (s v : Vect2) {D : ℝ} (ha : 0 < v.sqv) (hΔ : 0 ≤ Delta s v D)
    (y : ℝ) :
    v.sqv * y ^ 2 + 2 * (s.dot v) * y + (s.sqv - sq D) ≤ 0 ↔
      Theta_D s v (-1) D ≤ y ∧ y ≤ Theta_D s v 1 D := by
  have hlag := lagrange s v
  have hsq4 : (2 * (s.dot v)) ^ 2 - 4 * v.sqv * (s.sqv - sq D) = 4 * Delta s v D := by
    rw [Delta]
    simp only [sq] at hlag ⊢
    linear_combination 4 * hlag
  have hd : 0 ≤ (2 * (s.dot v)) ^ 2 - 4 * v.sqv * (s.sqv - sq D) := by
    rw [hsq4]
    linarith
  have h := quad_nonpos_iff ha hd y
  rw [hsq4] at h
  have hs4 : Real.sqrt (4 * Delta s v D) = 2 * Real.sqrt (Delta s v D) := by
    rw [show (4 : ℝ) * Delta s v D = 2 ^ 2 * Delta s v D by ring,
      Real.sqrt_mul (by positivity) _, Real.sqrt_sq (by norm_num)]
  rw [hs4] at h
  have e1 : (-(2 * (s.dot v)) - 2 * Real.sqrt (Delta s v D)) / (2 * v.sqv) =
      Theta_D s v (-1) D := by
    rw [Theta_D]
    field_simp
    ring
  have e2 : (-(2 * (s.dot v)) + 2 * Real.sqrt (Delta s v D)) / (2 * v.sqv) =
      Theta_D s v 1 D := by
    rw [Theta_D]
    field_simp
    ring
  rw [e1, e2] at h
  exact h

lemma theta_minus_dot (s v : Vect2) {D : ℝ} (ha : 0 < v.sqv) :
    s.dot v + Theta_D s v (-1) D * v.sqv = -Real.sqrt (Delta s v D) := by
  rw [Theta_D]
  field_simp

lemma theta_plus_dot (s v : Vect2) {D : ℝ} (ha : 0 < v.sqv) :
    s.dot v + Theta_D s v 1 D * v.sqv = Real.sqrt (Delta s v D) := by
  rw [Theta_D]
  field_simp

lemma theta_le_theta (s v : Vect2) {D : ℝ} (ha : 0 < v.sqv) :
    Theta_D s v (-1) D ≤ Theta_D s v 1 D := by
  rw [Theta_D, Theta_D, div_le_div_iff_of_pos_right ha]
  have := Real.sqrt_nonneg (Delta s v D)
  linarith

/-- The horizontal WCV predicate along the trajectory, in terms of the two
quadratics of `WCV_TAUMOD::horizontal_WCV_interval`. -/
lemma horizontal_WCV_at (tb : WCVTable) (hD : 0 ≤ tb.DTHR) (s v : Vect2) (t : ℝ) :
    horizontal_WCV tb (v.ScalAdd t s) v ↔
      (v.sqv * t ^ 2 + 2 * (s.dot v) * t + (s.sqv - sq tb.DTHR) ≤ 0 ∨
        (s.dot v + t * v.sqv < 0 ∧ 0 ≤ Delta s v tb.DTHR ∧
          v.sqv * t ^ 2 + (2 * (s.dot v) + tb.TTHR * v.sqv) * t +
            (s.sqv + tb.TTHR * (s.dot v) - sq tb.DTHR) ≤ 0)) := by
  have e : v.sqv * t ^ 2 + (2 * (s.dot v) + tb.TTHR * v.sqv) * t +
      (s.sqv + tb.TTHR * (s.dot v) - sq tb.DTHR) =
      v.sqv * t ^ 2 + 2 * (s.dot v) * t + s.sqv + tb.TTHR * (s.dot v + t * v.sqv) -
        sq tb.DTHR := by ring
  rw [horizontal_WCV_iff tb hD, Vect2.ScalAdd_sqv, Vect2.ScalAdd_dot, Delta_ScalAdd]
  constructor
  · rintro (h | ⟨h1, h2, h3⟩)
    · left
      linarith
    · refine Or.inr ⟨h1, h2, ?_⟩
      rw [e]
      linarith
  · rintro (h | ⟨h1, h2, h3⟩)
    · left
      linarith
    · refine Or.inr ⟨h1, h2, ?_⟩
      rw [e] at h3
      linarith

/-- If the circle quadratic is satisfiable, the line passes within distance
`D`: `Delta ≥ 0`. -/
lemma Delta_nonneg_of_q {s v : Vect2} {D t : ℝ} (hapos : 0 < v.sqv)
    (hq : v.sqv * t ^ 2 + 2 * (s.dot v) * t + (s.sqv - sq D) ≤ 0) :
    0 ≤ Delta s v D := by
  have hlag := lagrange s v
  rw [Delta]
  simp only [sq] at hlag hq ⊢
  nlinarith [sq_nonneg (v.sqv * t + s.dot v)]

/-- The modified-tau quadratic is non-positive at the circle entry time. -/
lemma cc_theta_minus_nonpos (tb : WCVTable) (s v : Vect2) (hapos : 0 < v.sqv)
    (hTT : 0 ≤ tb.TTHR) (hΔ : 0 ≤ Delta s v tb.DTHR) :
    v.sqv * (Theta_D s v (-1) tb.DTHR) ^ 2 +
      (2 * (s.dot v) + tb.TTHR * v.sqv) * (Theta_D s v (-1) tb.DTHR) +
      (s.sqv + tb.TTHR * (s.dot v) - sq tb.DTHR) ≤ 0 := by
  have hqθ : v.sqv * (Theta_D s v (-1) tb.DTHR) ^ 2 +
      2 * (s.dot v) * (Theta_D s v (-1) tb.DTHR) + (s.sqv - sq tb.DTHR) ≤ 0 :=
    (theta_q_iff s v hapos hΔ _).mpr ⟨le_rfl, theta_le_theta s v hapos⟩
  have hdot := theta_minus_dot s v (D := tb.DTHR) hapos
  have e : v.sqv * (Theta_D s v (-1) tb.DTHR) ^ 2 +
      (2 * (s.dot v) + tb.TTHR * v.sqv) * (Theta_D s v (-1) tb.DTHR) +
      (s.sqv + tb.TTHR * (s.dot v) - sq tb.DTHR) =
      (v.sqv * (Theta_D s v (-1) tb.DTHR) ^ 2 +
        2 * (s.dot v) * (Theta_D s v (-1) tb.DTHR) + (s.sqv - sq tb.DTHR)) +
        tb.TTHR * (s.dot v + Theta_D s v (-1) tb.DTHR * v.sqv) := by ring
  rw [e, hdot]
  have := mul_nonneg hTT (Real.sqrt_nonneg (Delta s v tb.DTHR))
  linarith

/-- Correctness of `WCV_TAUMOD::horizontal_WCV_interval` on a positive window:
the computed interval is non-empty exactly when some time in `[0,T]` is in
horizontal WCV. -/
lemma hInterval_taumod_nonempty_iff (tb : WCVTable) (hD : 0 ≤ tb.DTHR)
    (hTT : 0 ≤ tb.TTHR) {T : ℝ} (hT : 0 < T) (s v : Vect2) :
    (hInterval_taumod tb T s v).nonempty ↔
      ∃ t, 0 ≤ t ∧ t ≤ T ∧ horizontal_WCV tb (v.ScalAdd t s) v := by
  have ha0 : 0 ≤ v.sqv := Vect2.sqv_nonneg v
  rw [hInterval_taumod]
  dsimp only
  split_ifs with h1 h2 h3 h4
  · -- zero relative velocity and inside the circle: interval [0,T]
    constructor
    · intro _
      refine ⟨0, le_rfl, hT.le, ?_⟩
      rw [horizontal_WCV_at tb hD]
      left
      nlinarith [h1.2]
    · intro _
      show (0 : ℝ) ≤ T
      exact hT.le
  · -- inside the circle: interval [0, min T Theta_D⁺]
    have hapos : 0 < v.sqv := by
      rcases ha0.lt_or_eq with h | h
      · exact h
      · exact absurd ⟨h.symm, h2⟩ h1
    have hq0 : v.sqv * (0 : ℝ) ^ 2 + 2 * (s.dot v) * 0 + (s.sqv - sq tb.DTHR) ≤ 0 := by
      nlinarith [h2]
    have hΔ : 0 ≤ Delta s v tb.DTHR := Delta_nonneg_of_q hapos hq0
    have hθ := (theta_q_iff s v hapos hΔ 0).mp hq0
    constructor
    · intro _
      refine ⟨0, le_rfl, hT.le, ?_⟩
      rw [horizontal_WCV_at tb hD]
      exact Or.inl hq0
    · intro _
      show (0 : ℝ) ≤ min T (Theta_D s v 1 tb.DTHR)
      exact le_min hT.le hθ.2
  · -- diverging or no real tau-root: empty, and no loss anywhere
    have hout : sq tb.DTHR < s.sqv := not_le.mp h2
    refine iff_of_false ?_ ?_
    · show ¬ T ≤ 0
      exact not_le.mpr hT
    · rintro ⟨t, ht0, htT, hw⟩
      rw [horizontal_WCV_at tb hD] at hw
      rcases h3 with hsd | hdiscr
      · rcases hw with hq | ⟨hsvt, -, -⟩
        · nlinarith [mul_nonneg ha0 (sq_nonneg t), mul_nonneg hsd ht0]
        · nlinarith [mul_nonneg ht0 ha0]
      · have haa : v.sqv ≠ 0 := by
          intro h0
          obtain ⟨hx, hy⟩ := (Vect2.sqv_eq_zero_iff v).mp h0
          have hsd0 : s.dot v = 0 := by
            rw [Vect2.dot, hx, hy]
            ring
          rw [h0, hsd0] at hdiscr
          simp [sq] at hdiscr
        have hapos : 0 < v.sqv := ha0.lt_of_ne (Ne.symm haa)
        rw [sq_eq_pow (2 * (s.dot v) + tb.TTHR * v.sqv)] at hdiscr
        have hccpos := quad_pos_of_discr_neg hapos hdiscr
        rcases hw with hq | ⟨hsvt, hΔ, hcc⟩
        · have hΔ : 0 ≤ Delta s v tb.DTHR := Delta_nonneg_of_q hapos hq
          have hccθm := cc_theta_minus_nonpos tb s v hapos hTT hΔ
          exact absurd hccθm (not_le.mpr (hccpos _))
        · exact absurd hcc (not_le.mpr (hccpos t))
  · -- converging with real tau-root, admitted: [max 0 tmin, min T Theta_D⁺]
    have hout : sq tb.DTHR < s.sqv := not_le.mp h2
    push_neg at h3
    obtain ⟨hsd, hdiscr⟩ := h3
    obtain ⟨hΔ, htminT⟩ := h4
    have hapos : 0 < v.sqv := sqv_pos_of_dot_neg hsd
    rw [sq_eq_pow (2 * (s.dot v) + tb.TTHR * v.sqv)] at hdiscr htminT ⊢
    set bb := 2 * (s.dot v) + tb.TTHR * v.sqv with hbb
    set c0 := s.sqv + tb.TTHR * (s.dot v) - sq tb.DTHR with hc0
    set rt := Real.sqrt (bb ^ 2 - 4 * v.sqv * c0) with hrt
    set tmin := (-bb - rt) / (2 * v.sqv) with htmin
    set tpl := (-bb + rt) / (2 * v.sqv) with htpl
    set θm := Theta_D s v (-1) tb.DTHR with hθm
    set θp := Theta_D s v 1 tb.DTHR with hθp
    have hciff : ∀ y : ℝ, v.sqv * y ^ 2 + bb * y + c0 ≤ 0 ↔ tmin ≤ y ∧ y ≤ tpl :=
      fun y => quad_nonpos_iff hapos hdiscr y
    have hccθm : v.sqv * θm ^ 2 + bb * θm + c0 ≤ 0 := by
      have h := cc_theta_minus_nonpos tb s v hapos hTT hΔ
      rw [← hbb, ← hc0] at h
      exact h
    have htminθm : tmin ≤ θm := ((hciff θm).mp hccθm).1
    constructor
    · -- non-empty output: loss at max 0 tmin
      intro hne
      have hne' : max 0 tmin ≤ min T θp := hne
      rcases le_or_lt 0 tmin with htm0 | htm0
      · -- tmin ≥ 0: loss at tmin, the root of the tau quadratic
        refine ⟨tmin, htm0, htminT, ?_⟩
        rw [horizontal_WCV_at tb hD]
        have hccval : v.sqv * tmin ^ 2 + bb * tmin + c0 = 0 := by
          rw [htmin, hrt, hbb, hc0]
          exact quad_lower_root_val (ne_of_gt hapos) (by rw [← hbb, ← hc0]; exact hdiscr)
        rcases le_or_lt (v.sqv * tmin ^ 2 + 2 * (s.dot v) * tmin + (s.sqv - sq tb.DTHR)) 0
          with hq | hq
        · exact Or.inl hq
        · refine Or.inr ⟨?_, hΔ, by rw [← hbb, ← hc0]; linarith [hccval]⟩
          -- the tau term must be negative at the root since q is positive there
          have hsum : (v.sqv * tmin ^ 2 + 2 * (s.dot v) * tmin + (s.sqv - sq tb.DTHR)) +
              tb.TTHR * (s.dot v + tmin * v.sqv) = 0 := by
            rw [← hccval, hbb, hc0]
            ring
          by_contra hge
          push_neg at hge
          nlinarith [mul_nonneg hTT hge]
      · -- tmin < 0: loss at 0 via the tau condition
        refine ⟨0, le_rfl, hT.le, ?_⟩
        rw [horizontal_WCV_at tb hD]
        have hθp0 : 0 ≤ θp := le_trans (le_max_left 0 tmin) (hne'.trans (min_le_right _ _))
        have hθm0 : 0 < θm := by
          by_contra hcon
          push_neg at hcon
          have hq0 : v.sqv * (0 : ℝ) ^ 2 + 2 * (s.dot v) * 0 + (s.sqv - sq tb.DTHR) ≤ 0 :=
            (theta_q_iff s v hapos hΔ 0).mpr ⟨hcon, hθp0⟩
          nlinarith [hq0]
        have htpl0 : 0 ≤ tpl := le_trans hθm0.le (((hciff θm).mp hccθm).2)
        have hcc0 : v.sqv * (0 : ℝ) ^ 2 + bb * 0 + c0 ≤ 0 :=
          (hciff 0).mpr ⟨htm0.le, htpl0⟩
        refine Or.inr ⟨by simpa using hsd, hΔ, ?_⟩
        rw [← hbb, ← hc0]
        simpa using hcc0
    · -- a loss time bounds the output from both sides
      rintro ⟨t0, ht00, ht0T, hw⟩
      rw [horizontal_WCV_at tb hD] at hw
      show max 0 tmin ≤ min T θp
      rcases hw with hq | ⟨hsvt, -, hcc⟩
      · have hθ := (theta_q_iff s v hapos hΔ t0).mp hq
        rw [← hθm, ← hθp] at hθ
        exact max_le (le_min hT.le (ht00.trans hθ.2))
          (le_min (htminθm.trans (hθ.1.trans ht0T))
            (htminθm.trans (hθ.1.trans hθ.2)))
      · rw [← hbb, ← hc0] at hcc
        have htmint0 : tmin ≤ t0 := ((hciff t0).mp hcc).1
        have hθpt0 : t0 ≤ θp := by
          have hdot := theta_plus_dot s v (D := tb.DTHR) hapos
          rw [← hθp] at hdot
          by_contra hcon
          push_neg at hcon
          nlinarith [mul_pos hapos (sub_pos.mpr hcon), Real.sqrt_nonneg (Delta s v tb.DTHR)]
        exact max_le (le_min hT.le (ht00.trans hθpt0))
          (le_min (htmint0.trans ht0T) (htmint0.trans hθpt0))
  · -- root rejected (no second crossing in the window): empty, and no loss
    have hout : sq tb.DTHR < s.sqv := not_le.mp h2
    push_neg at h3
    obtain ⟨hsd, hdiscr⟩ := h3
    have hapos : 0 < v.sqv := sqv_pos_of_dot_neg hsd
    rw [sq_eq_pow (2 * (s.dot v) + tb.TTHR * v.sqv)] at hdiscr h4
    set bb := 2 * (s.dot v) + tb.TTHR * v.sqv with hbb
    set c0 := s.sqv + tb.TTHR * (s.dot v) - sq tb.DTHR with hc0
    set rt := Real.sqrt (bb ^ 2 - 4 * v.sqv * c0) with hrt
    set tmin := (-bb - rt) / (2 * v.sqv) with htmin
    set tpl := (-bb + rt) / (2 * v.sqv) with htpl
    have hciff : ∀ y : ℝ, v.sqv * y ^ 2 + bb * y + c0 ≤ 0 ↔ tmin ≤ y ∧ y ≤ tpl :=
      fun y => quad_nonpos_iff hapos hdiscr y
    refine iff_of_false ?_ ?_
    · show ¬ T ≤ 0
      exact not_le.mpr hT
    · rintro ⟨t0, ht00, ht0T, hw⟩
      rw [horizontal_WCV_at tb hD] at hw
      rcases not_and_or.mp h4 with hΔneg | htgt
      · push_neg at hΔneg
        rcases hw with hq | ⟨-, hΔ, -⟩
        · exact absurd (Delta_nonneg_of_q hapos hq) (not_le.mpr hΔneg)
        · exact absurd hΔ (not_le.mpr hΔneg)
      · push_neg at htgt
        rcases hw with hq | ⟨-, hΔ, hcc⟩
        · have hΔ : 0 ≤ Delta s v tb.DTHR := Delta_nonneg_of_q hapos hq
          have hccθm : v.sqv * (Theta_D s v (-1) tb.DTHR) ^ 2 +
              bb * (Theta_D s v (-1) tb.DTHR) + c0 ≤ 0 := by
            have h := cc_theta_minus_nonpos tb s v hapos hTT hΔ
            rw [← hbb, ← hc0] at h
            exact h
          have hθ := (theta_q_iff s v hapos hΔ t0).mp hq
          have := ((hciff _).mp hccθm).1
          linarith [hθ.1]
        · rw [← hbb, ← hc0] at hcc
          have := ((hciff t0).mp hcc).1
          linarith

lemma discr_nonneg_of_nonpos {a b c y : ℝ} (ha : 0 < a) (h : a * y ^ 2 + b * y + c ≤ 0) :
    0 ≤ b ^ 2 - 4 * a * c := by
  by_contra hneg
  push_neg at hneg
  exact absurd h (not_le.mpr (quad_pos_of_discr_neg ha hneg y))

/-- When the state is outside the `DTHR` circle and some loss time exists in
`[0,T]`, all four guards of the final branch of
`WCV_TAUMOD::horizontal_WCV_interval` hold. -/
lemma taumod_guards (tb : WCVTable) (hD : 0 ≤ tb.DTHR) (hTT : 0 ≤ tb.TTHR) {T : ℝ}
    (s v : Vect2) (hout : sq tb.DTHR < s.sqv)
    (hloss : ∃ t, 0 ≤ t ∧ t ≤ T ∧ horizontal_WCV tb (v.ScalAdd t s) v) :
    s.dot v < 0 ∧
      0 ≤ sq (2 * (s.dot v) + tb.TTHR * v.sqv) -
        4 * v.sqv * (s.sqv + tb.TTHR * (s.dot v) - sq tb.DTHR) ∧
      0 ≤ Delta s v tb.DTHR ∧
      (-(2 * (s.dot v) + tb.TTHR * v.sqv) -
          Real.sqrt (sq (2 * (s.dot v) + tb.TTHR * v.sqv) -
            4 * v.sqv * (s.sqv + tb.TTHR * (s.dot v) - sq tb.DTHR))) / (2 * v.sqv) ≤ T := by
  have ha0 : 0 ≤ v.sqv := Vect2.sqv_nonneg v
  obtain ⟨t0, ht00, ht0T, hw⟩ := hloss
  rw [horizontal_WCV_at tb hD] at hw
  have hsd : s.dot v < 0 := by
    rcases hw with hq | ⟨hsvt, -, -⟩
    · by_contra hge
      push_neg at hge
      nlinarith [mul_nonneg ha0 (sq_nonneg t0), mul_nonneg hge ht00]
    · by_contra hge
      push_neg at hge
      nlinarith [mul_nonneg ht00 ha0]
  have hapos : 0 < v.sqv := sqv_pos_of_dot_neg hsd
  rw [sq_eq_pow (2 * (s.dot v) + tb.TTHR * v.sqv)]
  set bb := 2 * (s.dot v) + tb.TTHR * v.sqv with hbb
  set c0 := s.sqv + tb.TTHR * (s.dot v) - sq tb.DTHR with hc0
  rcases hw with hq | ⟨hsvt, hΔ, hcc⟩
  · have hΔ : 0 ≤ Delta s v tb.DTHR := Delta_nonneg_of_q hapos hq
    have hccθm : v.sqv * (Theta_D s v (-1) tb.DTHR) ^ 2 +
        bb * (Theta_D s v (-1) tb.DTHR) + c0 ≤ 0 := by
      have h := cc_theta_minus_nonpos tb s v hapos hTT hΔ
      rw [← hbb, ← hc0] at h
      exact h
    have hdiscr : 0 ≤ bb ^ 2 - 4 * v.sqv * c0 := discr_nonneg_of_nonpos hapos hccθm
    refine ⟨hsd, hdiscr, hΔ, ?_⟩
    have hθ := (theta_q_iff s v hapos hΔ t0).mp hq
    have h1 := ((quad_nonpos_iff hapos hdiscr _).mp hccθm).1
    linarith [hθ.1]
  · have hdiscr : 0 ≤ bb ^ 2 - 4 * v.sqv * c0 := discr_nonneg_of_nonpos hapos hcc
    refine ⟨hsd, hdiscr, hΔ, ?_⟩
    have h1 := ((quad_nonpos_iff hapos hdiscr t0).mp hcc).1
    linarith

/-- C3.  The TAUMOD horizontal interval algorithm on `[0,T]`, `T > 0`, for a
table with non-negative thresholds: `[0,T]` when `|v|` is (almost) zero and
`|s| ≤ DTHR`; `[0, min(T, Θ_D(s,v,+1))]` when `|s| ≤ DTHR`; otherwise, with
`a = |v|²`, `b = 2·s·v + TTHR·|v|²`, `c = |s|² + TTHR·s·v - DTHR²`, the
in-time is `max(0, (-b-√(b²-4ac))/(2a))` and the out-time is
`min(T, Θ_D(s,v,+1))` whenever a loss exists in the window, and an empty
interval (`time_in > time_out`) is returned when there is no loss within
`[0,T]`. -/
theorem C3_taumod_horizontal_interval (tb : WCVTable) (hD : 0 ≤ tb.DTHR)
    (hTT : 0 ≤ tb.TTHR) (T : ℝ) (hT : 0 < T) (s v : Vect2) :
    ((v.sqv = 0 ∧ s.sqv ≤ sq tb.DTHR) → hInterval_taumod tb T s v = ⟨0, T⟩) ∧
    (v.sqv ≠ 0 → s.sqv ≤ sq tb.DTHR →
      hInterval_taumod tb T s v = ⟨0, min T (Theta_D s v 1 tb.DTHR)⟩) ∧
    (sq tb.DTHR < s.sqv →
      (∃ t, 0 ≤ t ∧ t ≤ T ∧ horizontal_WCV tb (v.ScalAdd t s) v) →
      hInterval_taumod tb T s v =
        ⟨max 0 ((-(2 * (s.dot v) + tb.TTHR * v.sqv) -
            Real.sqrt (sq (2 * (s.dot v) + tb.TTHR * v.sqv) -
              4 * v.sqv * (s.sqv + tb.TTHR * (s.dot v) - sq tb.DTHR))) / (2 * v.sqv)),
          min T (Theta_D s v 1 tb.DTHR)⟩) ∧
    ((¬ ∃ t, 0 ≤ t ∧ t ≤ T ∧ horizontal_WCV tb (v.ScalAdd t s) v) →
      (hInterval_taumod tb T s v).time_out < (hInterval_taumod tb T s v).time_in) := by
  refine ⟨?_, ?_, ?_, ?_⟩
  · intro h
    rw [hInterval_taumod]
    dsimp only
    rw [if_pos h]
  · intro hv hin
    rw [hInterval_taumod]
    dsimp only
    rw [if_neg (fun h => hv h.1), if_pos hin]
  · intro hout hloss
    obtain ⟨hsd, hdiscr, hΔ, htm⟩ := taumod_guards tb hD hTT s v hout hloss
    rw [hInterval_taumod]
    dsimp only
    rw [if_neg (fun h => absurd h.2 (not_le.mpr hout)), if_neg (not_le.mpr hout),
      if_neg ?_, if_pos ⟨hΔ, htm⟩]
    push_neg
    exact ⟨hsd, hdiscr⟩
  · intro hno
    have h := (hInterval_taumod_nonempty_iff tb hD hTT hT s v).not.mpr hno
    rw [LossData.nonempty] at h
    exact not_le.mp h

/-- Witness for C3 at a concrete state. -/
theorem C3_taumod_horizontal_interval_witness :
    hInterval_taumod ⟨1, 1, 1, 1⟩ 10 ⟨(0 : ℝ), 0⟩ ⟨(0 : ℝ), 0⟩ = ⟨0, 10⟩ :=
  (C3_taumod_horizontal_interval ⟨1, 1, 1, 1⟩ (by norm_num) (by norm_num) 10 (by norm_num)
    ⟨0, 0⟩ ⟨0, 0⟩).1 (by constructor <;> norm_num [Vect2.sqv, Vect2.dot, sq])

/-! ## Exactness of the vertical loss interval -/

lemma band_mem {sz vz Z : ℝ} (hvz : vz ≠ 0) (t : ℝ) :
    |sz + t * vz| ≤ Z ↔
      (-sz / vz - Z / |vz| ≤ t ∧ t ≤ -sz / vz + Z / |vz|) := by
  have hv : 0 < |vz| := abs_pos.mpr hvz
  rw [show sz + t * vz = (t - (-sz / vz)) * vz by field_simp; ring]
  rw [abs_mul, ← le_div_iff₀ hv, abs_le]
  constructor
  · rintro ⟨h1, h2⟩
    constructor <;> linarith
  · rintro ⟨h1, h2⟩
    constructor <;> linarith

lemma tcoa_part2 {sz vz TC : ℝ} (hvz : vz ≠ 0) (t : ℝ) :
    ((sz + t * vz) * vz < 0 ∧ 0 ≤ -(sz + t * vz) / vz ∧ -(sz + t * vz) / vz ≤ TC) ↔
      (t < -sz / vz ∧ -sz / vz - t ≤ TC) := by
  have hv2 : 0 < vz * vz := mul_self_pos.mpr hvz
  have e : -(sz + t * vz) / vz = -sz / vz - t := by
    field_simp
    ring
  have e2 : (sz + t * vz) * vz = (t - (-sz / vz)) * (vz * vz) := by
    field_simp
    ring
  rw [e, e2]
  constructor
  · rintro ⟨h1, h2, h3⟩
    refine ⟨?_, h3⟩
    by_contra hcon
    push_neg at hcon
    nlinarith [mul_nonneg (sub_nonneg.mpr hcon) hv2.le]
  · rintro ⟨h1, h2⟩
    exact ⟨mul_neg_of_neg_of_pos (by linarith) hv2, by linarith, h2⟩

/-- The modelled vertical interval is exactly the set of loss times within
`[B,T]` (for non-negative thresholds). -/
lemma vertical_WCV_interval_mem (vert : Vert) {Z TC B T sz vz : ℝ} (hZ : 0 ≤ Z)
    (hTC : 0 ≤ TC) (t : ℝ) :
    ((vertical_WCV_interval vert Z TC B T sz vz).low ≤ t ∧
      t ≤ (vertical_WCV_interval vert Z TC B T sz vz).up) ↔
      (B ≤ t ∧ t ≤ T ∧ vertical_WCV vert Z TC (sz + t * vz) vz) := by
  rw [vertical_WCV_interval]
  rcases eq_or_ne vz 0 with hvz | hvz
  · subst hvz
    rw [if_pos rfl]
    split_ifs with habs
    · cases vert
      · simp only [vertical_WCV, mul_zero, add_zero]
        constructor
        · intro h
          exact ⟨h.1, h.2, Or.inl habs⟩
        · intro h
          exact ⟨h.1, h.2.1⟩
      · simp only [vertical_WCV, mul_zero, add_zero]
        constructor
        · intro h
          exact ⟨h.1, h.2, habs⟩
        · intro h
          exact ⟨h.1, h.2.1⟩
    · cases vert
      · simp only [vertical_WCV, mul_zero, add_zero]
        constructor
        · intro h
          exfalso
          have h1 : (1 : ℝ) ≤ t := h.1
          have h2 : t ≤ (0 : ℝ) := h.2
          linarith
        · intro h
          rcases h.2.2 with h' | h'
          · exact absurd h' habs
          · exact absurd h'.1 (lt_irrefl 0)
      · simp only [vertical_WCV, mul_zero, add_zero]
        constructor
        · intro h
          exfalso
          have h1 : (1 : ℝ) ≤ t := h.1
          have h2 : t ≤ (0 : ℝ) := h.2
          linarith
        · intro h
          exact absurd h.2.2 habs
  · have hv : 0 < |vz| := abs_pos.mpr hvz
    have hZv : 0 ≤ Z / |vz| := div_nonneg hZ hv.le
    rw [if_neg hvz]
    cases vert
    · -- TCOA
      show max B (-sz / vz - max TC (Z / |vz|)) ≤ t ∧ t ≤ min T (-sz / vz + Z / |vz|) ↔ _
      simp only [vertical_WCV]
      rw [band_mem hvz, tcoa_part2 hvz, max_le_iff, le_min_iff]
      constructor
      · rintro ⟨⟨hB, hlo⟩, hT', hhi⟩
        refine ⟨hB, hT', ?_⟩
        rcases le_or_lt (-sz / vz - Z / |vz|) t with hin | hout
        · exact Or.inl ⟨hin, hhi⟩
        · rcases le_total TC (Z / |vz|) with hm | hm
          · rw [max_eq_right hm] at hlo
            linarith
          · rw [max_eq_left hm] at hlo
            exact Or.inr ⟨by linarith, by linarith⟩
      · rintro ⟨hB, hT', hloss⟩
        refine ⟨⟨hB, ?_⟩, hT', ?_⟩
        · rcases hloss with ⟨h1, h2⟩ | ⟨h1, h2⟩
          · have := le_max_right TC (Z / |vz|)
            linarith
          · have := le_max_left TC (Z / |vz|)
            linarith
        · rcases hloss with ⟨h1, h2⟩ | ⟨h1, h2⟩
          · exact h2
          · linarith
    · -- VMOD
      show max B (-sz / vz - Z / |vz|) ≤ t ∧ t ≤ min T (-sz / vz + Z / |vz|) ↔ _
      simp only [vertical_WCV]
      rw [band_mem hvz, max_le_iff, le_min_iff]
      constructor
      · rintro ⟨⟨hB, hlo⟩, hT', hhi⟩
        exact ⟨hB, hT', hlo, hhi⟩
      · rintro ⟨hB, hT', hlo, hhi⟩
        exact ⟨⟨hB, hlo⟩, hT', hhi⟩

/-- The vertical interval is non-empty iff a vertical loss time exists in
`[B,T]`. -/
lemma vertical_WCV_interval_nonempty_iff (vert : Vert) {Z TC B T sz vz : ℝ}
    (hZ : 0 ≤ Z) (hTC : 0 ≤ TC) :
    (vertical_WCV_interval vert Z TC B T sz vz).low ≤
        (vertical_WCV_interval vert Z TC B T sz vz).up ↔
      ∃ t, B ≤ t ∧ t ≤ T ∧ vertical_WCV vert Z TC (sz + t * vz) vz := by
  constructor
  · intro h
    obtain ⟨h1, h2, h3⟩ := (vertical_WCV_interval_mem vert hZ hTC _).mp ⟨le_rfl, h⟩
    exact ⟨_, h1, h2, h3⟩
  · rintro ⟨t, h1, h2, h3⟩
    obtain ⟨hl, hu⟩ := (vertical_WCV_interval_mem vert hZ hTC t).mpr ⟨h1, h2, h3⟩
    exact hl.trans hu

/-! ## Correctness of the TCPA horizontal interval -/

/-- The pointwise loss predicate captured by
`WCV_TCPA::horizontal_WCV_interval`: inside the `DTHR` circle, or converging
with the horizontal closest approach within `DTHR` and at most `TTHR` away in
time. -/
def tcpa_loss (tb : WCVTable) (p v : Vect2) : Prop :=
  p.sqv ≤ sq tb.DTHR ∨
    (p.dot v < 0 ∧ 0 ≤ Delta p v tb.DTHR ∧ -(p.dot v) / v.sqv ≤ tb.TTHR)

/-- The TCPA pointwise predicate along the trajectory. -/
lemma tcpa_loss_at (tb : WCVTable) (s v : Vect2) (hapos : 0 < v.sqv) (t : ℝ) :
    tcpa_loss tb (v.ScalAdd t s) v ↔
      (v.sqv * t ^ 2 + 2 * (s.dot v) * t + (s.sqv - sq tb.DTHR) ≤ 0 ∨
        (s.dot v + t * v.sqv < 0 ∧ 0 ≤ Delta s v tb.DTHR ∧
          -(s.dot v) / v.sqv - t ≤ tb.TTHR)) := by
  have e : -(s.dot v + t * v.sqv) / v.sqv = -(s.dot v) / v.sqv - t := by
    field_simp
    ring
  rw [tcpa_loss, Vect2.ScalAdd_sqv, Vect2.ScalAdd_dot, Delta_ScalAdd, e]
  constructor
  · rintro (h | h)
    · left
      linarith
    · exact Or.inr h
  · rintro (h | h)
    · left
      linarith
    · exact Or.inr h

lemma tq_between (s v : Vect2) {D : ℝ} (hapos : 0 < v.sqv) (hΔ : 0 ≤ Delta s v D) :
    Theta_D s v (-1) D ≤ -(s.dot v) / v.sqv ∧
      -(s.dot v) / v.sqv ≤ Theta_D s v 1 D := by
  have hr := Real.sqrt_nonneg (Delta s v D)
  rw [Theta_D, Theta_D]
  constructor
  · rw [div_le_div_iff_of_pos_right hapos]
    linarith
  · rw [div_le_div_iff_of_pos_right hapos]
    linarith

/-- Correctness of `WCV_TCPA::horizontal_WCV_interval` on a positive window:
the computed interval is non-empty exactly when some time in `[0,T]` satisfies
the TCPA loss predicate. -/
lemma hInterval_tcpa_nonempty_iff (tb : WCVTable) (hD : 0 ≤ tb.DTHR)
    (hTT : 0 ≤ tb.TTHR) {T : ℝ} (hT : 0 < T) (s v : Vect2) :
    (hInterval_tcpa tb T s v).nonempty ↔
      ∃ t, 0 ≤ t ∧ t ≤ T ∧ tcpa_loss tb (v.ScalAdd t s) v := by
  have ha0 : 0 ≤ v.sqv := Vect2.sqv_nonneg v
  rw [hInterval_tcpa]
  dsimp only
  split_ifs with h1 h2 h3 h4 h5 h6 h7 h8
  · -- zero velocity inside the circle
    constructor
    · intro _
      refine ⟨0, le_rfl, hT.le, ?_⟩
      rw [tcpa_loss, Vect2.ScalAdd_sqv]
      left
      nlinarith [h1.2]
    · intro _
      show (0 : ℝ) ≤ T
      exact hT.le
  · -- zero velocity outside the circle: no loss ever
    have hout : ¬ s.sqv ≤ sq tb.DTHR := fun h => h1 ⟨h2, h⟩
    refine iff_of_false (not_le.mpr hT) ?_
    rintro ⟨t, -, -, hw⟩
    obtain ⟨hx, hy⟩ := (Vect2.sqv_eq_zero_iff v).mp h2
    rw [tcpa_loss, Vect2.ScalAdd_sqv, Vect2.ScalAdd_dot, h2] at hw
    rcases hw with hq | ⟨hsv, -, -⟩
    · have hsd : s.dot v = 0 := by
        rw [Vect2.dot, hx, hy]
        ring
      rw [hsd] at hq
      exact hout (by nlinarith [hq])
    · have hsd : s.dot v = 0 := by
        rw [Vect2.dot, hx, hy]
        ring
      rw [hsd] at hsv
      simp at hsv
  · -- inside the circle
    have hapos : 0 < v.sqv := ha0.lt_of_ne (Ne.symm h2)
    have hq0 : v.sqv * (0 : ℝ) ^ 2 + 2 * (s.dot v) * 0 + (s.sqv - sq tb.DTHR) ≤ 0 := by
      nlinarith [h3]
    have hΔ : 0 ≤ Delta s v tb.DTHR := Delta_nonneg_of_q hapos hq0
    have hθ := (theta_q_iff s v hapos hΔ 0).mp hq0
    constructor
    · intro _
      refine ⟨0, le_rfl, hT.le, ?_⟩
      rw [tcpa_loss_at tb s v hapos]
      exact Or.inl hq0
    · intro _
      show (0 : ℝ) ≤ min T (Theta_D s v 1 tb.DTHR)
      exact le_min hT.le hθ.2
  · -- diverging: no loss for non-negative times
    have hapos : 0 < v.sqv := ha0.lt_of_ne (Ne.symm h2)
    have hout : sq tb.DTHR < s.sqv := not_le.mp h3
    refine iff_of_false (not_le.mpr hT) ?_
    rintro ⟨t, ht0, -, hw⟩
    rw [tcpa_loss_at tb s v hapos] at hw
    rcases hw with hq | ⟨hsvt, -, -⟩
    · nlinarith [mul_nonneg ha0 (sq_nonneg t), mul_nonneg h4.le ht0]
    · nlinarith [mul_nonneg ht0 ha0]
  · -- closest approach farther than DTHR: no loss
    have hapos : 0 < v.sqv := ha0.lt_of_ne (Ne.symm h2)
    have hout : sq tb.DTHR < s.sqv := not_le.mp h3
    have hsd0 : s.dot v ≤ 0 := not_lt.mp h4
    refine iff_of_false (not_le.mpr hT) ?_
    rintro ⟨t, ht0, -, hw⟩
    rw [tcpa_loss_at tb s v hapos] at hw
    have hsd : s.dot v < 0 := by
      rcases lt_or_eq_of_le hsd0 with h | h
      · exact h
      · exfalso
        -- with s·v = 0 the cpa is now and the cpa distance is |s| > DTHR,
        -- contradicting nothing: the code's branch then rejects, but here a
        -- loss was assumed
        rcases hw with hq | ⟨hsvt, -, -⟩
        · rw [← h] at hq
          nlinarith [mul_nonneg ha0 (sq_nonneg t)]
        · rw [← h] at hsvt
          nlinarith [mul_nonneg ht0 ha0]
    have hdle : dcpa s v ≤ tb.DTHR := by
      rcases hw with hq | ⟨-, hΔ, -⟩
      · exact (dcpa_le_iff hD hsd).mpr (Delta_nonneg_of_q hapos hq)
      · exact (dcpa_le_iff hD hsd).mpr hΔ
    rw [dcpa] at hdle
    exact absurd hdle (not_le.mpr h5)
  · -- Delta < 0 with late cpa: unreachable (Delta ≥ 0 after the dcpa check)
    have hapos : 0 < v.sqv := ha0.lt_of_ne (Ne.symm h2)
    have hout : sq tb.DTHR < s.sqv := not_le.mp h3
    have hsd0 : s.dot v ≤ 0 := not_lt.mp h4
    have hsd : s.dot v < 0 := by
      rcases lt_or_eq_of_le hsd0 with h | h
      · exact h
      · exfalso
        apply h5
        rw [tcpa, if_neg (ne_of_gt hapos), h]
        simp only [neg_zero, zero_div, max_self]
        have : (v.ScalAdd 0 s).sqv = s.sqv := by
          rw [Vect2.ScalAdd_sqv]
          ring
        rw [Vect2.norm]
        rw [this]
        calc tb.DTHR = Real.sqrt (sq tb.DTHR) := by
              rw [sq_eq_pow, Real.sqrt_sq hD]
          _ < Real.sqrt s.sqv := by
              apply Real.sqrt_lt_sqrt (sq_nonneg' _) hout
    have hΔ : 0 ≤ Delta s v tb.DTHR := by
      have : dcpa s v ≤ tb.DTHR := by
        rw [dcpa]
        exact not_lt.mp h5
      exact (dcpa_le_iff hD hsd).mp this
    exact absurd hΔ (not_le.mpr h6.1)
  · -- Delta < 0: unreachable likewise
    have hapos : 0 < v.sqv := ha0.lt_of_ne (Ne.symm h2)
    have hout : sq tb.DTHR < s.sqv := not_le.mp h3
    have hsd0 : s.dot v ≤ 0 := not_lt.mp h4
    have hsd : s.dot v < 0 := by
      rcases lt_or_eq_of_le hsd0 with h | h
      · exact h
      · exfalso
        apply h5
        rw [tcpa, if_neg (ne_of_gt hapos), h]
        simp only [neg_zero, zero_div, max_self]
        have : (v.ScalAdd 0 s).sqv = s.sqv := by
          rw [Vect2.ScalAdd_sqv]
          ring
        rw [Vect2.norm, this]
        calc tb.DTHR = Real.sqrt (sq tb.DTHR) := by
              rw [sq_eq_pow, Real.sqrt_sq hD]
          _ < Real.sqrt s.sqv := by
              apply Real.sqrt_lt_sqrt (sq_nonneg' _) hout
    have hΔ : 0 ≤ Delta s v tb.DTHR := by
      have : dcpa s v ≤ tb.DTHR := by
        rw [dcpa]
        exact not_lt.mp h5
      exact (dcpa_le_iff hD hsd).mp this
    exact absurd hΔ (not_le.mpr h7)
  · -- entry after the window: empty, and indeed no loss in the window
    have hapos : 0 < v.sqv := ha0.lt_of_ne (Ne.symm h2)
    have hout : sq tb.DTHR < s.sqv := not_le.mp h3
    have hsd0 : s.dot v ≤ 0 := not_lt.mp h4
    have hsd : s.dot v < 0 := by
      rcases lt_or_eq_of_le hsd0 with h | h
      · exact h
      · exfalso
        apply h5
        rw [tcpa, if_neg (ne_of_gt hapos), h]
        simp only [neg_zero, zero_div, max_self]
        have : (v.ScalAdd 0 s).sqv = s.sqv := by
          rw [Vect2.ScalAdd_sqv]
          ring
        rw [Vect2.norm, this]
        calc tb.DTHR = Real.sqrt (sq tb.DTHR) := by
              rw [sq_eq_pow, Real.sqrt_sq hD]
          _ < Real.sqrt s.sqv := by
              apply Real.sqrt_lt_sqrt (sq_nonneg' _) hout
    have hΔ : 0 ≤ Delta s v tb.DTHR := not_lt.mp h7
    rw [tcpa_of_dot_neg hsd] at h8
    refine iff_of_false (not_le.mpr hT) ?_
    rintro ⟨t, ht0, htT, hw⟩
    rw [tcpa_loss_at tb s v hapos] at hw
    rcases hw with hq | ⟨-, -, htc⟩
    · have hθ := (theta_q_iff s v hapos hΔ t).mp hq
      have := min_le_left (Theta_D s v (-1) tb.DTHR) (-(s.dot v) / v.sqv - tb.TTHR)
      linarith [hθ.1]
    · have := min_le_right (Theta_D s v (-1) tb.DTHR) (-(s.dot v) / v.sqv - tb.TTHR)
      linarith
  · -- main interval [max 0 tmin, min T Theta_D⁺]
    have hapos : 0 < v.sqv := ha0.lt_of_ne (Ne.symm h2)
    have hout : sq tb.DTHR < s.sqv := not_le.mp h3
    have hsd0 : s.dot v ≤ 0 := not_lt.mp h4
    have hsd : s.dot v < 0 := by
      rcases lt_or_eq_of_le hsd0 with h | h
      · exact h
      · exfalso
        apply h5
        rw [tcpa, if_neg (ne_of_gt hapos), h]
        simp only [neg_zero, zero_div, max_self]
        have : (v.ScalAdd 0 s).sqv = s.sqv := by
          rw [Vect2.ScalAdd_sqv]
          ring
        rw [Vect2.norm, this]
        calc tb.DTHR = Real.sqrt (sq tb.DTHR) := by
              rw [sq_eq_pow, Real.sqrt_sq hD]
          _ < Real.sqrt s.sqv := by
              apply Real.sqrt_lt_sqrt (sq_nonneg' _) hout
    have hΔ : 0 ≤ Delta s v tb.DTHR := not_lt.mp h7
    rw [tcpa_of_dot_neg hsd] at h8 ⊢
    push_neg at h8
    have htqb := tq_between s v (D := tb.DTHR) hapos hΔ
    constructor
    · -- non-empty output: loss at max 0 tmin
      intro hne
      have hne' : max 0 (min (Theta_D s v (-1) tb.DTHR) (-(s.dot v) / v.sqv - tb.TTHR)) ≤
          min T (Theta_D s v 1 tb.DTHR) := hne
      rcases le_or_lt 0 (min (Theta_D s v (-1) tb.DTHR) (-(s.dot v) / v.sqv - tb.TTHR))
        with htm0 | htm0
      · refine ⟨min (Theta_D s v (-1) tb.DTHR) (-(s.dot v) / v.sqv - tb.TTHR), htm0, h8, ?_⟩
        rw [tcpa_loss_at tb s v hapos]
        rcases le_total (Theta_D s v (-1) tb.DTHR) (-(s.dot v) / v.sqv - tb.TTHR)
          with hmm | hmm
        · rw [min_eq_left hmm]
          exact Or.inl ((theta_q_iff s v hapos hΔ _).mpr ⟨le_rfl, theta_le_theta s v hapos⟩)
        · rw [min_eq_right hmm]
          rcases le_or_lt
            (v.sqv * (-(s.dot v) / v.sqv - tb.TTHR) ^ 2 +
              2 * (s.dot v) * (-(s.dot v) / v.sqv - tb.TTHR) + (s.sqv - sq tb.DTHR)) 0
            with hq | hq
          · exact Or.inl hq
          · have hsvt : s.dot v + (-(s.dot v) / v.sqv - tb.TTHR) * v.sqv =
                -tb.TTHR * v.sqv := by
              field_simp
              ring
            refine Or.inr ⟨?_, hΔ, by linarith⟩
            rw [hsvt]
            rcases lt_or_eq_of_le hTT with h | h
            · nlinarith
            · exfalso
              -- TTHR = 0: the minimum is the cpa time, inside the circle band
              rw [← h] at hmm hq
              have hqq : v.sqv * (-(s.dot v) / v.sqv - 0) ^ 2 +
                  2 * (s.dot v) * (-(s.dot v) / v.sqv - 0) + (s.sqv - sq tb.DTHR) ≤ 0 := by
                have := (theta_q_iff s v hapos hΔ (-(s.dot v) / v.sqv)).mpr
                  ⟨htqb.1, htqb.2⟩
                simpa using this
              linarith
      · refine ⟨0, le_rfl, hT.le, ?_⟩
        rw [tcpa_loss_at tb s v hapos]
        have hθp0 : 0 ≤ Theta_D s v 1 tb.DTHR :=
          le_trans (le_max_left _ _) (hne'.trans (min_le_right _ _))
        have hθm0 : 0 < Theta_D s v (-1) tb.DTHR := by
          by_contra hcon
          push_neg at hcon
          have hq0 : v.sqv * (0 : ℝ) ^ 2 + 2 * (s.dot v) * 0 + (s.sqv - sq tb.DTHR) ≤ 0 :=
            (theta_q_iff s v hapos hΔ 0).mpr ⟨hcon, hθp0⟩
          nlinarith [hq0]
        have htc : -(s.dot v) / v.sqv - tb.TTHR < 0 := by
          rcases min_lt_iff.mp htm0 with h | h
          · exact absurd h (not_lt.mpr hθm0.le)
          · exact h
        refine Or.inr ⟨by simpa using hsd, hΔ, by linarith⟩
    · -- a loss time bounds the output
      rintro ⟨t0, ht00, ht0T, hw⟩
      rw [tcpa_loss_at tb s v hapos] at hw
      show max 0 (min (Theta_D s v (-1) tb.DTHR) (-(s.dot v) / v.sqv - tb.TTHR)) ≤
          min T (Theta_D s v 1 tb.DTHR)
      rcases hw with hq | ⟨hsvt, -, htc⟩
      · have hθ := (theta_q_iff s v hapos hΔ t0).mp hq
        have hmin := min_le_left (Theta_D s v (-1) tb.DTHR) (-(s.dot v) / v.sqv - tb.TTHR)
        exact max_le (le_min hT.le (ht00.trans hθ.2))
          (le_min (by linarith [hθ.1]) (by linarith [hθ.1, hθ.2]))
      · have ht0q : t0 < -(s.dot v) / v.sqv := by
          rw [lt_div_iff₀ hapos]
          linarith
        have hmin := min_le_right (Theta_D s v (-1) tb.DTHR) (-(s.dot v) / v.sqv - tb.TTHR)
        exact max_le (le_min hT.le (ht00.trans (ht0q.le.trans htqb.2)))
          (le_min (by linarith) (by linarith [htqb.2]))

/-! ## Claim C6: window composition -/

lemma Vect2.ScalAdd_ScalAdd (s v : Vect2) (a b : ℝ) :
    v.ScalAdd b (v.ScalAdd a s) = v.ScalAdd (a + b) s := by
  simp only [Vect2.ScalAdd, Vect2.mk.injEq]
  constructor <;> ring

/-- The pointwise horizontal loss predicate captured by each family's
interval algorithm. -/
def hpred : Horiz → WCVTable → Vect2 → Vect2 → Prop
  | Horiz.taumod => horizontal_WCV
  | Horiz.hz => horizontal_WCV
  | Horiz.tcpa => tcpa_loss

/-- Uniform correctness of the horizontal interval algorithms. -/
lemma hInterval_nonempty_iff (h : Horiz) (tb : WCVTable) (hD : 0 ≤ tb.DTHR)
    (hTT : 0 ≤ tb.TTHR) {T : ℝ} (hT : 0 < T) (s v : Vect2) :
    (hInterval h tb T s v).nonempty ↔
      ∃ t, 0 ≤ t ∧ t ≤ T ∧ hpred h tb (v.ScalAdd t s) v := by
  cases h
  · exact hInterval_taumod_nonempty_iff tb hD hTT hT s v
  · exact hInterval_tcpa_nonempty_iff tb hD hTT hT s v
  · exact hInterval_taumod_nonempty_iff tb hD hTT hT s v

/-- Inversion: shapes an empty `WCV_interval` output can take. -/
lemma WCV_interval_empty_inv (det : WCVtvar) (so si : Vect3) (vo vi : Velocity)
    (B T : ℝ)
    (hemp : (WCV_interval det so vo si vi B T).time_out <
      (WCV_interval det so vo si vi B T).time_in) :
    ((vertical_WCV_interval (vertOf det.horiz) det.table.ZTHR det.table.TCOA B T
        (so.z - si.z) (vo.vz - vi.vz)).up <
      (vertical_WCV_interval (vertOf det.horiz) det.table.ZTHR det.table.TCOA B T
        (so.z - si.z) (vo.vz - vi.vz)).low) ∨
    ((vertical_WCV_interval (vertOf det.horiz) det.table.ZTHR det.table.TCOA B T
        (so.z - si.z) (vo.vz - vi.vz)).low =
      (vertical_WCV_interval (vertOf det.horiz) det.table.ZTHR det.table.TCOA B T
        (so.z - si.z) (vo.vz - vi.vz)).up ∧
      ¬ horizontal_WCV det.table
        (((vo.vect2).sub (vi.vect2)).ScalAdd
          (vertical_WCV_interval (vertOf det.horiz) det.table.ZTHR det.table.TCOA B T
            (so.z - si.z) (vo.vz - vi.vz)).low ((so.vect2).sub (si.vect2)))
        ((vo.vect2).sub (vi.vect2))) ∨
    ((vertical_WCV_interval (vertOf det.horiz) det.table.ZTHR det.table.TCOA B T
        (so.z - si.z) (vo.vz - vi.vz)).low <
      (vertical_WCV_interval (vertOf det.horiz) det.table.ZTHR det.table.TCOA B T
        (so.z - si.z) (vo.vz - vi.vz)).up ∧
      ¬ (hInterval det.horiz det.table
          ((vertical_WCV_interval (vertOf det.horiz) det.table.ZTHR det.table.TCOA B T
            (so.z - si.z) (vo.vz - vi.vz)).up -
           (vertical_WCV_interval (vertOf det.horiz) det.table.ZTHR det.table.TCOA B T
            (so.z - si.z) (vo.vz - vi.vz)).low)
          (((vo.vect2).sub (vi.vect2)).ScalAdd
            (vertical_WCV_interval (vertOf det.horiz) det.table.ZTHR det.table.TCOA B T
              (so.z - si.z) (vo.vz - vi.vz)).low ((so.vect2).sub (si.vect2)))
          ((vo.vect2).sub (vi.vect2))).nonempty) := by
  rw [WCV_interval] at hemp
  dsimp only at hemp
  split_ifs at hemp with hc1 hc2 hc3
  · exact Or.inl hc1
  · exact absurd hemp (by rw [hc2]; exact lt_irrefl _)
  · exact Or.inr (Or.inl ⟨hc2, hc3⟩)
  · refine Or.inr (Or.inr ⟨lt_of_le_of_ne (not_lt.mp hc1) hc2, ?_⟩)
    rw [LossData.nonempty]
    push_neg
    exact lt_of_add_lt_add_right hemp

/-- Construction: the three ways to obtain an empty `WCV_interval` output. -/
lemma WCV_interval_empty_build (det : WCVtvar) (so si : Vect3) (vo vi : Velocity)
    {B T : ℝ} (hBT : B < T)
    (h : ((vertical_WCV_interval (vertOf det.horiz) det.table.ZTHR det.table.TCOA B T
        (so.z - si.z) (vo.vz - vi.vz)).up <
      (vertical_WCV_interval (vertOf det.horiz) det.table.ZTHR det.table.TCOA B T
        (so.z - si.z) (vo.vz - vi.vz)).low) ∨
    ((vertical_WCV_interval (vertOf det.horiz) det.table.ZTHR det.table.TCOA B T
        (so.z - si.z) (vo.vz - vi.vz)).low =
      (vertical_WCV_interval (vertOf det.horiz) det.table.ZTHR det.table.TCOA B T
        (so.z - si.z) (vo.vz - vi.vz)).up ∧
      ¬ horizontal_WCV det.table
        (((vo.vect2).sub (vi.vect2)).ScalAdd
          (vertical_WCV_interval (vertOf det.horiz) det.table.ZTHR det.table.TCOA B T
            (so.z - si.z) (vo.vz - vi.vz)).low ((so.vect2).sub (si.vect2)))
        ((vo.vect2).sub (vi.vect2))) ∨
    ((vertical_WCV_interval (vertOf det.horiz) det.table.ZTHR det.table.TCOA B T
        (so.z - si.z) (vo.vz - vi.vz)).low <
      (vertical_WCV_interval (vertOf det.horiz) det.table.ZTHR det.table.TCOA B T
        (so.z - si.z) (vo.vz - vi.vz)).up ∧
      ¬ (hInterval det.horiz det.table
          ((vertical_WCV_interval (vertOf det.horiz) det.table.ZTHR det.table.TCOA B T
            (so.z - si.z) (vo.vz - vi.vz)).up -
           (vertical_WCV_interval (vertOf det.horiz) det.table.ZTHR det.table.TCOA B T
            (so.z - si.z) (vo.vz - vi.vz)).low)
          (((vo.vect2).sub (vi.vect2)).ScalAdd
            (vertical_WCV_interval (vertOf det.horiz) det.table.ZTHR det.table.TCOA B T
              (so.z - si.z) (vo.vz - vi.vz)).low ((so.vect2).sub (si.vect2)))
          ((vo.vect2).sub (vi.vect2))).nonempty)) :
    (WCV_interval det so vo si vi B T).time_out <
      (WCV_interval det so vo si vi B T).time_in := by
  rw [WCV_interval]
  dsimp only
  rcases h with h | ⟨heq, hnw⟩ | ⟨hlt, hni⟩
  · rw [if_pos h]
    exact hBT
  · rw [if_neg (by rw [heq]; exact lt_irrefl _), if_pos heq, if_neg hnw]
    exact hBT
  · rw [if_neg (not_lt.mpr hlt.le), if_neg (ne_of_lt hlt)]
    rw [LossData.nonempty] at hni
    push_neg at hni
    show _ + _ < _ + _
    linarith [hni]

/-- An empty `WCV_interval` output forces a non-degenerate window. -/
lemma WCV_interval_empty_BT (det : WCVtvar) (so si : Vect3) (vo vi : Velocity)
    {B T : ℝ} (hZ : 0 ≤ det.table.ZTHR) (hTC : 0 ≤ det.table.TCOA)
    (hemp : (WCV_interval det so vo si vi B T).time_out <
      (WCV_interval det so vo si vi B T).time_in) :
    B < T := by
  rw [WCV_interval] at hemp
  dsimp only at hemp
  split_ifs at hemp with hc1 hc2 hc3
  · exact hemp
  · exact absurd hemp (by rw [hc2]; exact lt_irrefl _)
  · exact hemp
  · have hlt := lt_of_le_of_ne (not_lt.mp hc1) hc2
    have hm1 := (vertical_WCV_interval_mem (vertOf det.horiz) hZ hTC
      (vertical_WCV_interval (vertOf det.horiz) det.table.ZTHR det.table.TCOA B T
        (so.z - si.z) (vo.vz - vi.vz)).low).mp ⟨le_rfl, hlt.le⟩
    have hm2 := (vertical_WCV_interval_mem (vertOf det.horiz) hZ hTC
      (vertical_WCV_interval (vertOf det.horiz) det.table.ZTHR det.table.TCOA B T
        (so.z - si.z) (vo.vz - vi.vz)).up).mp ⟨hlt.le, le_rfl⟩
    linarith [hm1.1, hm2.2.1, hlt]

/-- If a window's `WCV_interval` output is empty, then no time of the window
that lies between two vertical-loss times (and is itself a vertical-loss time)
can satisfy the horizontal pointwise predicate. -/
lemma WCV_interval_no_hpred (det : WCVtvar) (so si : Vect3) (vo vi : Velocity)
    {X Y : ℝ} (hD : 0 ≤ det.table.DTHR) (hZ : 0 ≤ det.table.ZTHR)
    (hTT : 0 ≤ det.table.TTHR) (hTC : 0 ≤ det.table.TCOA)
    (hemp : (WCV_interval det so vo si vi X Y).time_out <
      (WCV_interval det so vo si vi X Y).time_in)
    {t x y : ℝ} (hxy : x < y) (hxt : x ≤ t) (hty : t ≤ y)
    (hx : X ≤ x ∧ x ≤ Y ∧ vertical_WCV (vertOf det.horiz) det.table.ZTHR det.table.TCOA
      ((so.z - si.z) + x * (vo.vz - vi.vz)) (vo.vz - vi.vz))
    (hy : X ≤ y ∧ y ≤ Y ∧ vertical_WCV (vertOf det.horiz) det.table.ZTHR det.table.TCOA
      ((so.z - si.z) + y * (vo.vz - vi.vz)) (vo.vz - vi.vz))
    (ht : X ≤ t ∧ t ≤ Y ∧ vertical_WCV (vertOf det.horiz) det.table.ZTHR det.table.TCOA
      ((so.z - si.z) + t * (vo.vz - vi.vz)) (vo.vz - vi.vz))
    (hp : hpred det.horiz det.table
      (((vo.vect2).sub (vi.vect2)).ScalAdd t ((so.vect2).sub (si.vect2)))
      ((vo.vect2).sub (vi.vect2))) : False := by
  set i := vertical_WCV_interval (vertOf det.horiz) det.table.ZTHR det.table.TCOA X Y
    (so.z - si.z) (vo.vz - vi.vz) with hi
  have hmx := (vertical_WCV_interval_mem (vertOf det.horiz) hZ hTC x).mpr hx
  have hmy := (vertical_WCV_interval_mem (vertOf det.horiz) hZ hTC y).mpr hy
  have hmt := (vertical_WCV_interval_mem (vertOf det.horiz) hZ hTC t).mpr ht
  rw [← hi] at hmx hmy hmt
  have hlu : i.low < i.up := lt_of_le_of_lt hmx.1 (lt_of_lt_of_le hxy hmy.2)
  rcases WCV_interval_empty_inv det so si vo vi X Y hemp with hv | ⟨heq, -⟩ | ⟨-, hni⟩
  · rw [← hi] at hv
    exact absurd hv (not_lt.mpr hlu.le)
  · rw [← hi] at heq
    exact absurd heq (ne_of_lt hlu)
  · rw [← hi] at hni
    apply hni
    rw [hInterval_nonempty_iff det.horiz det.table hD hTT (by linarith : (0 : ℝ) < i.up - i.low)]
    refine ⟨t - i.low, by linarith [hmt.1], by linarith [hmt.2], ?_⟩
    rw [Vect2.ScalAdd_ScalAdd]
    rw [show i.low + (t - i.low) = t by ring]
    exact hp

lemma conflictDetection_lossData (det : WCVtvar) (so si : Vect3) (vo vi : Velocity)
    (B T : ℝ) :
    (conflictDetection det so vo si vi B T).lossData = WCV_interval det so vo si vi B T :=
  rfl

/-- C6.  Window composition: if `conflictDetection` reports no conflict on
`[B,T1]` and none on `[T1,T2]`, it reports none on `[B,T2]` (tables with
non-negative thresholds, `0 ≤ B ≤ T1 ≤ T2`). -/
theorem C6_window_composition (det : WCVtvar) (hD : 0 ≤ det.table.DTHR)
    (hZ : 0 ≤ det.table.ZTHR) (hTT : 0 ≤ det.table.TTHR) (hTC : 0 ≤ det.table.TCOA)
    (so si : Vect3) (vo vi : Velocity) (B T1 T2 : ℝ) (hB : 0 ≤ B) (h12 : B ≤ T1)
    (h23 : T1 ≤ T2)
    (he1 : (conflictDetection det so vo si vi B T1).lossData.time_out <
      (conflictDetection det so vo si vi B T1).lossData.time_in)
    (he2 : (conflictDetection det so vo si vi T1 T2).lossData.time_out <
      (conflictDetection det so vo si vi T1 T2).lossData.time_in) :
    (conflictDetection det so vo si vi B T2).lossData.time_out <
      (conflictDetection det so vo si vi B T2).lossData.time_in := by
  rw [conflictDetection_lossData] at he1 he2 ⊢
  have hBT1 : B < T1 := WCV_interval_empty_BT det so si vo vi hZ hTC he1
  have hT12 : T1 < T2 := WCV_interval_empty_BT det so si vo vi hZ hTC he2
  have hBT2 : B < T2 := hBT1.trans hT12
  apply WCV_interval_empty_build det so si vo vi hBT2
  set i2 := vertical_WCV_interval (vertOf det.horiz) det.table.ZTHR det.table.TCOA B T2
    (so.z - si.z) (vo.vz - vi.vz) with hi2
  rcases lt_or_le i2.up i2.low with hvemp | hvne
  · exact Or.inl hvemp
  rcases eq_or_lt_of_le hvne with hpt | hint
  · -- the vertical loss on [B,T2] is the single instant i2.low
    refine Or.inr (Or.inl ⟨hpt, ?_⟩)
    intro hw
    obtain ⟨hBτ, hτT2, hvlossτ⟩ :=
      (vertical_WCV_interval_mem (vertOf det.horiz) hZ hTC i2.low).mp ⟨le_rfl, hvne⟩
    rcases le_total i2.low T1 with hτ1 | hτ1
    · set i1 := vertical_WCV_interval (vertOf det.horiz) det.table.ZTHR det.table.TCOA B T1
        (so.z - si.z) (vo.vz - vi.vz) with hi1
      have hmem1 : i1.low ≤ i2.low ∧ i2.low ≤ i1.up := by
        rw [hi1]
        exact (vertical_WCV_interval_mem (vertOf det.horiz) hZ hTC i2.low).mpr
          ⟨hBτ, hτ1, hvlossτ⟩
      have hsub : ∀ z, i1.low ≤ z → z ≤ i1.up → z = i2.low := by
        intro z hz1 hz2
        have hm := (vertical_WCV_interval_mem (vertOf det.horiz) hZ hTC z).mp
          (by rw [← hi1]; exact ⟨hz1, hz2⟩)
        have hm2 : i2.low ≤ z ∧ z ≤ i2.up := by
          rw [hi2]
          exact (vertical_WCV_interval_mem (vertOf det.horiz) hZ hTC z).mpr
            ⟨hm.1, hm.2.1.trans h23, hm.2.2⟩
        exact le_antisymm (by rw [hpt]; exact hm2.2) hm2.1
      have hl1 : i1.low = i2.low := hsub _ le_rfl (hmem1.1.trans hmem1.2)
      have hu1 : i1.up = i2.low := hsub _ (hmem1.1.trans hmem1.2) le_rfl
      rcases WCV_interval_empty_inv det so si vo vi B T1 he1 with hv | ⟨-, hnw⟩ | ⟨hlt, -⟩
      · rw [← hi1, hl1, hu1] at hv
        exact absurd hv (lt_irrefl _)
      · rw [← hi1, hl1] at hnw
        exact hnw hw
      · rw [← hi1, hl1, hu1] at hlt
        exact absurd hlt (lt_irrefl _)
    · set i1 := vertical_WCV_interval (vertOf det.horiz) det.table.ZTHR det.table.TCOA T1 T2
        (so.z - si.z) (vo.vz - vi.vz) with hi1
      have hmem1 : i1.low ≤ i2.low ∧ i2.low ≤ i1.up := by
        rw [hi1]
        exact (vertical_WCV_interval_mem (vertOf det.horiz) hZ hTC i2.low).mpr
          ⟨hτ1, hτT2, hvlossτ⟩
      have hsub : ∀ z, i1.low ≤ z → z ≤ i1.up → z = i2.low := by
        intro z hz1 hz2
        have hm := (vertical_WCV_interval_mem (vertOf det.horiz) hZ hTC z).mp
          (by rw [← hi1]; exact ⟨hz1, hz2⟩)
        have hm2 : i2.low ≤ z ∧ z ≤ i2.up := by
          rw [hi2]
          exact (vertical_WCV_interval_mem (vertOf det.horiz) hZ hTC z).mpr
            ⟨h12.trans hm.1, hm.2.1, hm.2.2⟩
        exact le_antisymm (by rw [hpt]; exact hm2.2) hm2.1
      have hl1 : i1.low = i2.low := hsub _ le_rfl (hmem1.1.trans hmem1.2)
      have hu1 : i1.up = i2.low := hsub _ (hmem1.1.trans hmem1.2) le_rfl
      rcases WCV_interval_empty_inv det so si vo vi T1 T2 he2 with hv | ⟨-, hnw⟩ | ⟨hlt, -⟩
      · rw [← hi1, hl1, hu1] at hv
        exact absurd hv (lt_irrefl _)
      · rw [← hi1, hl1] at hnw
        exact hnw hw
      · rw [← hi1, hl1, hu1] at hlt
        exact absurd hlt (lt_irrefl _)
  · -- non-degenerate vertical window on [B,T2]
    refine Or.inr (Or.inr ⟨hint, ?_⟩)
    rw [hInterval_nonempty_iff det.horiz det.table hD hTT
      (by linarith : (0 : ℝ) < i2.up - i2.low)]
    rintro ⟨τ, hτ0, hτW, hp⟩
    rw [Vect2.ScalAdd_ScalAdd] at hp
    have hmt := (vertical_WCV_interval_mem (vertOf det.horiz) hZ hTC (i2.low + τ)).mp
      (by rw [← hi2]; exact ⟨by linarith, by linarith⟩)
    have hmlo := (vertical_WCV_interval_mem (vertOf det.horiz) hZ hTC i2.low).mp
      (by rw [← hi2]; exact ⟨le_rfl, hvne⟩)
    have hmup := (vertical_WCV_interval_mem (vertOf det.horiz) hZ hTC i2.up).mp
      (by rw [← hi2]; exact ⟨hvne, le_rfl⟩)
    set t := i2.low + τ with ht
    have hlot : i2.low ≤ t := by rw [ht]; linarith
    have htup : t ≤ i2.up := by rw [ht]; linarith
    rcases lt_trichotomy t T1 with htlt | hteq | htgt
    · -- the loss time lies strictly before T1: contradict emptiness on [B,T1]
      have hyv := (vertical_WCV_interval_mem (vertOf det.horiz) hZ hTC
        (min T1 i2.up)).mp (by
          rw [← hi2]
          exact ⟨le_min (hlot.trans htlt.le) hvne, min_le_right _ _⟩)
      exact WCV_interval_no_hpred det so si vo vi hD hZ hTT hTC he1
        (lt_min (lt_of_le_of_lt hlot htlt) hint) hlot (le_min htlt.le htup)
        ⟨hmlo.1, hlot.trans htlt.le, hmlo.2.2⟩
        ⟨le_min hBT1.le hmup.1, min_le_left _ _, hyv.2.2⟩
        ⟨hmt.1, htlt.le, hmt.2.2⟩ hp
    · -- the loss time is exactly T1
      have hloT1 : i2.low ≤ T1 := hteq ▸ hlot
      rcases lt_or_eq_of_le hloT1 with hlo1 | hlo1
      · -- i2.low < T1: [i2.low, T1] is a nondegenerate loss stretch inside [B,T1]
        exact WCV_interval_no_hpred det so si vo vi hD hZ hTT hTC he1
          (show i2.low < t by rw [hteq]; exact hlo1) hlot le_rfl
          ⟨hmlo.1, hloT1, hmlo.2.2⟩
          ⟨hmt.1, hteq.le, hmt.2.2⟩
          ⟨hmt.1, hteq.le, hmt.2.2⟩ hp
      · -- i2.low = T1: [T1, i2.up] is a nondegenerate loss stretch inside [T1,T2]
        exact WCV_interval_no_hpred det so si vo vi hD hZ hTT hTC he2
          (show t < i2.up by rw [hteq, ← hlo1]; exact hint) le_rfl htup
          ⟨hteq.ge, hmt.2.1, hmt.2.2⟩
          ⟨by rw [← hlo1]; exact hvne, hmup.2.1, hmup.2.2⟩
          ⟨hteq.ge, hmt.2.1, hmt.2.2⟩ hp
    · -- the loss time lies strictly after T1: contradict emptiness on [T1,T2]
      have hT1up : T1 ≤ i2.up := (lt_of_lt_of_le htgt htup).le
      have hxv := (vertical_WCV_interval_mem (vertOf det.horiz) hZ hTC
        (max T1 i2.low)).mp (by
          rw [← hi2]
          exact ⟨le_max_right _ _, max_le hT1up hvne⟩)
      exact WCV_interval_no_hpred det so si vo vi hD hZ hTT hTC he2
        (max_lt (lt_of_lt_of_le htgt htup) hint) (max_le htgt.le hlot) htup
        ⟨le_max_left _ _, max_le h23 hmlo.2.1, hxv.2.2⟩
        ⟨hT1up, hmup.2.1, hmup.2.2⟩
        ⟨htgt.le, hmt.2.1, hmt.2.2⟩ hp

/-- A vertically distant level pair is conflict-free on every window. -/
lemma WCV_far_vertical_empty (B T : ℝ) (hBT : B < T) :
    (conflictDetection ⟨Horiz.taumod, ⟨0, 0, 0, 0⟩⟩ ⟨0, 0, 10⟩ (Velocity.mkTrkGsVs 0 0 0)
        ⟨0, 0, 0⟩ (Velocity.mkTrkGsVs 0 0 0) B T).lossData.time_out <
      (conflictDetection ⟨Horiz.taumod, ⟨0, 0, 0, 0⟩⟩ ⟨0, 0, 10⟩ (Velocity.mkTrkGsVs 0 0 0)
        ⟨0, 0, 0⟩ (Velocity.mkTrkGsVs 0 0 0) B T).lossData.time_in := by
  rw [conflictDetection_lossData, WCV_interval]
  dsimp only
  rw [vertical_WCV_interval]
  have hvz : (Velocity.mkTrkGsVs 0 0 0).vz - (Velocity.mkTrkGsVs 0 0 0).vz = 0 := by
    simp [Velocity.mkTrkGsVs]
  rw [if_pos hvz, if_neg (by norm_num : ¬ (|(10 : ℝ) - 0| ≤ 0)),
    if_pos (by norm_num : ((⟨1, 0⟩ : Interval).up < (⟨1, 0⟩ : Interval).low))]
  exact hBT

theorem C6_window_composition_witness :
    (conflictDetection ⟨Horiz.taumod, ⟨0, 0, 0, 0⟩⟩ ⟨0, 0, 10⟩ (Velocity.mkTrkGsVs 0 0 0)
        ⟨0, 0, 0⟩ (Velocity.mkTrkGsVs 0 0 0) 0 2).lossData.time_out <
      (conflictDetection ⟨Horiz.taumod, ⟨0, 0, 0, 0⟩⟩ ⟨0, 0, 10⟩ (Velocity.mkTrkGsVs 0 0 0)
        ⟨0, 0, 0⟩ (Velocity.mkTrkGsVs 0 0 0) 0 2).lossData.time_in :=
  C6_window_composition ⟨Horiz.taumod, ⟨0, 0, 0, 0⟩⟩ le_rfl le_rfl le_rfl le_rfl
    ⟨0, 0, 10⟩ ⟨0, 0, 0⟩ (Velocity.mkTrkGsVs 0 0 0) (Velocity.mkTrkGsVs 0 0 0) 0 1 2
    le_rfl (by norm_num) (by norm_num)
    (WCV_far_vertical_empty 0 1 (by norm_num)) (WCV_far_vertical_empty 1 2 (by norm_num))

/-! ## Claim C7: level-out total altitude (Kinematics.cpp) -/

namespace Kinematics

lemma root_zero_zero (c e : ℝ) : root 0 0 c e = none := by
  rw [root]
  simp

/-- A value returned by `Util::root` with `eps = ±1` solves the quadratic. -/
lemma root_is_root {a b c e r : ℝ} (he : e = 1 ∨ e = -1) (h : root a b c e = some r) :
    a * r ^ 2 + b * r + c = 0 := by
  rw [root] at h
  by_cases ha : a = 0
  · rw [if_pos ha] at h
    by_cases hb : b = 0
    · rw [if_pos hb] at h
      exact Option.noConfusion h
    · rw [if_neg hb] at h
      obtain rfl : -c / b = r := Option.some.inj h
      subst ha
      field_simp
      ring
  · rw [if_neg ha] at h
    by_cases hd : sq b - 4 * a * c < 0
    · rw [if_pos hd] at h
      exact Option.noConfusion h
    · rw [if_neg hd] at h
      obtain rfl : (-b + e * Real.sqrt (sq b - 4 * a * c)) / (2 * a) = r :=
        Option.some.inj h
      have hd' : 0 ≤ sq b - 4 * a * c := not_lt.mp hd
      have he2 : e ^ 2 = 1 := by rcases he with rfl | rfl <;> norm_num
      set s := Real.sqrt (sq b - 4 * a * c) with hsdef
      have hs : s ^ 2 = b ^ 2 - 4 * a * c := by
        rw [hsdef, Real.sq_sqrt hd', sq]
        ring
      field_simp
      linear_combination (2 * a ^ 2 * s ^ 2) * he2 + (2 * a ^ 2) * hs

/-- Shifting the level-out profile: once the initial vertical speed is what
phase-one acceleration `c` produces after time `δ` from standstill, the
profile started `δ` earlier at the co-speed altitude agrees with the
standstill profile. -/
lemma vsLevelOutCalc_shift (s0z v0z alt c a2 τ1 τ2 τ3 τ δ : ℝ) (hc : c ≠ 0)
    (hδ : v0z = -c * δ) :
    vsLevelOutCalc s0z v0z alt c a2 (δ + τ1) (δ + τ2) (δ + τ3) (δ + τ) =
      vsLevelOutCalc (s0z + S3f v0z c) 0 alt c a2 τ1 τ2 τ3 τ := by
  subst hδ
  rw [vsLevelOutCalc, vsLevelOutCalc]
  simp only [add_le_add_iff_left]
  split_ifs with h1 h2 h3
  · simp only [Prod.mk.injEq, S1, V1, S3f, T3f]
    constructor
    · field_simp
      ring
    · ring
  · simp only [Prod.mk.injEq, S1, V1, S3f, T3f]
    constructor
    · field_simp
      ring
    · ring
  · simp only [Prod.mk.injEq, S1, V1, S3f, T3f]
    constructor
    · field_simp
      ring
    · ring
  · rfl

set_option maxHeartbeats 1600000 in
/-- Specification of `vsLevelOutTimesBase` with `accelup = a > 0`,
`acceldown = -a`: when it returns phase times and the initial vertical speed
points toward the target (or is zero), the phase boundaries are ordered and
from the last boundary on, `vsLevelOutCalc` sits exactly at the target
altitude with zero vertical speed. -/
lemma base_spec (s0z v0z cRate alt a : ℝ) (acrc : Bool) (ha : 0 < a)
    (hdir : (s0z ≤ alt → 0 ≤ v0z) ∧ (alt < s0z → v0z ≤ 0))
    {t1 t2 t3 a1 a2 : ℝ}
    (h : vsLevelOutTimesBase s0z v0z cRate alt a (-a) acrc = some (t1, t2, t3, a1, a2))
    (ht1 : 0 ≤ t1 ∨ v0z = 0) :
    0 ≤ t1 ∧ t1 ≤ t2 ∧ t2 ≤ t3 ∧
      (v0z = 0 → a1 = (if s0z ≤ alt then a else -a)) ∧
      (∀ t, t3 ≤ t → vsLevelOutCalc s0z v0z alt a1 a2 t1 t2 t3 t = (alt, 0)) := by
  have hane : a ≠ 0 := ne_of_gt ha
  rw [vsLevelOutTimesBase] at h
  dsimp only at h
  rcases le_or_lt s0z alt with hud | hud
  · -- climb (or level) target
    have hv0 : 0 ≤ v0z := hdir.1 hud
    simp only [if_pos hud, one_mul] at h
    set M := (if acrc = true then max |cRate| |v0z| else |cRate|) with hMdef
    have hM0 : 0 ≤ M := by
      rw [hMdef]
      split_ifs
      · exact le_trans (abs_nonneg _) (le_max_left _ _)
      · exact abs_nonneg _
    rcases le_or_lt v0z M with hvm | hvm
    · -- phase-one acceleration a
      simp only [if_pos hvm] at h
      rw [if_neg (show ¬((a : ℝ) = 0 ∨ (-a : ℝ) = 0) from by
        push_neg
        exact ⟨hane, neg_ne_zero.mpr hane⟩)] at h
      have hV1 : V1 v0z a ((M - v0z) / a) = M := by
        rw [V1]
        field_simp
      rw [hV1] at h
      by_cases habs : |S1 v0z a ((M - v0z) / a) + S3f M (-a)| ≤ |alt - s0z|
      · rw [if_pos habs] at h
        by_cases hM0' : M = 0
        · rw [if_pos hM0'] at h
          exact Option.noConfusion h
        rw [if_neg hM0'] at h
        -- main three-phase shape
        simp only [Option.some.injEq, Prod.mk.injEq] at h
        obtain ⟨e1, e2, e3, e4, e5⟩ := h
        subst e1
        subst e2
        subst e3
        subst e4
        subst e5
        have hMpos : 0 < M := lt_of_le_of_ne hM0 (Ne.symm hM0')
        have hSnn : 0 ≤ alt - s0z := sub_nonneg.mpr hud
        rw [abs_of_nonneg hSnn] at habs
        have habs' := (abs_le.mp habs).2
        have hT2nn : 0 ≤ (alt - s0z - S1 v0z a ((M - v0z) / a) - S3f M (-a)) / M :=
          div_nonneg (by linarith) hM0
        have hT3 : T3f M (-a) = M / a := by rw [T3f, neg_div_neg_eq]
        have hT3pos : 0 < T3f M (-a) := by rw [hT3]; exact div_pos hMpos ha
        refine ⟨div_nonneg (sub_nonneg.mpr hvm) ha.le, by linarith, by linarith, ?_, ?_⟩
        · intro hz
          rw [if_pos hud]
        · intro t htt
          rw [vsLevelOutCalc]
          split_ifs with p1 p2 p3
          · exact absurd p1 (not_le.mpr (by linarith))
          · exact absurd p2 (not_le.mpr (by linarith))
          · have hteq : t = (M - v0z) / a +
                (alt - s0z - S1 v0z a ((M - v0z) / a) - S3f M (-a)) / M + T3f M (-a) :=
              le_antisymm p3 htt
            subst hteq
            rw [Prod.mk.injEq]
            constructor
            · rw [hV1]
              simp only [S1, S3f, V1, T3f]
              field_simp
              ring
            · simp only [S1, S3f, V1, T3f]
              field_simp
              ring
          · rfl
      · rw [if_neg habs] at h
        -- degenerate branch: root of the closure quadratic
        have hAAe : (0.5 * a * (1 - a / -a) : ℝ) = a := by
          field_simp
          ring
        have hBBe : (v0z * (1 - a / -a) : ℝ) = 2 * v0z := by
          field_simp
          ring
        rw [hAAe, hBBe] at h
        rcases hr1 : root a (2 * v0z) (-v0z * v0z / (2 * -a) - (alt - s0z)) 1 with _ | r1
        · rw [hr1] at h
          exact Option.noConfusion h
        rcases hr2 : root a (2 * v0z) (-v0z * v0z / (2 * -a) - (alt - s0z)) (-1) with _ | r2
        · rw [hr1, hr2] at h
          exact Option.noConfusion h
        rw [hr1, hr2] at h
        have hq1 := root_is_root (Or.inl rfl) hr1
        have hq2 := root_is_root (Or.inr rfl) hr2
        injection h with h'
        simp only [Prod.mk.injEq] at h'
        obtain ⟨e1, e2, e3, e4, e5⟩ := h'
        subst e1
        subst e2
        subst e3
        subst e4
        subst e5
        set T := (if r1 < 0 then r2 else if r2 < 0 then r1 else min r1 r2) with hTdef
        have hqT : a * T ^ 2 + 2 * v0z * T +
            (-v0z * v0z / (2 * -a) - (alt - s0z)) = 0 := by
          have hTr : T = r1 ∨ T = r2 := by
            rw [hTdef]
            split_ifs
            · exact Or.inr rfl
            · exact Or.inl rfl
            · rcases le_total r1 r2 with hle | hle
              · rw [min_eq_left hle]
                exact Or.inl rfl
              · rw [min_eq_right hle]
                exact Or.inr rfl
          rcases hTr with hT | hT <;> rw [hT]
          · exact hq1
          · exact hq2
        have hT0 : 0 ≤ T := by
          rcases ht1 with H | hz
          · exact H
          · subst hz
            rw [root, if_neg hane] at hr1 hr2
            by_cases hdisc : sq (2 * (0 : ℝ)) - 4 * a * (-0 * 0 / (2 * -a) - (alt - s0z)) < 0
            · rw [if_pos hdisc] at hr1
              exact Option.noConfusion hr1
            · rw [if_neg hdisc] at hr1 hr2
              obtain rfl := Option.some.inj hr1
              obtain rfl := Option.some.inj hr2
              rw [hTdef]
              split_ifs with hb1 hb2
              · refine absurd hb1 (not_lt.mpr ?_)
                apply div_nonneg
                · have := Real.sqrt_nonneg
                    (sq (2 * (0 : ℝ)) - 4 * a * (-0 * 0 / (2 * -a) - (alt - s0z)))
                  linarith
                · linarith
              · exact not_lt.mp hb1
              · exact le_min (not_lt.mp hb1) (not_lt.mp hb2)
        have hv1 : 0 ≤ V1 v0z a T := by
          rw [V1]
          exact add_nonneg hv0 (mul_nonneg ha.le hT0)
        have hT3v : T3f (V1 v0z a T) (-a) = V1 v0z a T / a := by
          rw [T3f, neg_div_neg_eq]
        refine ⟨hT0, le_rfl, by
          have := div_nonneg hv1 ha.le
          rw [← hT3v] at this
          linarith, ?_, ?_⟩
        · intro hz
          rw [if_pos hud]
        · intro t htt
          clear hr1 hr2 hq1 hq2
          clear_value T
          rw [vsLevelOutCalc]
          split_ifs with p1 p3
          · -- forced to the single instant: everything is zero-length
            have hle : T3f (V1 v0z a T) (-a) ≤ 0 := by linarith
            rw [hT3v] at hle
            have hv1z : V1 v0z a T = 0 := by
              refine le_antisymm ?_ hv1
              by_contra hpos
              push_neg at hpos
              have := div_pos hpos ha
              linarith
            have hteq : t = T := by
              refine le_antisymm p1 ?_
              have h0 : T3f (V1 v0z a T) (-a) = 0 := by
                rw [hT3v, hv1z, zero_div]
              rw [h0] at htt
              linarith
            rw [hteq, Prod.mk.injEq]
            rw [V1] at hv1z
            constructor
            · simp only [S1]
              have hveq : v0z = -(a * T) := by linarith
              subst hveq
              have hCC : (- -(a * T) * -(a * T) / (2 * -a) : ℝ) = a * T ^ 2 / 2 := by
                field_simp
                ring
              rw [hCC] at hqT
              linear_combination hqT
            · exact hv1z
          · have hteq : t = T + T3f (V1 v0z a T) (-a) := le_antisymm p3 htt
            subst hteq
            rw [Prod.mk.injEq]
            rw [hT3v]
            set Δ := V1 v0z a T / a with hΔdef
            clear_value Δ
            have hwΔ : V1 v0z a T = a * Δ := by
              rw [hΔdef]
              field_simp
            have hveq : v0z = a * Δ - a * T := by
              rw [V1] at hwΔ
              linarith
            subst hveq
            have hCC : (-(a * Δ - a * T) * (a * Δ - a * T) / (2 * -a) : ℝ) =
                a * (Δ - T) ^ 2 / 2 := by
              field_simp
              ring
            rw [hCC] at hqT
            constructor
            · simp only [S1, V1]
              linear_combination hqT
            · ring
          · rfl
    · -- phase-one acceleration -a (reducing an initial climb-rate overshoot)
      simp only [if_neg (not_le.mpr hvm)] at h
      rw [if_neg (show ¬((-a : ℝ) = 0 ∨ (-a : ℝ) = 0) from by
        push_neg
        exact ⟨neg_ne_zero.mpr hane, neg_ne_zero.mpr hane⟩)] at h
      have hV1 : V1 v0z (-a) ((M - v0z) / -a) = M := by
        rw [V1]
        field_simp
      rw [hV1] at h
      by_cases habs : |S1 v0z (-a) ((M - v0z) / -a) + S3f M (-a)| ≤ |alt - s0z|
      · rw [if_pos habs] at h
        by_cases hM0' : M = 0
        · rw [if_pos hM0'] at h
          exact Option.noConfusion h
        rw [if_neg hM0'] at h
        simp only [Option.some.injEq, Prod.mk.injEq] at h
        obtain ⟨e1, e2, e3, e4, e5⟩ := h
        subst e1
        subst e2
        subst e3
        subst e4
        subst e5
        have hMpos : 0 < M := lt_of_le_of_ne hM0 (Ne.symm hM0')
        have hSnn : 0 ≤ alt - s0z := sub_nonneg.mpr hud
        rw [abs_of_nonneg hSnn] at habs
        have habs' := (abs_le.mp habs).2
        have hT2nn : 0 ≤ (alt - s0z - S1 v0z (-a) ((M - v0z) / -a) - S3f M (-a)) / M :=
          div_nonneg (by linarith) hM0
        have hT3 : T3f M (-a) = M / a := by rw [T3f, neg_div_neg_eq]
        have hT3pos : 0 < T3f M (-a) := by rw [hT3]; exact div_pos hMpos ha
        refine ⟨div_nonneg_iff.mpr (Or.inr ⟨by linarith, by linarith⟩),
          by linarith, by linarith, ?_, ?_⟩
        · intro hz
          exfalso
          rw [hz] at hvm
          exact absurd hvm (not_lt.mpr hM0)
        · intro t htt
          rw [vsLevelOutCalc]
          split_ifs with p1 p2 p3
          · exact absurd p1 (not_le.mpr (by linarith))
          · exact absurd p2 (not_le.mpr (by linarith))
          · have hteq : t = (M - v0z) / -a +
                (alt - s0z - S1 v0z (-a) ((M - v0z) / -a) - S3f M (-a)) / M + T3f M (-a) :=
              le_antisymm p3 htt
            subst hteq
            rw [Prod.mk.injEq]
            constructor
            · rw [hV1]
              simp only [S1, S3f, V1, T3f]
              field_simp
              ring
            · simp only [S1, S3f, V1, T3f]
              field_simp
              ring
          · rfl
      · rw [if_neg habs] at h
        have hAA0 : (0.5 * -a * (1 - -a / -a) : ℝ) = 0 := by
          rw [neg_div_neg_eq, div_self hane]
          ring
        have hBB0 : (v0z * (1 - -a / -a) : ℝ) = 0 := by
          rw [neg_div_neg_eq, div_self hane]
          ring
        rw [hAA0, hBB0, root_zero_zero, root_zero_zero] at h
        exact Option.noConfusion h
  · -- descend target
    have hv0 : v0z ≤ 0 := hdir.2 hud
    have hudn : ¬ s0z ≤ alt := not_le.mpr hud
    simp only [if_neg hudn, neg_one_mul] at h
    rw [show (if acrc = true then -(max |cRate| |v0z|) else -|cRate|) =
        -(if acrc = true then max |cRate| |v0z| else |cRate|) from by
      split_ifs <;> rfl] at h
    set M := (if acrc = true then max |cRate| |v0z| else |cRate|) with hMdef
    have hM0 : 0 ≤ M := by
      rw [hMdef]
      split_ifs
      · exact le_trans (abs_nonneg _) (le_max_left _ _)
      · exact abs_nonneg _
    rcases le_or_lt v0z (-M) with hvm | hvm
    · -- phase-one acceleration a (reducing an initial descent-rate overshoot)
      simp only [if_pos hvm] at h
      rw [if_neg (show ¬((a : ℝ) = 0 ∨ (a : ℝ) = 0) from by
        push_neg
        exact ⟨hane, hane⟩)] at h
      have hV1 : V1 v0z a ((-M - v0z) / a) = -M := by
        rw [V1]
        field_simp
      rw [hV1] at h
      by_cases habs : |S1 v0z a ((-M - v0z) / a) + S3f (-M) a| ≤ |alt - s0z|
      · rw [if_pos habs] at h
        by_cases hM0' : (-M : ℝ) = 0
        · rw [if_pos hM0'] at h
          exact Option.noConfusion h
        rw [if_neg hM0'] at h
        simp only [Option.some.injEq, Prod.mk.injEq] at h
        obtain ⟨e1, e2, e3, e4, e5⟩ := h
        subst e1
        subst e2
        subst e3
        subst e4
        subst e5
        have hMne : M ≠ 0 := fun hh => hM0' (by rw [hh, neg_zero])
        have hMpos : 0 < M := lt_of_le_of_ne hM0 (Ne.symm hMne)
        have hSneg : alt - s0z < 0 := sub_neg.mpr hud
        rw [abs_of_neg hSneg] at habs
        have habs' := (abs_le.mp habs).1
        rw [neg_neg] at habs'
        have hT2nn : 0 ≤ (alt - s0z - S1 v0z a ((-M - v0z) / a) - S3f (-M) a) / -M :=
          div_nonneg_iff.mpr (Or.inr ⟨by linarith, by linarith⟩)
        have hT3 : T3f (-M) a = M / a := by rw [T3f, neg_neg]
        have hT3pos : 0 < T3f (-M) a := by rw [hT3]; exact div_pos hMpos ha
        refine ⟨div_nonneg (by linarith) ha.le,
          by linarith, by linarith, ?_, ?_⟩
        · intro hz
          exfalso
          rw [hz] at hvm
          have hM0'' : M ≤ 0 := by linarith
          exact hMne (le_antisymm hM0'' hM0)
        · intro t htt
          rw [vsLevelOutCalc]
          split_ifs with p1 p2 p3
          · exact absurd p1 (not_le.mpr (by linarith))
          · exact absurd p2 (not_le.mpr (by linarith))
          · have hteq : t = (-M - v0z) / a +
                (alt - s0z - S1 v0z a ((-M - v0z) / a) - S3f (-M) a) / -M + T3f (-M) a :=
              le_antisymm p3 htt
            subst hteq
            rw [Prod.mk.injEq]
            constructor
            · rw [hV1]
              simp only [S1, S3f, V1, T3f]
              field_simp
              ring
            · simp only [S1, S3f, V1, T3f]
              field_simp
              ring
          · rfl
      · rw [if_neg habs] at h
        have hAA0 : (0.5 * a * (1 - a / a) : ℝ) = 0 := by
          rw [div_self hane]
          ring
        have hBB0 : (v0z * (1 - a / a) : ℝ) = 0 := by
          rw [div_self hane]
          ring
        rw [hAA0, hBB0, root_zero_zero, root_zero_zero] at h
        exact Option.noConfusion h
    · -- generic descend: phase-one acceleration -a
      simp only [if_neg (not_le.mpr hvm)] at h
      rw [if_neg (show ¬((-a : ℝ) = 0 ∨ (a : ℝ) = 0) from by
        push_neg
        exact ⟨neg_ne_zero.mpr hane, hane⟩)] at h
      have hV1 : V1 v0z (-a) ((-M - v0z) / -a) = -M := by
        rw [V1]
        field_simp
      rw [hV1] at h
      by_cases habs : |S1 v0z (-a) ((-M - v0z) / -a) + S3f (-M) a| ≤ |alt - s0z|
      · rw [if_pos habs] at h
        by_cases hM0' : (-M : ℝ) = 0
        · rw [if_pos hM0'] at h
          exact Option.noConfusion h
        rw [if_neg hM0'] at h
        simp only [Option.some.injEq, Prod.mk.injEq] at h
        obtain ⟨e1, e2, e3, e4, e5⟩ := h
        subst e1
        subst e2
        subst e3
        subst e4
        subst e5
        have hMne : M ≠ 0 := fun hh => hM0' (by rw [hh, neg_zero])
        have hMpos : 0 < M := lt_of_le_of_ne hM0 (Ne.symm hMne)
        have hSneg : alt - s0z < 0 := sub_neg.mpr hud
        rw [abs_of_neg hSneg] at habs
        have habs' := (abs_le.mp habs).1
        rw [neg_neg] at habs'
        have hT2nn : 0 ≤ (alt - s0z - S1 v0z (-a) ((-M - v0z) / -a) - S3f (-M) a) / -M :=
          div_nonneg_iff.mpr (Or.inr ⟨by linarith, by linarith⟩)
        have hT3 : T3f (-M) a = M / a := by rw [T3f, neg_neg]
        have hT3pos : 0 < T3f (-M) a := by rw [hT3]; exact div_pos hMpos ha
        refine ⟨div_nonneg_iff.mpr (Or.inr ⟨by linarith, by linarith⟩),
          by linarith, by linarith, ?_, ?_⟩
        · intro hz
          rw [if_neg hudn]
        · intro t htt
          rw [vsLevelOutCalc]
          split_ifs with p1 p2 p3
          · exact absurd p1 (not_le.mpr (by linarith))
          · exact absurd p2 (not_le.mpr (by linarith))
          · have hteq : t = (-M - v0z) / -a +
                (alt - s0z - S1 v0z (-a) ((-M - v0z) / -a) - S3f (-M) a) / -M +
                  T3f (-M) a :=
              le_antisymm p3 htt
            subst hteq
            rw [Prod.mk.injEq]
            constructor
            · rw [hV1]
              simp only [S1, S3f, V1, T3f]
              field_simp
              ring
            · simp only [S1, S3f, V1, T3f]
              field_simp
              ring
          · rfl
      · rw [if_neg habs] at h
        have hAAe : (0.5 * -a * (1 - -a / a) : ℝ) = -a := by
          field_simp
          ring
        have hBBe : (v0z * (1 - -a / a) : ℝ) = 2 * v0z := by
          field_simp
          ring
        rw [hAAe, hBBe] at h
        rcases hr1 : root (-a) (2 * v0z) (-v0z * v0z / (2 * a) - (alt - s0z)) 1 with _ | r1
        · rw [hr1] at h
          exact Option.noConfusion h
        rcases hr2 : root (-a) (2 * v0z) (-v0z * v0z / (2 * a) - (alt - s0z)) (-1) with _ | r2
        · rw [hr1, hr2] at h
          exact Option.noConfusion h
        rw [hr1, hr2] at h
        have hq1 := root_is_root (Or.inl rfl) hr1
        have hq2 := root_is_root (Or.inr rfl) hr2
        injection h with h'
        simp only [Prod.mk.injEq] at h'
        obtain ⟨e1, e2, e3, e4, e5⟩ := h'
        subst e1
        subst e2
        subst e3
        subst e4
        subst e5
        set T := (if r1 < 0 then r2 else if r2 < 0 then r1 else min r1 r2) with hTdef
        have hqT : -a * T ^ 2 + 2 * v0z * T +
            (-v0z * v0z / (2 * a) - (alt - s0z)) = 0 := by
          have hTr : T = r1 ∨ T = r2 := by
            rw [hTdef]
            split_ifs
            · exact Or.inr rfl
            · exact Or.inl rfl
            · rcases le_total r1 r2 with hle | hle
              · rw [min_eq_left hle]
                exact Or.inl rfl
              · rw [min_eq_right hle]
                exact Or.inr rfl
          rcases hTr with hT | hT <;> rw [hT]
          · exact hq1
          · exact hq2
        have hT0 : 0 ≤ T := by
          rcases ht1 with H | hz
          · exact H
          · subst hz
            rw [root, if_neg (neg_ne_zero.mpr hane)] at hr1 hr2
            by_cases hdisc : sq (2 * (0 : ℝ)) - 4 * -a * (-0 * 0 / (2 * a) - (alt - s0z)) < 0
            · rw [if_pos hdisc] at hr1
              exact Option.noConfusion hr1
            · rw [if_neg hdisc] at hr1 hr2
              obtain rfl := Option.some.inj hr1
              obtain rfl := Option.some.inj hr2
              rw [hTdef]
              split_ifs with hb1 hb2
              · refine div_nonneg_iff.mpr (Or.inr ⟨?_, by linarith⟩)
                have := Real.sqrt_nonneg
                  (sq (2 * (0 : ℝ)) - 4 * -a * (-0 * 0 / (2 * a) - (alt - s0z)))
                linarith
              · exact not_lt.mp hb1
              · exact le_min (not_lt.mp hb1) (not_lt.mp hb2)
        have hv1 : V1 v0z (-a) T ≤ 0 := by
          rw [V1]
          have := mul_nonneg ha.le hT0
          linarith
        have hT3nn : 0 ≤ T3f (V1 v0z (-a) T) a := by
          rw [T3f]
          exact div_nonneg (by linarith) ha.le
        refine ⟨hT0, le_rfl, by linarith, ?_, ?_⟩
        · intro hz
          rw [if_neg hudn]
        · intro t htt
          clear hr1 hr2 hq1 hq2
          clear_value T
          rw [vsLevelOutCalc]
          split_ifs with p1 p3
          · -- forced to the single instant
            have hle : T3f (V1 v0z (-a) T) a ≤ 0 := by linarith
            have h0 : T3f (V1 v0z (-a) T) a = 0 := le_antisymm hle hT3nn
            have hv1z : V1 v0z (-a) T = 0 := by
              rw [T3f] at h0
              rcases div_eq_zero_iff.mp h0 with hx | hx
              · exact neg_eq_zero.mp hx
              · exact absurd hx hane
            have hteq : t = T := by
              refine le_antisymm p1 ?_
              rw [h0] at htt
              linarith
            rw [hteq, Prod.mk.injEq]
            rw [V1] at hv1z
            constructor
            · simp only [S1]
              have hveq : v0z = a * T := by linarith
              subst hveq
              have hCC : (-(a * T) * (a * T) / (2 * a) : ℝ) = -(a * T ^ 2 / 2) := by
                field_simp
                ring
              rw [hCC] at hqT
              linear_combination hqT
            · exact hv1z
          · have hteq : t = T + T3f (V1 v0z (-a) T) a := le_antisymm p3 htt
            subst hteq
            rw [Prod.mk.injEq]
            rw [show T3f (V1 v0z (-a) T) a = -V1 v0z (-a) T / a from by rw [T3f]]
            set Δ := -V1 v0z (-a) T / a with hΔdef
            clear_value Δ
            have hwΔ : V1 v0z (-a) T = -(a * Δ) := by
              rw [hΔdef]
              field_simp
            have hveq : v0z = -(a * Δ) + a * T := by
              rw [V1] at hwΔ
              linarith
            subst hveq
            have hCC : (-(-(a * Δ) + a * T) * (-(a * Δ) + a * T) / (2 * a) : ℝ) =
                -(a * (T - Δ) ^ 2 / 2) := by
              field_simp
              ring
            rw [hCC] at hqT
            constructor
            · simp only [S1, V1]
              linear_combination hqT
            · ring
          · rfl

/-- Specification of `vsLevelOutTimes` (single-acceleration setting
`accelup = a > 0`, `acceldown = -a`): returned phase times are ordered and
the profile is exactly at the target altitude with zero vertical speed from
the last phase boundary on. -/
lemma vsLevelOutTimes_closure (s0z v0z cRate alt a : ℝ) (acrc : Bool) (ha : 0 < a)
    {t1 t2 t3 a1 a2 : ℝ}
    (h : vsLevelOutTimes s0z v0z cRate alt a (-a) acrc = some (t1, t2, t3, a1, a2))
    (ht1 : 0 ≤ t1) :
    t1 ≤ t2 ∧ t2 ≤ t3 ∧
      ∀ t, t3 ≤ t → vsLevelOutCalc s0z v0z alt a1 a2 t1 t2 t3 t = (alt, 0) := by
  have hane : a ≠ 0 := ne_of_gt ha
  rw [vsLevelOutTimes] at h
  rcases le_or_lt s0z alt with hud | hud
  · -- climb (or level) target
    simp only [if_pos hud] at h
    by_cases hc1 : ((if 0 ≤ v0z then (1 : ℝ) else -1) = 1 ∨ v0z = 0)
    · rw [if_pos hc1, if_neg (neg_ne_zero.mpr hane)] at h
      have hv0 : 0 ≤ v0z := by
        rcases hc1 with hs | hz
        · by_contra hneg
          rw [if_neg hneg] at hs
          norm_num at hs
        · exact hz.ge
      by_cases hcase : |S3f v0z (-a)| ≤ |alt - s0z|
      · rw [if_pos hcase] at h
        obtain ⟨-, h12, h23, -, hclo⟩ := base_spec s0z v0z cRate alt a acrc ha
          ⟨fun _ => hv0, fun hlt => absurd hud (not_le.mpr hlt)⟩ h (Or.inl ht1)
        exact ⟨h12, h23, hclo⟩
      · rw [if_neg hcase] at h
        have hS3 : S3f v0z (-a) = v0z ^ 2 / (2 * a) := by
          simp only [S3f, S1, T3f]
          field_simp
          ring
        push_neg at hcase
        have hS3nn : 0 ≤ S3f v0z (-a) := by
          rw [hS3]
          positivity
        have hover : alt < s0z + S3f v0z (-a) := by
          have h3 : alt - s0z ≤ |alt - s0z| := le_abs_self _
          rw [abs_of_nonneg hS3nn] at hcase
          linarith
        rcases hin : vsLevelOutTimesBase (s0z + S3f v0z (-a)) 0 cRate alt a (-a) acrc
          with _ | q
        · rw [hin] at h
          exact Option.noConfusion h
        obtain ⟨τ1, τ2, τ3, b1, b2⟩ := q
        rw [hin] at h
        injection h with h'
        simp only [Prod.mk.injEq] at h'
        obtain ⟨e1, e2, e3, e4, e5⟩ := h'
        subst e1
        subst e2
        subst e3
        obtain ⟨hτ0, hτ12, hτ23, hchar, hclo⟩ := base_spec (s0z + S3f v0z (-a)) 0 cRate alt
          a acrc ha ⟨fun _ => le_rfl, fun _ => le_rfl⟩ hin (Or.inr rfl)
        have hb1 : b1 = -a := by
          have := hchar rfl
          rwa [if_neg (not_le.mpr hover)] at this
        rw [← e4, ← e5, hb1]
        rw [hb1] at hclo
        refine ⟨by linarith, by linarith, ?_⟩
        intro t htt
        have hshift := vsLevelOutCalc_shift s0z v0z alt (-a) b2 τ1 τ2 τ3
          (t - -v0z / -a) (-v0z / -a) (neg_ne_zero.mpr hane) (by field_simp)
        rw [show t = -v0z / -a + (t - -v0z / -a) from by ring, hshift]
        exact hclo _ (by linarith)
    · rw [if_neg hc1, if_neg hane] at h
      push_neg at hc1
      obtain ⟨hs1, hz1⟩ := hc1
      have hvneg : v0z < 0 := by
        by_contra hge
        push_neg at hge
        rw [if_pos hge] at hs1
        exact hs1 rfl
      have hS3 : S3f v0z a = -(v0z ^ 2 / (2 * a)) := by
        simp only [S3f, S1, T3f]
        field_simp
        ring
      have hunder : s0z + S3f v0z a ≤ alt := by
        have hp : 0 ≤ v0z ^ 2 / (2 * a) := by positivity
        rw [hS3]
        linarith
      rcases hin : vsLevelOutTimesBase (s0z + S3f v0z a) 0 cRate alt a (-a) acrc
        with _ | q
      · rw [hin] at h
        exact Option.noConfusion h
      obtain ⟨τ1, τ2, τ3, b1, b2⟩ := q
      rw [hin] at h
      injection h with h'
      simp only [Prod.mk.injEq] at h'
      obtain ⟨e1, e2, e3, e4, e5⟩ := h'
      subst e1
      subst e2
      subst e3
      obtain ⟨hτ0, hτ12, hτ23, hchar, hclo⟩ := base_spec (s0z + S3f v0z a) 0 cRate alt
        a acrc ha ⟨fun _ => le_rfl, fun _ => le_rfl⟩ hin (Or.inr rfl)
      have hb1 : b1 = a := by
        have := hchar rfl
        rwa [if_pos hunder] at this
      rw [← e4, ← e5, hb1]
      rw [hb1] at hclo
      refine ⟨by linarith, by linarith, ?_⟩
      intro t htt
      have hshift := vsLevelOutCalc_shift s0z v0z alt a b2 τ1 τ2 τ3
        (t - -v0z / a) (-v0z / a) hane (by field_simp)
      rw [show t = -v0z / a + (t - -v0z / a) from by ring, hshift]
      exact hclo _ (by linarith)
  · -- descend target
    have hudn : ¬ s0z ≤ alt := not_le.mpr hud
    simp only [if_neg hudn] at h
    by_cases hc1 : ((if 0 ≤ v0z then (1 : ℝ) else -1) = -1 ∨ v0z = 0)
    · rw [if_pos hc1, if_neg hane] at h
      have hv0 : v0z ≤ 0 := by
        rcases hc1 with hs | hz
        · by_contra hpos
          push_neg at hpos
          rw [if_pos hpos.le] at hs
          norm_num at hs
        · exact hz.le
      by_cases hcase : |S3f v0z a| ≤ |alt - s0z|
      · rw [if_pos hcase] at h
        obtain ⟨-, h12, h23, -, hclo⟩ := base_spec s0z v0z cRate alt a acrc ha
          ⟨fun hle => absurd hud (not_lt.mpr hle), fun _ => hv0⟩ h (Or.inl ht1)
        exact ⟨h12, h23, hclo⟩
      · rw [if_neg hcase] at h
        have hS3 : S3f v0z a = -(v0z ^ 2 / (2 * a)) := by
          simp only [S3f, S1, T3f]
          field_simp
          ring
        push_neg at hcase
        have hS3np : S3f v0z a ≤ 0 := by
          have hp : 0 ≤ v0z ^ 2 / (2 * a) := by positivity
          rw [hS3]
          linarith
        have hunder : s0z + S3f v0z a < alt := by
          have h3 : s0z - alt ≤ |alt - s0z| := by
            rw [abs_sub_comm]
            exact le_abs_self _
          rw [abs_of_nonpos hS3np] at hcase
          linarith
        rcases hin : vsLevelOutTimesBase (s0z + S3f v0z a) 0 cRate alt a (-a) acrc
          with _ | q
        · rw [hin] at h
          exact Option.noConfusion h
        obtain ⟨τ1, τ2, τ3, b1, b2⟩ := q
        rw [hin] at h
        injection h with h'
        simp only [Prod.mk.injEq] at h'
        obtain ⟨e1, e2, e3, e4, e5⟩ := h'
        subst e1
        subst e2
        subst e3
        obtain ⟨hτ0, hτ12, hτ23, hchar, hclo⟩ := base_spec (s0z + S3f v0z a) 0 cRate alt
          a acrc ha ⟨fun _ => le_rfl, fun _ => le_rfl⟩ hin (Or.inr rfl)
        have hb1 : b1 = a := by
          have := hchar rfl
          rwa [if_pos hunder.le] at this
        rw [← e4, ← e5, hb1]
        rw [hb1] at hclo
        refine ⟨by linarith, by linarith, ?_⟩
        intro t htt
        have hshift := vsLevelOutCalc_shift s0z v0z alt a b2 τ1 τ2 τ3
          (t - -v0z / a) (-v0z / a) hane (by field_simp)
        rw [show t = -v0z / a + (t - -v0z / a) from by ring, hshift]
        exact hclo _ (by linarith)
    · rw [if_neg hc1, if_neg (neg_ne_zero.mpr hane)] at h
      push_neg at hc1
      obtain ⟨hs1, hz1⟩ := hc1
      have hvpos : 0 < v0z := by
        rcases lt_trichotomy v0z 0 with hn | hz | hp
        · exfalso
          rw [if_neg (not_le.mpr hn)] at hs1
          exact hs1 rfl
        · exact absurd hz hz1
        · exact hp
      have hS3 : S3f v0z (-a) = v0z ^ 2 / (2 * a) := by
        simp only [S3f, S1, T3f]
        field_simp
        ring
      have hover : alt < s0z + S3f v0z (-a) := by
        have hp : 0 < v0z ^ 2 / (2 * a) := by positivity
        rw [hS3]
        linarith
      rcases hin : vsLevelOutTimesBase (s0z + S3f v0z (-a)) 0 cRate alt a (-a) acrc
        with _ | q
      · rw [hin] at h
        exact Option.noConfusion h
      obtain ⟨τ1, τ2, τ3, b1, b2⟩ := q
      rw [hin] at h
      injection h with h'
      simp only [Prod.mk.injEq] at h'
      obtain ⟨e1, e2, e3, e4, e5⟩ := h'
      subst e1
      subst e2
      subst e3
      obtain ⟨hτ0, hτ12, hτ23, hchar, hclo⟩ := base_spec (s0z + S3f v0z (-a)) 0 cRate alt
        a acrc ha ⟨fun _ => le_rfl, fun _ => le_rfl⟩ hin (Or.inr rfl)
      have hb1 : b1 = -a := by
        have := hchar rfl
        rwa [if_neg (not_le.mpr hover)] at this
      rw [← e4, ← e5, hb1]
      rw [hb1] at hclo
      refine ⟨by linarith, by linarith, ?_⟩
      intro t htt
      have hshift := vsLevelOutCalc_shift s0z v0z alt (-a) b2 τ1 τ2 τ3
        (t - -v0z / -a) (-v0z / -a) (neg_ne_zero.mpr hane) (by field_simp)
      rw [show t = -v0z / -a + (t - -v0z / -a) from by ring, hshift]
      exact hclo _ (by linarith)

/-- The claim's universal statement fails for a negative acceleration
argument: `vsLevelOut` with `a = -2` yields a feasible time tuple
(`T1 = 0 ≥ 0`) whose phase boundaries are out of order, and at `t = 19 ≥ T3`
the returned state is 5 m away from the target altitude with vertical
speed 5. -/
theorem C7_level_out_counterexample :
    vsLevelOutTimes 0 5 5 100 (-2) (-(-2)) true = some (0, 85 / 4, 75 / 4, -2, 2) ∧
    (0 : ℝ) ≤ 0 ∧ (75 / 4 : ℝ) ≤ 19 ∧
    vsLevelOut (⟨0, 0, 0⟩, Velocity.mkTrkGsVs 0 0 5) 19 5 100 (-2) true =
      some (⟨0, 0, 95⟩, (Velocity.mkTrkGsVs 0 0 5).mkVs 5) ∧
    ¬ (|((⟨0, 0, 95⟩ : Vect3).z) - 100| ≤ 1e-6) ∧
    ((Velocity.mkTrkGsVs 0 0 5).mkVs 5).vz = 5 := by
  have hneg2 : (-(-2 : ℝ)) = 2 := by norm_num
  have habs254 : |(25 : ℝ) / 4| = 25 / 4 := abs_of_nonneg (by norm_num)
  have hbase : vsLevelOutTimesBase 0 5 5 100 (-2) 2 true = some (0, 85 / 4, 75 / 4, -2, 2) := by
    rw [vsLevelOutTimesBase]
    norm_num [S1, V1, S3f, T3f, habs254]
  have htimes : vsLevelOutTimes 0 5 5 100 (-2) 2 true = some (0, 85 / 4, 75 / 4, -2, 2) := by
    rw [vsLevelOutTimes]
    norm_num [S1, S3f, T3f, habs254]
    exact hbase
  have hcalc : vsLevelOutCalc 0 5 100 (-2) 2 0 (85 / 4) (75 / 4) 19 = (95, 5) := by
    rw [vsLevelOutCalc]
    norm_num [S1, V1]
  have hcalculation : vsLevelOutCalculation (⟨0, 0, 0⟩, Velocity.mkTrkGsVs 0 0 5) 100
      (-2) 2 0 (85 / 4) (75 / 4) 19 = (⟨0, 0, 95⟩, (Velocity.mkTrkGsVs 0 0 5).mkVs 5) := by
    rw [vsLevelOutCalculation]
    dsimp only [Velocity.mkTrkGsVs, Velocity.trkgs2vx, Velocity.trkgs2vy]
    rw [hcalc]
    simp [Vect3.linear, Vect3.mkZ, Velocity.vect3, Velocity.mkVs, Velocity.mkTrkGsVs,
      Velocity.trkgs2vx, Velocity.trkgs2vy]
  refine ⟨by rw [hneg2]; exact htimes, le_rfl, by norm_num, ?_, by norm_num, rfl⟩
  rw [vsLevelOut]
  rw [show vsLevelOutTimes ((⟨0, 0, 0⟩ : Vect3), Velocity.mkTrkGsVs 0 0 5).1.z
      ((⟨0, 0, 0⟩ : Vect3), Velocity.mkTrkGsVs 0 0 5).2.vz 5 100 (-2) (-(-2)) true =
      some ((0 : ℝ), 85 / 4, 75 / 4, -2, 2) from by rw [hneg2]; exact htimes]
  exact congrArg some hcalculation

/-- C7.  Level-out total altitude, amended: for a positive acceleration
`a > 0`, whenever `vsLevelOutTimes` yields a feasible tuple (`T1 ≥ 0`), then
for every query time `t ≥ T3` the state returned by `vsLevelOut`
has altitude within `1e-6` m of `targetAlt` (in the real-number model it is
exact) and vertical speed `0`.  The sign restriction is necessary: see the
counterexample with `a = -2`. -/
theorem C7_level_out_total_altitude (sv0 : Vect3 × Velocity)
    (t climbRate targetAlt a : ℝ) (acrc : Bool) (ha : 0 < a) (t1 t2 t3 a1 a2 : ℝ)
    (htimes : vsLevelOutTimes sv0.1.z sv0.2.vz climbRate targetAlt a (-a) acrc =
      some (t1, t2, t3, a1, a2))
    (ht1 : 0 ≤ t1) (ht : t3 ≤ t) :
    ∃ p, vsLevelOut sv0 t climbRate targetAlt a acrc = some p ∧
      |p.1.z - targetAlt| ≤ 1e-6 ∧ p.2.vz = 0 := by
  obtain ⟨-, -, hclo⟩ := vsLevelOutTimes_closure sv0.1.z sv0.2.vz climbRate targetAlt a
    acrc ha htimes ht1
  have hcalc := hclo t ht
  have hp : vsLevelOutCalculation sv0 targetAlt a1 a2 t1 t2 t3 t =
      (((sv0.1).linear sv0.2.vect3 t).mkZ targetAlt, sv0.2.mkVs 0) := by
    rw [vsLevelOutCalculation, hcalc]
  refine ⟨(((sv0.1).linear sv0.2.vect3 t).mkZ targetAlt, sv0.2.mkVs 0), ?_, ?_, rfl⟩
  · rw [vsLevelOut, htimes]
    exact congrArg some hp
  · simp only [Vect3.mkZ]
    norm_num

theorem C7_level_out_total_altitude_witness :
    ∃ p, vsLevelOut (⟨0, 0, 0⟩, Velocity.mkTrkGsVs 0 0 0) 5 1 0 1 false = some p ∧
      |p.1.z - 0| ≤ 1e-6 ∧ p.2.vz = 0 := by
  have h1 : vsLevelOutTimesBase 0 0 1 0 1 (-1) false = some (0, 0, 0, 1, -1) := by
    rw [vsLevelOutTimesBase]
    norm_num [S1, V1, S3f, T3f, root, sq, Real.sqrt_zero, min_self]
  have h2 : vsLevelOutTimes 0 0 1 0 1 (-1) false = some (0, 0, 0, 1, -1) := by
    rw [vsLevelOutTimes]
    norm_num [S1, S3f, T3f]
    exact h1
  exact C7_level_out_total_altitude (⟨0, 0, 0⟩, Velocity.mkTrkGsVs 0 0 0) 5 1 0 1 false
    (by norm_num) 0 0 0 1 (-1)
    (by rw [show (-(1 : ℝ)) = -1 from rfl]; exact h2) le_rfl (by norm_num)

/-! ## Claim C8: linear-in-limit of the constant-rate turn (Kinematics.cpp) -/

open Filter in
lemma tendsto_sin_slope (t : ℝ) :
    Tendsto (fun ω => Real.sin (ω * t) / ω) (nhdsWithin (0 : ℝ) {(0 : ℝ)}ᶜ) (nhds t) := by
  have h1 : HasDerivAt (fun ω : ℝ => ω * t) t 0 := by
    simpa using (hasDerivAt_id (0 : ℝ)).mul_const t
  have h2 : HasDerivAt (fun ω : ℝ => Real.sin (ω * t)) t 0 := by
    have h3 := (Real.hasDerivAt_sin (0 * t)).comp 0 h1
    simpa using h3
  refine Tendsto.congr' ?_ (hasDerivAt_iff_tendsto_slope.mp h2)
  filter_upwards [self_mem_nhdsWithin] with ω hω
  rw [slope_def_field]
  simp

open Filter in
lemma tendsto_cos_slope (t : ℝ) :
    Tendsto (fun ω => (Real.cos (ω * t) - 1) / ω) (nhdsWithin (0 : ℝ) {(0 : ℝ)}ᶜ)
      (nhds 0) := by
  have h1 : HasDerivAt (fun ω : ℝ => ω * t) t 0 := by
    simpa using (hasDerivAt_id (0 : ℝ)).mul_const t
  have h2 : HasDerivAt (fun ω : ℝ => Real.cos (ω * t)) 0 0 := by
    have h3 := (Real.hasDerivAt_cos (0 * t)).comp 0 h1
    simpa using h3
  refine Tendsto.congr' ?_ (hasDerivAt_iff_tendsto_slope.mp h2)
  filter_upwards [self_mem_nhdsWithin] with ω hω
  rw [slope_def_field]
  simp

open Filter in
/-- A function agreeing with `g` away from `0` and taking the limit value at
`0` converges at `0`. -/
lemma tendsto_of_eq_on_punctured {g f : ℝ → ℝ} {L : ℝ}
    (hg : Tendsto g (nhdsWithin (0 : ℝ) {(0 : ℝ)}ᶜ) (nhds L))
    (hf0 : f 0 = L) (hfg : ∀ ω, ω ≠ 0 → f ω = g ω) :
    Tendsto f (nhds (0 : ℝ)) (nhds L) := by
  rw [← nhdsWithin_compl_singleton_sup_pure (0 : ℝ), tendsto_sup]
  constructor
  · refine Tendsto.congr' ?_ hg
    filter_upwards [self_mem_nhdsWithin] with ω hω
    exact (hfg ω hω).symm
  · have h := tendsto_pure_nhds f 0
    rwa [hf0] at h

/-- The universal `< 1e-6` accuracy claim fails for unbounded time: at
`ω = 1e-12` and `t = 2π·10¹²` the turn closes a full circle while the linear
projection is `2π·10¹²` m away. -/
theorem C8_turn_counterexample :
    (turnOmega ⟨0, 0, 0⟩ (Velocity.mkTrkGsVs 0 1 0) (2 * Real.pi * 1e12) 1e-12).1.y = 0 ∧
    (Kinematics.linear ⟨0, 0, 0⟩ (Velocity.mkTrkGsVs 0 1 0) (2 * Real.pi * 1e12)).1.y =
      2 * Real.pi * 1e12 ∧
    ¬ (|(turnOmega ⟨0, 0, 0⟩ (Velocity.mkTrkGsVs 0 1 0) (2 * Real.pi * 1e12) 1e-12).1.y -
        (Kinematics.linear ⟨0, 0, 0⟩ (Velocity.mkTrkGsVs 0 1 0)
          (2 * Real.pi * 1e12)).1.y| < 1e-6) := by
  have hωt : (1e-12 : ℝ) * (2 * Real.pi * 1e12) = 2 * Real.pi := by
    have h12 : (1e-12 : ℝ) * 1e12 = 1 := by norm_num
    calc (1e-12 : ℝ) * (2 * Real.pi * 1e12) = (1e-12 * 1e12) * (2 * Real.pi) := by ring
    _ = 2 * Real.pi := by rw [h12, one_mul]
  have hturn : (turnOmega ⟨0, 0, 0⟩ (Velocity.mkTrkGsVs 0 1 0)
      (2 * Real.pi * 1e12) 1e-12).1.y = 0 := by
    rw [turnOmega, if_neg (by norm_num : (1e-12 : ℝ) ≠ 0)]
    dsimp only [Velocity.mkAddTrk, Velocity.mkTrkGsVs, Velocity.trkgs2vx, Velocity.trkgs2vy]
    rw [hωt]
    simp [Real.sin_two_pi, Real.cos_two_pi]
  have hlin : (Kinematics.linear ⟨0, 0, 0⟩ (Velocity.mkTrkGsVs 0 1 0)
      (2 * Real.pi * 1e12)).1.y = 2 * Real.pi * 1e12 := by
    dsimp only [Kinematics.linear, Vect3.linear, Velocity.vect3, Velocity.mkTrkGsVs,
      Velocity.trkgs2vx, Velocity.trkgs2vy]
    simp
  refine ⟨hturn, hlin, ?_⟩
  rw [hturn, hlin]
  push_neg
  rw [zero_sub, abs_neg, abs_of_nonneg (by positivity)]
  nlinarith [Real.two_le_pi]

open Filter in
/-- C8, amended.  `turnOmega` tends to `linear` as `ω → 0` (positions `x`,`y`
and Cartesian velocities; the altitude coordinate, vertical speed and ground
speed agree for every `ω`), it coincides exactly with `linear` at `ω = 0`
(the `almost_equals(ω,0)` guard of the implementation), and the `1e-6`
accuracy of `ω = 1e-12` holds for bounded states: `|vx|,|vy| ≤ 100` m/s and
`0 ≤ t ≤ 100` s.  The universal accuracy claim is false for unbounded `t`:
see the counterexample at `t = 2π·10¹²`. -/
theorem C8_turn_linear_in_limit (s : Vect3) (v : Velocity) (t : ℝ)
    (hvx : |v.vx| ≤ 100) (hvy : |v.vy| ≤ 100) (ht0 : 0 ≤ t) (ht100 : t ≤ 100) :
    (∀ (s' : Vect3) (v' : Velocity) (t' : ℝ),
      turnOmega s' v' t' 0 = Kinematics.linear s' v' t' ∧
      Tendsto (fun ω => (turnOmega s' v' t' ω).1.x) (nhds 0)
        (nhds ((Kinematics.linear s' v' t').1.x)) ∧
      Tendsto (fun ω => (turnOmega s' v' t' ω).1.y) (nhds 0)
        (nhds ((Kinematics.linear s' v' t').1.y)) ∧
      (∀ ω, (turnOmega s' v' t' ω).1.z = (Kinematics.linear s' v' t').1.z) ∧
      Tendsto (fun ω => (turnOmega s' v' t' ω).2.vx) (nhds 0)
        (nhds ((Kinematics.linear s' v' t').2.vx)) ∧
      Tendsto (fun ω => (turnOmega s' v' t' ω).2.vy) (nhds 0)
        (nhds ((Kinematics.linear s' v' t').2.vy)) ∧
      (∀ ω, (turnOmega s' v' t' ω).2.vz = (Kinematics.linear s' v' t').2.vz ∧
        (turnOmega s' v' t' ω).2.gs = (Kinematics.linear s' v' t').2.gs)) ∧
    |(turnOmega s v t 1e-12).1.x - (Kinematics.linear s v t).1.x| < 1e-6 ∧
    |(turnOmega s v t 1e-12).1.y - (Kinematics.linear s v t).1.y| < 1e-6 ∧
    (turnOmega s v t 1e-12).1.z = (Kinematics.linear s v t).1.z := by
  have hpart1 : ∀ (s' : Vect3) (v' : Velocity) (t' : ℝ),
      turnOmega s' v' t' 0 = Kinematics.linear s' v' t' ∧
      Tendsto (fun ω => (turnOmega s' v' t' ω).1.x) (nhds 0)
        (nhds ((Kinematics.linear s' v' t').1.x)) ∧
      Tendsto (fun ω => (turnOmega s' v' t' ω).1.y) (nhds 0)
        (nhds ((Kinematics.linear s' v' t').1.y)) ∧
      (∀ ω, (turnOmega s' v' t' ω).1.z = (Kinematics.linear s' v' t').1.z) ∧
      Tendsto (fun ω => (turnOmega s' v' t' ω).2.vx) (nhds 0)
        (nhds ((Kinematics.linear s' v' t').2.vx)) ∧
      Tendsto (fun ω => (turnOmega s' v' t' ω).2.vy) (nhds 0)
        (nhds ((Kinematics.linear s' v' t').2.vy)) ∧
      (∀ ω, (turnOmega s' v' t' ω).2.vz = (Kinematics.linear s' v' t').2.vz ∧
        (turnOmega s' v' t' ω).2.gs = (Kinematics.linear s' v' t').2.gs) := by
    intro s' v' t'
    have hωt : Tendsto (fun ω : ℝ => ω * t') (nhds 0) (nhds 0) := by
      have h : Tendsto (fun ω : ℝ => ω * t') (nhds 0) (nhds (0 * t')) :=
        Tendsto.mul_const t' tendsto_id
      simpa using h
    have hcosc : Tendsto (fun ω : ℝ => Real.cos (ω * t')) (nhds 0) (nhds 1) := by
      have h := (Real.continuous_cos.tendsto 0).comp hωt
      simpa using h
    have hsinc : Tendsto (fun ω : ℝ => Real.sin (ω * t')) (nhds 0) (nhds 0) := by
      have h := (Real.continuous_sin.tendsto 0).comp hωt
      simpa using h
    refine ⟨by rw [turnOmega, if_pos rfl], ?_, ?_, ?_, ?_, ?_, ?_⟩
    · -- x coordinate
      have hg := (((tendsto_sin_slope t').const_mul v'.vx).sub
        ((tendsto_cos_slope t').const_mul v'.vy)).const_add s'.x
      rw [show s'.x + (v'.vx * t' - v'.vy * 0) = (Kinematics.linear s' v' t').1.x from by
        dsimp only [Kinematics.linear, Vect3.linear, Velocity.vect3]
        ring] at hg
      refine tendsto_of_eq_on_punctured hg ?_ ?_
      · rw [turnOmega, if_pos rfl]
      · intro ω hω
        rw [turnOmega, if_neg hω]
        dsimp only [Velocity.mkAddTrk]
        field_simp
        ring
    · -- y coordinate
      have hg := (((tendsto_cos_slope t').const_mul v'.vx).add
        ((tendsto_sin_slope t').const_mul v'.vy)).const_add s'.y
      rw [show s'.y + (v'.vx * 0 + v'.vy * t') = (Kinematics.linear s' v' t').1.y from by
        dsimp only [Kinematics.linear, Vect3.linear, Velocity.vect3]
        ring] at hg
      refine tendsto_of_eq_on_punctured hg ?_ ?_
      · rw [turnOmega, if_pos rfl]
      · intro ω hω
        rw [turnOmega, if_neg hω]
        dsimp only [Velocity.mkAddTrk]
        field_simp
        ring
    · intro ω
      rw [turnOmega]
      split_ifs <;> rfl
    · -- vx
      have hg := ((hcosc.const_mul v'.vx).add (hsinc.const_mul v'.vy)).mono_left
        (nhdsWithin_le_nhds (s := {(0 : ℝ)}ᶜ))
      rw [show v'.vx * 1 + v'.vy * 0 = (Kinematics.linear s' v' t').2.vx from by
        dsimp only [Kinematics.linear]
        ring] at hg
      refine tendsto_of_eq_on_punctured hg ?_ ?_
      · rw [turnOmega, if_pos rfl]
      · intro ω hω
        rw [turnOmega, if_neg hω]
        dsimp only [Velocity.mkAddTrk]
    · -- vy
      have hg := (((hsinc.const_mul v'.vx).neg.add (hcosc.const_mul v'.vy))).mono_left
        (nhdsWithin_le_nhds (s := {(0 : ℝ)}ᶜ))
      rw [show -(v'.vx * 0) + v'.vy * 1 = (Kinematics.linear s' v' t').2.vy from by
        dsimp only [Kinematics.linear]
        ring] at hg
      refine tendsto_of_eq_on_punctured hg ?_ ?_
      · rw [turnOmega, if_pos rfl]
      · intro ω hω
        rw [turnOmega, if_neg hω]
        dsimp only [Velocity.mkAddTrk]
        ring
    · intro ω
      rw [turnOmega]
      split_ifs <;> exact ⟨rfl, rfl⟩
  have hω0 : (1e-12 : ℝ) ≠ 0 := by norm_num
  have hθ0 : 0 ≤ (1e-12 : ℝ) * t := mul_nonneg (by norm_num) ht0
  have hθ1 : (1e-12 : ℝ) * t ≤ 1e-10 := by nlinarith
  have hcos_ub : Real.cos (1e-12 * t) ≤ 1 := Real.cos_le_one _
  have hcos_lb : 1 - (1e-12 * t) ^ 2 / 2 ≤ Real.cos (1e-12 * t) :=
    Real.one_sub_sq_div_two_le_cos
  have hsin_ub : Real.sin (1e-12 * t) ≤ 1e-12 * t := Real.sin_le hθ0
  have hsin_lb : 1e-12 * t - (1e-12 * t) ^ 3 / 4 ≤ Real.sin (1e-12 * t) := by
    rcases eq_or_lt_of_le hθ0 with h0 | h0
    · rw [← h0]
      norm_num
    · exact (Real.sin_gt_sub_cube h0 (by nlinarith)).le
  have hcb : |1 - Real.cos (1e-12 * t)| ≤ (1e-12 * t) ^ 2 / 2 :=
    abs_le.mpr ⟨by nlinarith [sq_nonneg (1e-12 * t)], by nlinarith⟩
  have hsb : |Real.sin (1e-12 * t) - 1e-12 * t| ≤ (1e-12 * t) ^ 3 / 4 :=
    abs_le.mpr ⟨by nlinarith, by nlinarith [pow_nonneg hθ0 3]⟩
  have hfin : ∀ A B : ℝ, |A| ≤ 100 → |B| ≤ 100 →
      |(B * (1 - Real.cos (1e-12 * t)) + A * (Real.sin (1e-12 * t) - 1e-12 * t)) / 1e-12|
        < 1e-6 := by
    intro A B hA hB
    rw [abs_div, abs_of_pos (show (0 : ℝ) < 1e-12 by norm_num),
      div_lt_iff₀ (show (0 : ℝ) < 1e-12 by norm_num)]
    calc |B * (1 - Real.cos (1e-12 * t)) + A * (Real.sin (1e-12 * t) - 1e-12 * t)|
        ≤ |B * (1 - Real.cos (1e-12 * t))| + |A * (Real.sin (1e-12 * t) - 1e-12 * t)| :=
          abs_add _ _
      _ = |B| * |1 - Real.cos (1e-12 * t)| + |A| * |Real.sin (1e-12 * t) - 1e-12 * t| := by
          rw [abs_mul, abs_mul]
      _ ≤ 100 * ((1e-12 * t) ^ 2 / 2) + 100 * ((1e-12 * t) ^ 3 / 4) := by
          gcongr
      _ < 1e-6 * 1e-12 := by
          nlinarith [pow_le_pow_left₀ hθ0 hθ1 2, pow_le_pow_left₀ hθ0 hθ1 3,
            pow_nonneg hθ0 2, pow_nonneg hθ0 3]
  refine ⟨hpart1, ?_, ?_, (hpart1 s v t).2.2.2.1 1e-12⟩
  · have hdx : (turnOmega s v t 1e-12).1.x - (Kinematics.linear s v t).1.x =
        (v.vy * (1 - Real.cos (1e-12 * t)) +
          v.vx * (Real.sin (1e-12 * t) - 1e-12 * t)) / 1e-12 := by
      rw [turnOmega, if_neg hω0]
      dsimp only [Velocity.mkAddTrk, Kinematics.linear, Vect3.linear, Velocity.vect3]
      field_simp
      ring
    rw [hdx]
    exact hfin v.vx v.vy hvx hvy
  · have hdy : (turnOmega s v t 1e-12).1.y - (Kinematics.linear s v t).1.y =
        (-v.vx * (1 - Real.cos (1e-12 * t)) +
          v.vy * (Real.sin (1e-12 * t) - 1e-12 * t)) / 1e-12 := by
      rw [turnOmega, if_neg hω0]
      dsimp only [Velocity.mkAddTrk, Kinematics.linear, Vect3.linear, Velocity.vect3]
      field_simp
      ring
    rw [hdy]
    have := hfin v.vy (-v.vx) hvy (by rwa [abs_neg])
    exact this

theorem C8_turn_linear_in_limit_witness :
    |(turnOmega ⟨0, 0, 0⟩ (Velocity.mkTrkGsVs 0 0 0) 1 1e-12).1.x -
      (Kinematics.linear ⟨0, 0, 0⟩ (Velocity.mkTrkGsVs 0 0 0) 1).1.x| < 1e-6 ∧
    turnOmega ⟨0, 0, 0⟩ (Velocity.mkTrkGsVs 0 0 0) 1 0 =
      Kinematics.linear ⟨0, 0, 0⟩ (Velocity.mkTrkGsVs 0 0 0) 1 := by
  have h := C8_turn_linear_in_limit ⟨0, 0, 0⟩ (Velocity.mkTrkGsVs 0 0 0) 1
    (by norm_num [Velocity.mkTrkGsVs, Velocity.trkgs2vx])
    (by norm_num [Velocity.mkTrkGsVs, Velocity.trkgs2vy])
    (by norm_num) (by norm_num)
  exact ⟨h.2.1, (h.1 ⟨0, 0, 0⟩ (Velocity.mkTrkGsVs 0 0 0) 1).1⟩

end Kinematics

end Daidalus

end
